import Mathlib

/-!
A shallow embedding of the Landmarks markup tokenizer
(src/typescript/src/landmarks-parser.ts, with the event/range data model of
landmarks-parser-types / part_004 and the character-class constants of
landmarks-parser-constants / part_002), together with proofs checking the
specification's claims about it.

Modelling conventions:
* the JS string `document` is a `List Char`; positions are `Nat` indices
  (JS indexes by UTF-16 code units; the parser's character classes are ASCII);
* `npos = Number.MAX_SAFE_INTEGER = 2^53 - 1` is kept as a concrete large
  sentinel, exactly as in the source ("The parsing code assumes that npos is
  a large positive integer"); theorems that need it assume
  `document.length < npos`, which holds for every real JS string;
* the throwing `LandmarksRange` constructor is modelled by `mkRange` in an
  `Except` monad (`ParseError.rangeError`); handler callbacks are modelled by
  accumulating the emitted events in a list;
* the `while` loops are modelled with explicit fuel; running out of fuel
  yields `ParseError.outOfFuel` (the corresponding JS execution would not
  terminate, which cannot produce events either), and the fuel supplied by
  `parse` is sufficient for every terminating run;
* `end` is a Lean keyword, so the range field is called `endPos`; the Lean
  names `startTagOpen` / `endTagOpen` stand for the source's
  StartTagPrefix / EndTagPrefix handler calls; `openTok` stands for the
  source constant `open` (a Lean keyword).
-/

/-- npos, as in landmarks-parser-types (part_004): Number.MAX_SAFE_INTEGER. -/
def npos : Nat := 2 ^ 53 - 1

/-- TagID is a string, as in the source. -/
def TagID := String
deriving DecidableEq, Repr

instance : BEq TagID := ⟨fun a b => decide (a = b)⟩

/-- UnknownTagID from landmarks-parser-types (part_004). -/
def UnknownTagID : TagID := "(unknown)"

/-- EndTagState from landmarks-parser-types (part_004). -/
inductive EndTagState where
  | unmatched
  | matched
  | autoclosedByParent
  | autoclosedBySibling
  | autoclosedByAncestor
deriving DecidableEq, Repr

/-- SelfClosingPolicy from landmarks-parser-types. -/
inductive SelfClosingPolicy where
  | allowed
  | prohibited
  | required
deriving DecidableEq, Repr

/-- SelfClosingMarker from landmarks-parser-types. -/
inductive SelfClosingMarker where
  | absent
  | present
deriving DecidableEq, Repr

/-- Half-open range [start, endPos) into the document (source: LandmarksRange).
The source field `end` is a Lean keyword and is called `endPos` here. -/
structure LandmarksRange where
  start : Nat
  endPos : Nat
deriving DecidableEq, Repr

/-- Errors of the embedding: the throwing LandmarksRange constructor
("Range positions must be positive integers with start <= end"), and
exhaustion of the loop fuel (a JS execution that would not terminate). -/
inductive ParseError where
  | rangeError
  | outOfFuel
deriving DecidableEq, Repr

/-- The LandmarksRange constructor (part_004): throws when end < start.
Positions are Nat, so the JS check start < 0 cannot fire. -/
def mkRange (start endPos : Nat) : Except ParseError LandmarksRange :=
  if endPos < start then .error .rangeError else .ok ⟨start, endPos⟩

/-- LandmarksRange.isComplete: end !== npos. -/
def LandmarksRange.isComplete (r : LandmarksRange) : Bool :=
  decide (r.endPos ≠ npos)

/-- LandmarksAttribute (part_004): name/value/all ranges. -/
structure LandmarksAttribute where
  name : LandmarksRange
  value : LandmarksRange
  all : LandmarksRange
deriving DecidableEq, Repr

/-- The LandmarksAttribute constructor (part_004): name = [startName,endName),
all = name, value = empty range at name.end. -/
def mkAttribute (startName endName : Nat) : Except ParseError LandmarksAttribute := do
  let n ← mkRange startName endName
  let v ← mkRange endName endName
  return { name := n, value := v, all := n }

/-- LandmarksStartTag (also standing for the StartTagPrefix view of the same
object: the source emits one mutable object for both handler calls, so each
event here carries a snapshot of its fields at emission time). -/
structure LandmarksStartTag where
  tagID : TagID := UnknownTagID
  name : LandmarksRange := ⟨npos, npos⟩
  all : LandmarksRange := ⟨npos, npos⟩
  selfClosingPolicy : SelfClosingPolicy := .allowed
  selfClosingMarker : SelfClosingMarker := .absent
deriving DecidableEq, Repr

/-- isSelfClosing from landmarks-parser-types. -/
def LandmarksStartTag.isSelfClosing (t : LandmarksStartTag) : Bool :=
  decide (t.selfClosingPolicy = .required) ||
    (decide (t.selfClosingPolicy = .allowed) && decide (t.selfClosingMarker = .present))

/-- LandmarksEndTag (also standing for the EndTagPrefix view, snapshotted). -/
structure LandmarksEndTag where
  tagID : TagID := UnknownTagID
  name : LandmarksRange := ⟨npos, npos⟩
  all : LandmarksRange := ⟨npos, npos⟩
  state : EndTagState := .unmatched
deriving DecidableEq, Repr

/-- The handler events, in emission order (landmarks-handler.ts).
`startTagOpen` / `endTagOpen` are the StartTagPrefix / EndTagPrefix calls;
`eof` carries the open-element array bottom-first, as the handler receives it. -/
inductive LandmarksEvent where
  | Text (r : LandmarksRange)
  | Comment (r : LandmarksRange)
  | CData (r : LandmarksRange)
  | Processing (r : LandmarksRange)
  | Declaration (r : LandmarksRange)
  | startTagOpen (t : LandmarksStartTag)
  | startTagAttr (a : LandmarksAttribute)
  | startTag (t : LandmarksStartTag)
  | endTagOpen (t : LandmarksEndTag)
  | endTagAttr (a : LandmarksAttribute)
  | endTag (t : LandmarksEndTag)
  | eof (openElements : List TagID)
deriving DecidableEq, Repr

/-- The policy contract (landmarks-policy.ts interface LandmarksPolicy). -/
structure LandmarksPolicy where
  getElementNameStart : List Char → Nat → Nat
  getTagID : String → TagID
  isSameElement : TagID → TagID → Bool
  isVoidElement : TagID → Bool
  isContentElement : TagID → Bool
  isOpaqueElement : TagID → Bool
  isAutoclosingSibling : TagID → TagID → Bool
  isAutocloseByParent : TagID → Bool
  isWildcardEndTag : TagID → Bool
  isAutoclosingEndTag : TagID → Bool

/-! Character-class constants, from landmarks-parser-constants (part_002). -/

def spaces : List Char := [' ', '\t', '\n', '\x0c', '\r']

def attribute_spaces : List Char := spaces ++ ['/']

def attribute_name_end : List Char := attribute_spaces ++ ['>', '=']

def attribute_value_end : List Char := spaces ++ ['>']

def element_name_end : List Char := attribute_spaces ++ ['>']

/-- Source constant `open` ("<"); `open` is a Lean keyword. -/
def openTok : List Char := ['<']

def open_end_tag : List Char := ['<', '/']

def open_comment : List Char := ['<', '!', '-', '-']

def open_cdata : List Char := ['<', '!', '[', 'C', 'D', 'A', 'T', 'A', '[']

def open_declaration : List Char := ['<', '!']

def open_processing : List Char := ['<', '?']

/-- Source constant `close` (">"). -/
def close : List Char := ['>']

def close_self : List Char := ['/', '>']

def close_comment : List Char := ['-', '-', '>']

def close_cdata : List Char := [']', ']', '>']

def close_declaration : List Char := ['>']

def close_processing : List Char := ['?', '>']

/-- Order is important (longest-prefix tie break is encoded by this order). -/
def open_choices : List (List Char) :=
  [open_end_tag, open_comment, open_cdata, open_declaration, open_processing, openTok]

def close_choices : List (List Char) := [close_self, close]

/-! String helpers, from the top of landmarks-parser.ts. -/

/-- JS document[i]: undefined (none) when out of range. -/
def charAt? (doc : List Char) (i : Nat) : Option Char := doc.get? i

/-- JS document.substr(start, len), clamped like the original. -/
def substr (doc : List Char) (start len : Nat) : List Char :=
  (doc.drop start).take len

def findAux (doc term : List Char) : Nat → Nat → Nat
  | 0, _ => npos
  | fuel + 1, pos =>
    if pos < doc.length then
      if term.isPrefixOf (doc.drop pos) then pos else findAux doc term fuel (pos + 1)
    else npos

/-- Source helper `find`: String.indexOf mapped to npos on failure.
Never called with an empty term. -/
def find (doc term : List Char) (position : Nat) : Nat :=
  findAux doc term (doc.length + 1 - position) position

def findFirstOfAux (doc characters : List Char) : Nat → Nat → Nat
  | 0, _ => npos
  | fuel + 1, pos =>
    match charAt? doc pos with
    | some c => if characters.contains c then pos else findFirstOfAux doc characters fuel (pos + 1)
    | none => npos

/-- Source helper `findFirstOf`. -/
def findFirstOf (doc characters : List Char) (position : Nat) : Nat :=
  findFirstOfAux doc characters (doc.length + 1 - position) position

def findFirstNotOfAux (doc characters : List Char) : Nat → Nat → Nat
  | 0, _ => npos
  | fuel + 1, pos =>
    match charAt? doc pos with
    | some c => if characters.contains c then findFirstNotOfAux doc characters fuel (pos + 1) else pos
    | none => npos

/-- Source helper `findFirstNotOf`. -/
def findFirstNotOf (doc characters : List Char) (position : Nat) : Nat :=
  findFirstNotOfAux doc characters (doc.length + 1 - position) position

/-- Source helper `choose`: the first of `choices` that occurs at `position`. -/
def choose (doc : List Char) (position : Nat) (choices : List (List Char)) :
    Option (List Char) :=
  choices.find? (fun choice => choice.isPrefixOf (doc.drop position))

/-- Parser-local helper findEnd: position just past the found term. -/
def findEnd (doc term : List Char) (position : Nat) : Nat :=
  let found := find doc term position
  if found ≠ npos then found + term.length else found

/-- Parser-local helper skipSpaces. -/
def skipSpaces (doc : List Char) (position : Nat) : Nat :=
  findFirstNotOf doc spaces position

/-- JS `document[pos - 1] === '/'` (document[-1] is undefined, hence the guard). -/
def prevIsSlash (doc : List Char) (pos : Nat) : Bool :=
  decide (0 < pos) && decide (charAt? doc (pos - 1) = some '/')

/-!
parseAttributes (landmarks-parser.ts lines 77-192), with the attribute
callback modelled by an accumulator. `pending` is the local variable `attr`
(flushed to the callback at the top of the next loop iteration or after the
loop). Returns the reported attributes in callback order and the final
search_position.
-/

def parseAttrsLoop (doc : List Char) :
    Nat → Nat → Option LandmarksAttribute → List LandmarksAttribute →
    Except ParseError (List LandmarksAttribute × Nat)
  | 0, _, _, _ => .error .outOfFuel
  | fuel + 1, search_position, pending, acc =>
    if search_position < doc.length then
      -- top of loop body: flush the pending attribute to the callback
      let acc1 := acc ++ pending.toList
      let sp1 := findFirstNotOf doc attribute_spaces search_position
      if sp1 = npos then .ok (acc1, sp1)
      else
        let choice := choose doc sp1 close_choices
        let sp2 := if choice = some close ∧ prevIsSlash doc sp1 = true then sp1 - 1 else sp1
        if choice.isSome then .ok (acc1, sp2)
        else
          let name_start := sp1
          let sp3 := findFirstOf doc attribute_name_end (name_start + 1)
          match mkAttribute name_start sp3 with
          | .error e => .error e
          | .ok attr =>
            if sp3 = npos then .ok (acc1 ++ [attr], sp3)
            else if (choose doc sp3 close_choices).isSome then .ok (acc1 ++ [attr], sp3)
            else
              let sp4 := skipSpaces doc sp3
              if sp4 = npos then .ok (acc1 ++ [attr], sp4)
              else if charAt? doc sp4 ≠ some '=' then
                parseAttrsLoop doc fuel sp4 (some attr) acc1
              else
                let sp5 := skipSpaces doc (sp4 + 1)
                if sp5 = npos then .ok (acc1 ++ [attr], sp5)
                else
                  let s? := charAt? doc sp5
                  if s? = some '"' ∨ s? = some '\'' then
                    let q : Char := if s? = some '"' then '"' else '\''
                    let vs0 := sp5 + 1
                    let value_start := if vs0 ≥ doc.length then npos else vs0
                    let value_end := find doc [q] value_start
                    let sp6 := if value_end ≠ npos then value_end + 1 else value_end
                    match mkRange value_start value_end with
                    | .error e => .error e
                    | .ok v =>
                      match mkRange name_start sp6 with
                      | .error e => .error e
                      | .ok a =>
                        parseAttrsLoop doc fuel sp6 (some { attr with value := v, all := a }) acc1
                  else
                    let value_end := findFirstOf doc attribute_value_end sp5
                    let found_end_tag := value_end ≠ npos ∧ charAt? doc value_end = some '>'
                    match mkRange sp5 value_end with
                    | .error e => .error e
                    | .ok v =>
                      match mkRange name_start value_end with
                      | .error e => .error e
                      | .ok a =>
                        let attr1 := { attr with value := v, all := a }
                        if found_end_tag then .ok (acc1 ++ [attr1], value_end)
                        else parseAttrsLoop doc fuel value_end (some attr1) acc1
    else
      .ok (acc ++ pending.toList, search_position)

/-- parseAttributes entry point, with fuel that covers every terminating run. -/
def parseAttributes (doc : List Char) (position : Nat) :
    Except ParseError (List LandmarksAttribute × Nat) :=
  parseAttrsLoop doc (doc.length + 2) position none []

/-- The self-closing-marker computation of the start-tag branch
(`if (search_position < length - 1) tag.selfClosingMarker = ...`, line 282;
the marker stays absent otherwise). -/
def selfClosingMarkerAt (doc : List Char) (sp : Nat) : SelfClosingMarker :=
  if sp < doc.length - 1 then
    if charAt? doc sp = some '/' then .present else .absent
  else .absent

/-- Index (from the top of the stack) of the first open element the new start
tag autocloses (the for-loop at lines 248-270 scans from the top). -/
def findFromTop (pred : TagID → Bool) : List TagID → Option Nat
  | [] => none
  | e :: rest => if pred e then some 0 else (findFromTop pred rest).map (· + 1)

/-- Pop `n` elements from the top of the stack, synthesizing the
EndTagPrefix/EndTag pair for each (empty range at `pos`, the given state),
in pop order (innermost first). -/
def autoclosePops (pos : Nat) (state : EndTagState) :
    Nat → List TagID → Except ParseError (List LandmarksEvent × List TagID)
  | 0, stack => .ok ([], stack)
  | _ + 1, [] => .ok ([], [])
  | n + 1, t :: rest =>
    match mkRange pos pos with
    | .error e => .error e
    | .ok r =>
      let tag : LandmarksEndTag := { tagID := t, name := r, all := r, state := state }
      match autoclosePops pos state n rest with
      | .error e => .error e
      | .ok (evs, st) => .ok ([.endTagOpen tag, .endTag tag] ++ evs, st)

/-- The end-tag stack walk (lines 354-389): depth (from the top) of the first
open element that matches the end tag, descending only through elements that
are autoclose-by-parent (or through anything when the end tag is a landmark). -/
def endTagSweepDepth (p : LandmarksPolicy) (landmark : Bool) (tagID : TagID) :
    List TagID → Option Nat
  | [] => none
  | e :: rest =>
    if p.isSameElement e tagID then some 0
    else if landmark || p.isAutocloseByParent e then
      (endTagSweepDepth p landmark tagID rest).map (· + 1)
    else none

/-- The stack manipulation of the end-tag branch (lines 343-391): wildcard
adoption, match against the top, or the descending sweep. Returns the
(possibly adopted) tagID, the end state, the synthesized events and the new
stack. -/
def endTagResolve (p : LandmarksPolicy) (pos : Nat) (tagID : TagID)
    (elements : List TagID) :
    Except ParseError (TagID × EndTagState × List LandmarksEvent × List TagID) :=
  match elements with
  | [] => .ok (tagID, .unmatched, [], [])
  | top :: rest =>
    let tagID1 := if p.isWildcardEndTag tagID then top else tagID
    if p.isSameElement tagID1 top then .ok (tagID1, .matched, [], rest)
    else
      let landmark := p.isAutoclosingEndTag tagID1
      let state := if landmark then EndTagState.autoclosedByAncestor
                   else EndTagState.autoclosedByParent
      match endTagSweepDepth p landmark tagID1 (top :: rest) with
      | some n =>
        match autoclosePops pos state n (top :: rest) with
        | .error e => .error e
        | .ok (evs, stack1) => .ok (tagID1, .matched, evs, stack1.drop 1)
      | none => .ok (tagID1, .unmatched, [], top :: rest)

/-- The end-tag-name check of the opaque scan (lines 300-306): does the name
just after an "</" at search_position normalize to the same element? -/
def opaqueMatchesAt (doc : List Char) (p : LandmarksPolicy) (tagID : TagID)
    (search_position : Nat) : Bool :=
  let start_name_o := p.getElementNameStart doc search_position
  let start_name := if start_name_o ≠ npos then start_name_o else search_position
  let end_name := findFirstOf doc element_name_end start_name
  let pos := if start_name > doc.length then doc.length else start_name
  let currentID := p.getTagID (String.mk (substr doc pos (end_name - pos)))
  p.isSameElement tagID currentID

/-- The opaque-content scan (lines 294-321): look for the matching end tag
without other parsing; on a match back up to just before the "</". -/
def opaqueScan (doc : List Char) (p : LandmarksPolicy) (tagID : TagID) :
    Nat → Nat → Except ParseError Nat
  | 0, _ => .error .outOfFuel
  | fuel + 1, search_position =>
    if search_position = npos then .ok npos
    else
      let sp1 := findEnd doc open_end_tag search_position
      if sp1 < doc.length then
        if opaqueMatchesAt doc p tagID sp1 then .ok (sp1 - open_end_tag.length)
        else opaqueScan doc p tagID fuel sp1
      else opaqueScan doc p tagID fuel sp1

/-- One iteration of the main while loop either continues with new state or
breaks to the post-loop code (`finish`). -/
inductive Step where
  | cont (events : List LandmarksEvent) (elements : List TagID) (startPos searchPos : Nat)
  | halt (events : List LandmarksEvent) (elements : List TagID) (startPos searchPos : Nat)
deriving Repr

/-- The start-tag-or-text branch of the main loop (lines 221-328), entered at
the '<' at position f with the preceding Text events already produced. -/
def parseStartTagBranch (doc : List Char) (p : LandmarksPolicy)
    (textEvents : List LandmarksEvent) (f : Nat) (elements : List TagID) :
    Except ParseError Step :=
  let start_name_o := p.getElementNameStart doc (f + openTok.length)
  if start_name_o = npos then
    .ok (.cont textEvents elements f (f + 1))
  else
            let start_name := start_name_o
            let end_name := findFirstOf doc element_name_end start_name
            match mkRange f end_name with
            | .error e => .error e
            | .ok tagAll =>
              match mkRange start_name end_name with
              | .error e => .error e
              | .ok tagName =>
                if end_name = npos then
                  -- truncated name: emit what is known and stop the loop
                  let tag : LandmarksStartTag := { name := tagName, all := tagAll }
                  .ok (.halt (textEvents ++ [.startTagOpen tag, .startTag tag])
                        elements npos npos)
                else
                  let original_element_name := String.mk (substr doc start_name (end_name - start_name))
                  let tagID := p.getTagID original_element_name
                  let sweepCount :=
                    match findFromTop (fun e => p.isAutoclosingSibling e tagID) elements with
                    | some i => i + 1
                    | none => 0
                  match autoclosePops f .autoclosedBySibling sweepCount elements with
                  | .error e => .error e
                  | .ok (sweepEvents, elements1) =>
                    let tagPre : LandmarksStartTag :=
                      { tagID := tagID, name := tagName, all := tagAll }
                    match parseAttributes doc end_name with
                    | .error e => .error e
                    | .ok (attrs, sp1) =>
                      let scp := if p.isVoidElement tagID then SelfClosingPolicy.required
                                 else if p.isContentElement tagID then SelfClosingPolicy.prohibited
                                 else SelfClosingPolicy.allowed
                      let scm := selfClosingMarkerAt doc sp1
                      let tagEnd := findEnd doc close sp1
                      match mkRange f tagEnd with
                      | .error e => .error e
                      | .ok allR =>
                        let tag : LandmarksStartTag :=
                          { tagID := tagID, name := tagName, all := allR,
                            selfClosingPolicy := scp, selfClosingMarker := scm }
                        let events := textEvents ++ sweepEvents ++ [.startTagOpen tagPre]
                          ++ attrs.map LandmarksEvent.startTagAttr ++ [.startTag tag]
                        if tag.isSelfClosing then
                          .ok (.cont events elements1 tagEnd tagEnd)
                        else
                          let elements2 := tagID :: elements1
                          if p.isOpaqueElement tagID then
                            match opaqueScan doc p tagID (doc.length + 2) tagEnd with
                            | .error e => .error e
                            | .ok sp2 => .ok (.cont events elements2 tagEnd sp2)
                          else
                            .ok (.cont events elements2 tagEnd tagEnd)
/-- The end-tag branch of the main loop (lines 329-409). -/
def parseEndTagBranch (doc : List Char) (p : LandmarksPolicy)
    (textEvents : List LandmarksEvent) (f : Nat) (elements : List TagID) :
    Except ParseError Step :=
  let start_name_o := p.getElementNameStart doc (f + open_end_tag.length)
          let sn0 := if start_name_o ≠ npos then start_name_o else f + open_end_tag.length
          let start_name := if sn0 ≥ doc.length then npos else sn0
          let end_name := findFirstOf doc element_name_end start_name
          let pos := if start_name > doc.length then doc.length else start_name
          let el_name := String.mk (substr doc pos (end_name - pos))
          let tagID0 := if end_name = npos then UnknownTagID else p.getTagID el_name
          match endTagResolve p f tagID0 elements with
          | .error e => .error e
          | .ok (tagID1, end_state, sweepEvents, elements1) =>
            match mkRange start_name end_name with
            | .error e => .error e
            | .ok nameR =>
              match mkRange f end_name with
              | .error e => .error e
              | .ok allR =>
                let tagPre : LandmarksEndTag :=
                  { tagID := tagID1, name := nameR, all := allR, state := end_state }
                match parseAttributes doc end_name with
                | .error e => .error e
                | .ok (attrs, sp1) =>
                  let tagEnd := findEnd doc close sp1
                  match mkRange f tagEnd with
                  | .error e => .error e
                  | .ok allR2 =>
                    let tag : LandmarksEndTag := { tagPre with all := allR2 }
                    .ok (.cont (textEvents ++ sweepEvents ++ [.endTagOpen tagPre]
                          ++ attrs.map LandmarksEvent.endTagAttr ++ [.endTag tag])
                          elements1 tagEnd tagEnd)

/-- One iteration of the main loop of parse() (lines 207-432), entered with
search_position < length. Emits the pending Text run, classifies the opener
at the next '<' and runs the matching branch. -/
def parseBody (doc : List Char) (p : LandmarksPolicy)
    (start_position search_position : Nat) (elements : List TagID) :
    Except ParseError Step :=
  let f := find doc openTok search_position
  if f = npos then .ok (.halt [] elements start_position npos)
  else
    let textRes : Except ParseError (List LandmarksEvent) :=
      if f ≠ start_position then
        match mkRange start_position f with
        | .error e => .error e
        | .ok r => .ok [.Text r]
      else .ok []
    match textRes with
    | .error e => .error e
    | .ok textEvents =>
      match choose doc f open_choices with
      | none => .ok (.cont textEvents elements f f)  -- unreachable: "<" always matches
      | some choice =>
        if choice = openTok then
          parseStartTagBranch doc p textEvents f elements
        else if choice = open_end_tag then
          parseEndTagBranch doc p textEvents f elements
        else if choice = open_comment then
          let tokEnd := findEnd doc close_comment f
          match mkRange f tokEnd with
          | .error e => .error e
          | .ok r => .ok (.cont (textEvents ++ [.Comment r]) elements tokEnd tokEnd)
        else if choice = open_cdata then
          let tokEnd := findEnd doc close_cdata f
          match mkRange f tokEnd with
          | .error e => .error e
          | .ok r => .ok (.cont (textEvents ++ [.CData r]) elements tokEnd tokEnd)
        else if choice = open_processing then
          let tokEnd := findEnd doc close_processing f
          match mkRange f tokEnd with
          | .error e => .error e
          | .ok r => .ok (.cont (textEvents ++ [.Processing r]) elements tokEnd tokEnd)
        else if choice = open_declaration then
          let tokEnd := findEnd doc close_declaration f
          match mkRange f tokEnd with
          | .error e => .error e
          | .ok r => .ok (.cont (textEvents ++ [.Declaration r]) elements tokEnd tokEnd)
        else
          .ok (.cont textEvents elements f f)  -- unreachable

/-- The autoclose-by-parent tail at EOF (lines 438-449): close the inner
contiguous run of open elements that are autoclosed by parent. -/
def acpTail (p : LandmarksPolicy) (pos : Nat) :
    List TagID → Except ParseError (List LandmarksEvent × List TagID)
  | [] => .ok ([], [])
  | t :: rest =>
    if p.isAutocloseByParent t then
      match mkRange pos pos with
      | .error e => .error e
      | .ok r =>
        let tag : LandmarksEndTag := { tagID := t, name := r, all := r, state := .autoclosedByParent }
        match acpTail p pos rest with
        | .error e => .error e
        | .ok (evs, st) => .ok ([.endTagOpen tag, .endTag tag] ++ evs, st)
    else .ok ([], t :: rest)

/-- The post-loop code of parse() (lines 434-452): final Text run, the
autoclose-by-parent tail, and the EOF event with the remaining open elements
(reported bottom-first, as the handler array). -/
def finish (doc : List Char) (p : LandmarksPolicy)
    (start_position search_position : Nat) (elements : List TagID)
    (acc : List LandmarksEvent) : Except ParseError (List LandmarksEvent) :=
  let textRes : Except ParseError (List LandmarksEvent) :=
    if search_position ≠ start_position then
      match mkRange start_position search_position with
      | .error e => .error e
      | .ok r => .ok [.Text r]
    else .ok []
  match textRes with
  | .error e => .error e
  | .ok textEvents =>
    match acpTail p search_position elements with
    | .error e => .error e
    | .ok (tailEvents, elements1) =>
      .ok (acc ++ textEvents ++ tailEvents ++ [.eof elements1.reverse])

/-- The main while loop of parse(), with fuel. -/
def parseIter (doc : List Char) (p : LandmarksPolicy) :
    Nat → Nat → Nat → List TagID → List LandmarksEvent →
    Except ParseError (List LandmarksEvent)
  | 0, _, _, _, _ => .error .outOfFuel
  | fuel + 1, start_position, search_position, elements, acc =>
    if search_position < doc.length then
      match parseBody doc p start_position search_position elements with
      | .error e => .error e
      | .ok (.cont evs elements1 s1 s2) => parseIter doc p fuel s1 s2 elements1 (acc ++ evs)
      | .ok (.halt evs elements1 s1 s2) => finish doc p s1 s2 elements1 (acc ++ evs)
    else
      finish doc p start_position search_position elements acc

/-- parse() (lines 194-453): the full event stream for a document under a
policy. The fuel covers every terminating run of the source loop. -/
def parse (doc : List Char) (p : LandmarksPolicy) :
    Except ParseError (List LandmarksEvent) :=
  parseIter doc p (doc.length + 2) 0 0 [] []

/-! The standard policy machinery (class Policy in landmarks-policy.ts),
specialized for witnesses. -/

/-- Policy.getElementNameStart: the character at pos must be in 0-9 or A-z. -/
def stdElementNameStart (text : List Char) (pos : Nat) : Nat :=
  match charAt? text pos with
  | some c => if ('0' ≤ c ∧ c ≤ '9') ∨ ('A' ≤ c ∧ c ≤ 'z') then pos else npos
  | none => npos

/-- An XML-style policy: names taken verbatim, strict id equality, no
void/content/opaque/autoclose/wildcard rules. -/
def xmlPolicy : LandmarksPolicy where
  getElementNameStart := stdElementNameStart
  getTagID := fun name => name
  isSameElement := fun a b => a == b
  isVoidElement := fun _ => false
  isContentElement := fun _ => false
  isOpaqueElement := fun _ => false
  isAutoclosingSibling := fun _ _ => false
  isAutocloseByParent := fun _ => false
  isWildcardEndTag := fun _ => false
  isAutoclosingEndTag := fun _ => false

deriving instance DecidableEq for Except

/-- A policy with one autoclose-by-parent element id, "p". -/
def acpPolicy : LandmarksPolicy :=
  { xmlPolicy with isAutocloseByParent := fun t => t == "p" }

/-- A policy with one opaque element id, "s". -/
def opqPolicy : LandmarksPolicy :=
  { xmlPolicy with isOpaqueElement := fun t => t == "s" }

/-! Event-stream observations used to state the claims. -/

def isTextEvent : LandmarksEvent → Bool
  | .Text _ => true
  | _ => false

def isEofEvent : LandmarksEvent → Bool
  | .eof _ => true
  | _ => false

/-- The states that correspond to popping an element off the open stack. -/
def isPoppingState : EndTagState → Bool
  | .unmatched => false
  | _ => true

/-- Number of StartTag events with isSelfClosing == false for this id
(the count of the original claim C2). -/
def countStartTagsAll (evs : List LandmarksEvent) (id : TagID) : Nat :=
  (evs.filter fun e =>
    match e with
    | .startTag t => !t.isSelfClosing && t.tagID == id
    | _ => false).length

/-- Number of StartTag events with isSelfClosing == false and a complete name
range for this id (the truncated-name StartTag is excluded). -/
def countStartTagsNamed (evs : List LandmarksEvent) (id : TagID) : Nat :=
  (evs.filter fun e =>
    match e with
    | .startTag t => !t.isSelfClosing && t.name.isComplete && t.tagID == id
    | _ => false).length

/-- Number of EndTag events with state in
{Matched, AutoclosedByParent, AutoclosedBySibling, AutoclosedByAncestor}. -/
def countPoppedEnds (evs : List LandmarksEvent) (id : TagID) : Nat :=
  (evs.filter fun e =>
    match e with
    | .endTag t => isPoppingState t.state && t.tagID == id
    | _ => false).length

/-- Occurrences of this id in the open-element lists reported at EndOfInput. -/
def countOpenAtEOF (evs : List LandmarksEvent) (id : TagID) : Nat :=
  (evs.map fun e =>
    match e with
    | .eof l => l.count id
    | _ => 0).sum

/-- The range an event contributes to the document tiling: Text ranges and the
`all` ranges of Comment / CData / Processing / Declaration / StartTag / EndTag
events (prefix and attribute events contribute nothing). -/
def tileRange : LandmarksEvent → Option LandmarksRange
  | .Text r => some r
  | .Comment r => some r
  | .CData r => some r
  | .Processing r => some r
  | .Declaration r => some r
  | .startTag t => some t.all
  | .endTag t => some t.all
  | _ => none

/-- Fold a range list from a position: each range must start exactly where the
previous one ended; returns the final end position. -/
def chainFrom : Nat → List LandmarksRange → Option Nat
  | a, [] => some a
  | a, r :: rs => if r.start = a then chainFrom r.endPos rs else none

/-- All ranges carried by an event. -/
def eventRanges (e : LandmarksEvent) : List LandmarksRange :=
  match e with
  | .Text r => [r]
  | .Comment r => [r]
  | .CData r => [r]
  | .Processing r => [r]
  | .Declaration r => [r]
  | .startTagOpen t => [t.name, t.all]
  | .startTagAttr a => [a.name, a.value, a.all]
  | .startTag t => [t.name, t.all]
  | .endTagOpen t => [t.name, t.all]
  | .endTagAttr a => [a.name, a.value, a.all]
  | .endTag t => [t.name, t.all]
  | .eof _ => []

/-- Every range of every event is complete (end != npos). -/
def allComplete (evs : List LandmarksEvent) : Bool :=
  evs.all fun e => (eventRanges e).all LandmarksRange.isComplete

/-! Concrete documents used in the scenario claims and counterexamples. -/

/-- The document of scenario C5: <a b='1' c="2" d e>x</a>. -/
def docC5 : List Char :=
  ['<', 'a', ' ', 'b', '=', '\'', '1', '\'', ' ', 'c', '=', '"', '2', '"',
   ' ', 'd', ' ', 'e', '>', 'x', '<', '/', 'a', '>']

/-- A document that ends inside a start-tag name. -/
def docTrunc : List Char := ['<', 'a']

/-- An autoclose-by-parent element left open below a normal element. -/
def docPD : List Char := ['<', 'p', '>', '<', 'd', '>']

/-- A start tag whose unquoted attribute value ends in a slash. -/
def docSlash : List Char := ['<', 'a', ' ', 'b', '=', 'c', '/', '>']

/-- An opaque element with empty content. -/
def docOpq : List Char := ['<', 's', '>', '<', '/', 's', '>']

/-- An open autoclose-by-parent element followed by a truncated start tag. -/
def docPA : List Char := ['<', 'p', '>', '<', 'a']

/-- The document of scenario C9: 5 < 10 and 10 > 5. -/
def docNum : List Char :=
  ['5', ' ', '<', ' ', '1', '0', ' ', 'a', 'n', 'd', ' ', '1', '0', ' ', '>', ' ', '5']

/-- A small clean document. -/
def docAX : List Char := ['<', 'a', '>', 'x', '<', '/', 'a', '>']

/-- C5: parsing <a b='1' c="2" d e>x</a> under the XML-style policy emits
exactly: StartTagPrefix(a); the four attributes in source order, b with value
[6,7) = "1", c with value [12,13) = "2", d and e with empty value ranges;
StartTag(a) not self-closing; Text [19,20) = "x"; EndTagPrefix and EndTag for
a with state Matched; EndOfInput with an empty open-element list. -/
theorem c5_scenario : parse docC5 xmlPolicy = .ok
    [.startTagOpen { tagID := "a", name := ⟨1, 2⟩, all := ⟨0, 2⟩ },
     .startTagAttr { name := ⟨3, 4⟩, value := ⟨6, 7⟩, all := ⟨3, 8⟩ },
     .startTagAttr { name := ⟨9, 10⟩, value := ⟨12, 13⟩, all := ⟨9, 14⟩ },
     .startTagAttr { name := ⟨15, 16⟩, value := ⟨16, 16⟩, all := ⟨15, 16⟩ },
     .startTagAttr { name := ⟨17, 18⟩, value := ⟨18, 18⟩, all := ⟨17, 18⟩ },
     .startTag { tagID := "a", name := ⟨1, 2⟩, all := ⟨0, 19⟩ },
     .Text ⟨19, 20⟩,
     .endTagOpen { tagID := "a", name := ⟨22, 23⟩, all := ⟨20, 23⟩, state := .matched },
     .endTag { tagID := "a", name := ⟨22, 23⟩, all := ⟨20, 24⟩, state := .matched },
     .eof []] ∧
    (LandmarksStartTag.isSelfClosing { tagID := "a", name := ⟨1, 2⟩, all := ⟨0, 19⟩ }) = false ∧
    substr docC5 6 1 = ['1'] ∧ substr docC5 12 1 = ['2'] ∧ substr docC5 19 1 = ['x'] := by
  decide

/-- C6: whenever the end-tag stack resolution reports state Unmatched, the
open-element stack is returned unchanged and no synthesized end-tag events
are produced (the branch then always continues parsing after the end tag). -/
theorem c6_unmatched_no_pop (p : LandmarksPolicy) (pos : Nat) (tagID tagID1 : TagID)
    (elements stack1 : List TagID) (evs : List LandmarksEvent)
    (h : endTagResolve p pos tagID elements = .ok (tagID1, .unmatched, evs, stack1)) :
    stack1 = elements ∧ evs = [] := by
  rcases elements with _ | ⟨top, rest⟩
  · simp only [endTagResolve, Except.ok.injEq, Prod.mk.injEq] at h
    exact ⟨h.2.2.2.symm, h.2.2.1.symm⟩
  · simp only [endTagResolve] at h
    generalize hg : (if p.isWildcardEndTag tagID = true then top else tagID) = tid at h
    by_cases hs : p.isSameElement tid top = true
    · rw [if_pos hs] at h
      simp at h
    · rw [if_neg hs] at h
      rcases hsd : endTagSweepDepth p (p.isAutoclosingEndTag tid) tid (top :: rest) with _ | n <;>
        simp only [hsd] at h
      · simp only [Except.ok.injEq, Prod.mk.injEq] at h
        exact ⟨h.2.2.2.symm, h.2.2.1.symm⟩
      · rcases hap : autoclosePops pos (if p.isAutoclosingEndTag tid = true then EndTagState.autoclosedByAncestor else EndTagState.autoclosedByParent) n (top :: rest) with e | ⟨evs2, st2⟩ <;>
          simp only [hap] at h <;> simp at h

/-- Witness for c6_unmatched_no_pop at a concrete unmatched end tag. -/
theorem c6_unmatched_no_pop_witness :
    (["a"] : List TagID) = ["a"] ∧ ([] : List LandmarksEvent) = [] :=
  c6_unmatched_no_pop xmlPolicy 4 "b" "b" ["a"] ["a"] [] (by decide)

/-- The event stream of parse() on docTrunc (a document ending inside a
start-tag name) under the XML-style policy. -/
def c2Events : List LandmarksEvent :=
  [.startTagOpen { name := ⟨1, npos⟩, all := ⟨0, npos⟩ },
   .startTag { name := ⟨1, npos⟩, all := ⟨0, npos⟩ },
   .eof []]

/-- C2 counterexample: on the document "<a" the truncated StartTag is emitted
with isSelfClosing == false (id UnknownTagID) but the element is never pushed,
so for that id one StartTag faces zero popped EndTags and zero open ids at
EndOfInput: the claimed per-id balance fails. -/
theorem c2_counterexample :
    parse docTrunc xmlPolicy = .ok c2Events ∧
    countStartTagsAll c2Events UnknownTagID = 1 ∧
    countPoppedEnds c2Events UnknownTagID + countOpenAtEOF c2Events UnknownTagID = 0 := by
  decide

/-- The event stream of parse() on docPD under acpPolicy. -/
def c3Events : List LandmarksEvent :=
  [.startTagOpen { tagID := "p", name := ⟨1, 2⟩, all := ⟨0, 2⟩ },
   .startTag { tagID := "p", name := ⟨1, 2⟩, all := ⟨0, 3⟩ },
   .startTagOpen { tagID := "d", name := ⟨4, 5⟩, all := ⟨3, 5⟩ },
   .startTag { tagID := "d", name := ⟨4, 5⟩, all := ⟨3, 6⟩ },
   .eof ["p", "d"]]

/-- C3 counterexample: on "<p><d>" with p autoclose-by-parent (and d not),
the EOF tail only closes the inner contiguous autoclose-by-parent run, which
is empty because d is on top; the reported open list ["p", "d"] contains the
id "p" for which isAutocloseByParent is true, contradicting the claim. -/
theorem c3_counterexample :
    parse docPD acpPolicy = .ok c3Events ∧
    c3Events.getLast? = some (.eof ["p", "d"]) ∧
    acpPolicy.isAutocloseByParent "p" = true := by
  decide

/-- The event stream of parse() on docSlash under the XML-style policy. -/
def c4Events : List LandmarksEvent :=
  [.startTagOpen { tagID := "a", name := ⟨1, 2⟩, all := ⟨0, 2⟩ },
   .startTagAttr { name := ⟨3, 4⟩, value := ⟨5, 7⟩, all := ⟨3, 7⟩ },
   .startTag { tagID := "a", name := ⟨1, 2⟩, all := ⟨0, 8⟩ },
   .eof ["a"]]

/-- C4 counterexample: in "<a b=c/>" the byte immediately before the
terminating '>' (position 7) is '/', yet the emitted StartTag has
selfClosingMarker == Absent: the '/' is the last byte of the unquoted
attribute value [5,7) = "c/", where the attribute scan stops on the '>'. -/
theorem c4_counterexample :
    parse docSlash xmlPolicy = .ok c4Events ∧
    charAt? docSlash 7 = some '>' ∧ charAt? docSlash 6 = some '/' ∧
    substr docSlash 5 2 = ['c', '/'] := by
  decide

/-- The event stream of parse() on docOpq under opqPolicy. -/
def c7Events : List LandmarksEvent :=
  [.startTagOpen { tagID := "s", name := ⟨1, 2⟩, all := ⟨0, 2⟩ },
   .startTag { tagID := "s", name := ⟨1, 2⟩, all := ⟨0, 3⟩ },
   .endTagOpen { tagID := "s", name := ⟨5, 6⟩, all := ⟨3, 6⟩, state := .matched },
   .endTag { tagID := "s", name := ⟨5, 6⟩, all := ⟨3, 7⟩, state := .matched },
   .eof []]

/-- C7 counterexample: the opaque element in "<s></s>" has empty content, and
the parser emits no Text event at all between its StartTag and its matching
EndTagPrefix, contradicting the claimed "exactly one Text event". -/
theorem c7_counterexample :
    parse docOpq opqPolicy = .ok c7Events ∧
    c7Events.filter isTextEvent = [] ∧
    opqPolicy.isOpaqueElement "s" = true ∧
    (LandmarksStartTag.isSelfClosing { tagID := "s", name := ⟨1, 2⟩, all := ⟨0, 3⟩ }) = false := by
  decide

/-- The event stream of parse() on docPA under acpPolicy. -/
def c8Events : List LandmarksEvent :=
  [.startTagOpen { tagID := "p", name := ⟨1, 2⟩, all := ⟨0, 2⟩ },
   .startTag { tagID := "p", name := ⟨1, 2⟩, all := ⟨0, 3⟩ },
   .startTagOpen { name := ⟨4, npos⟩, all := ⟨3, npos⟩ },
   .startTag { name := ⟨4, npos⟩, all := ⟨3, npos⟩ },
   .endTagOpen { tagID := "p", name := ⟨npos, npos⟩, all := ⟨npos, npos⟩,
                 state := .autoclosedByParent },
   .endTag { tagID := "p", name := ⟨npos, npos⟩, all := ⟨npos, npos⟩,
             state := .autoclosedByParent },
   .eof []]

/-- C8 counterexample: in "<p><a" the start tag "<a" is truncated while "p"
(autoclose-by-parent) is open; after the truncated StartTag the parser still
synthesizes an AutoclosedByParent EndTag for p, and EndOfInput reports [],
not the stack ["p"] as it was when the truncated tag was encountered. -/
theorem c8_counterexample :
    parse docPA acpPolicy = .ok c8Events ∧
    c8Events.getLast? = some (.eof []) ∧
    (LandmarksEvent.eof ["p"]) ∉ c8Events ∧
    (LandmarksEvent.endTag { tagID := "p", name := ⟨npos, npos⟩, all := ⟨npos, npos⟩, state := .autoclosedByParent }) ∈ c8Events := by
  decide

/-- The event stream of parse() on docNum under the XML-style policy. -/
def c9Events : List LandmarksEvent :=
  [.Text ⟨0, 2⟩, .Text ⟨2, npos⟩, .eof []]

/-- C9 counterexample: parsing "5 < 10 and 10 > 5" with a policy that rejects
a space after '<' emits two Text events, [0,2) and [2,npos) (the final text
run is reported with end == npos, not document.length), not the claimed
single Text [0, 17). -/
theorem c9_counterexample :
    parse docNum xmlPolicy = .ok c9Events ∧
    c9Events.filter isTextEvent = [.Text ⟨0, 2⟩, .Text ⟨2, npos⟩] ∧
    ¬(([.Text ⟨0, 2⟩, .Text ⟨2, npos⟩] : List LandmarksEvent) = [.Text ⟨0, 17⟩]) := by
  decide

/-- C9 as amended: the run emits exactly the two Text events [0,2) and
[2,npos) followed by EndOfInput([]); the rejected '<' starts no tag (every
event is a Text or the EndOfInput), being folded into the following text run. -/
theorem c9_fold_into_text :
    parse docNum xmlPolicy = .ok c9Events ∧
    c9Events.all (fun e => isTextEvent e || isEofEvent e) = true ∧
    docNum.length = 17 := by
  decide

/-- An empty range never trips the range-constructor check. -/
theorem mkRange_self (pos : Nat) : mkRange pos pos = .ok ⟨pos, pos⟩ := by
  simp [mkRange]

/-- The stack left by the EOF autoclose tail is empty or topped by an element
that is not autoclose-by-parent. -/
theorem acpTail_stack (p : LandmarksPolicy) (pos : Nat) (l : List TagID) :
    ∀ evs st, acpTail p pos l = .ok (evs, st) →
      st = [] ∨ ∃ x rest2, st = x :: rest2 ∧ p.isAutocloseByParent x = false := by
  induction l with
  | nil =>
    intro evs st h
    simp only [acpTail, Except.ok.injEq, Prod.mk.injEq] at h
    exact Or.inl h.2.symm
  | cons t rest ih =>
    intro evs st h
    simp only [acpTail] at h
    by_cases hacp : p.isAutocloseByParent t = true
    · rw [if_pos hacp] at h
      simp only [mkRange_self] at h
      rcases hat : acpTail p pos rest with e | ⟨evs2, st2⟩ <;> simp only [hat] at h
      · exact absurd h (by simp)
      · simp only [Except.ok.injEq, Prod.mk.injEq] at h
        exact h.2 ▸ ih evs2 st2 hat
    · rw [if_neg hacp] at h
      simp only [Except.ok.injEq, Prod.mk.injEq] at h
      exact Or.inr ⟨t, rest, h.2.symm, by simpa using hacp⟩

/-- Whatever finish produces ends with an EOF event whose reported list is
empty or whose last (most recently opened) id is not autoclose-by-parent. -/
theorem finish_eof_last (doc : List Char) (p : LandmarksPolicy) (s1 s2 : Nat)
    (st : List TagID) (acc evs : List LandmarksEvent)
    (h : finish doc p s1 s2 st acc = .ok evs) :
    ∃ l, evs.getLast? = some (.eof l) ∧
      (l = [] ∨ ∃ x, l.getLast? = some x ∧ p.isAutocloseByParent x = false) := by
  unfold finish at h
  have tailCase : ∀ textEvents tailEvents elements1,
      acpTail p s2 st = .ok (tailEvents, elements1) →
      acc ++ textEvents ++ tailEvents ++ [LandmarksEvent.eof elements1.reverse] = evs →
      ∃ l, evs.getLast? = some (.eof l) ∧
        (l = [] ∨ ∃ x, l.getLast? = some x ∧ p.isAutocloseByParent x = false) := by
    intro textEvents tailEvents elements1 hat heq
    refine ⟨elements1.reverse, ?_, ?_⟩
    · rw [← heq]
      exact List.getLast?_concat _
    · rcases acpTail_stack p s2 st tailEvents elements1 hat with h1 | ⟨x, rest2, hx, hfalse⟩
      · exact Or.inl (by simp [h1])
      · refine Or.inr ⟨x, ?_, hfalse⟩
        rw [hx, List.getLast?_reverse]
        rfl
  split at h
  · rcases hmk : mkRange s1 s2 with e | r <;> simp only [hmk] at h
    · exact absurd h (by simp)
    · rcases hat : acpTail p s2 st with e | ⟨tailEvents, elements1⟩ <;> simp only [hat] at h
      · exact absurd h (by simp)
      · exact tailCase [.Text r] tailEvents elements1 hat (Except.ok.inj h)
  · rcases hat : acpTail p s2 st with e | ⟨tailEvents, elements1⟩ <;> simp only [hat] at h
    · exact absurd h (by simp)
    · exact tailCase [] tailEvents elements1 hat (Except.ok.inj h)

/-- Every successful run of the main loop goes through finish. -/
theorem parseIter_ok_finish (doc : List Char) (p : LandmarksPolicy) :
    ∀ fuel s1 s2 st acc evs, parseIter doc p fuel s1 s2 st acc = .ok evs →
      ∃ a b c d, finish doc p a b c d = .ok evs := by
  intro fuel
  induction fuel with
  | zero =>
    intro s1 s2 st acc evs h
    exact absurd h (by simp [parseIter])
  | succ n ih =>
    intro s1 s2 st acc evs h
    simp only [parseIter] at h
    split at h
    · rcases hb : parseBody doc p s1 s2 st with e | step <;> simp only [hb] at h
      · exact absurd h (by simp)
      · rcases step with ⟨evs1, st1, a1, b1⟩ | ⟨evs1, st1, a1, b1⟩
        · exact ih a1 b1 st1 (acc ++ evs1) evs h
        · exact ⟨a1, b1, st1, acc ++ evs1, h⟩
    · exact ⟨s1, s2, st, acc, h⟩

/-- C3 as amended: after EndOfInput the reported open-element list is empty or
its last entry (the most recently opened element) is not autoclose-by-parent;
deeper entries may still be autoclose-by-parent, since only the inner
contiguous autoclose-by-parent run is closed at EOF. -/
theorem c3_open_list_top (doc : List Char) (p : LandmarksPolicy)
    (evs : List LandmarksEvent) (l : List TagID)
    (h : parse doc p = .ok evs) (hl : evs.getLast? = some (.eof l)) :
    l = [] ∨ ∃ x, l.getLast? = some x ∧ p.isAutocloseByParent x = false := by
  obtain ⟨a, b, c, d, hf⟩ := parseIter_ok_finish doc p (doc.length + 2) 0 0 [] [] evs h
  obtain ⟨l2, hl2, hprop⟩ := finish_eof_last doc p a b c d evs hf
  rw [hl] at hl2
  obtain hll : l = l2 := by
    injection hl2 with h1
    injection h1
  exact hll ▸ hprop

/-- Witness for c3_open_list_top: the parse of docPD under acpPolicy reports
the open list ["p", "d"], whose last entry d is not autoclose-by-parent. -/
theorem c3_open_list_top_witness :
    (["p", "d"] : List TagID) = [] ∨
      ∃ x, (["p", "d"] : List TagID).getLast? = some x ∧
        acpPolicy.isAutocloseByParent x = false :=
  c3_open_list_top docPD acpPolicy c3Events ["p", "d"] (by decide) (by decide)

/-- The range constructor succeeds exactly on ordered positions. -/
theorem mkRange_ok {s e : Nat} (h : s ≤ e) : mkRange s e = .ok ⟨s, e⟩ := by
  simp [mkRange, Nat.not_lt.2 h]

theorem mkAttribute_ok {s e : Nat} (h : s ≤ e) :
    mkAttribute s e = .ok { name := ⟨s, e⟩, value := ⟨e, e⟩, all := ⟨s, e⟩ } := by
  simp [mkAttribute, mkRange_ok h, mkRange_self]
  rfl

theorem findAux_cases (doc term : List Char) :
    ∀ fuel pos, findAux doc term fuel pos = npos ∨
      (pos ≤ findAux doc term fuel pos ∧ findAux doc term fuel pos < doc.length ∧
       term.isPrefixOf (doc.drop (findAux doc term fuel pos)) = true) := by
  intro fuel
  induction fuel with
  | zero => intro pos; exact Or.inl rfl
  | succ n ih =>
    intro pos
    simp only [findAux]
    by_cases hl : pos < doc.length
    · rw [if_pos hl]
      by_cases hp : term.isPrefixOf (doc.drop pos) = true
      · rw [if_pos hp]
        exact Or.inr ⟨Nat.le_refl pos, hl, hp⟩
      · rw [if_neg hp]
        rcases ih (pos + 1) with h | ⟨h1, h2, h3⟩
        · exact Or.inl h
        · exact Or.inr ⟨Nat.le_of_succ_le h1, h2, h3⟩
    · rw [if_neg hl]
      exact Or.inl rfl

theorem find_cases (doc term : List Char) (pos : Nat) :
    find doc term pos = npos ∨
      (pos ≤ find doc term pos ∧ find doc term pos < doc.length ∧
       term.isPrefixOf (doc.drop (find doc term pos)) = true) :=
  findAux_cases doc term _ pos

theorem findAux_le_of_prefix (doc term : List Char) :
    ∀ fuel pos j, pos ≤ j → j < pos + fuel →
      term.isPrefixOf (doc.drop j) = true → j < doc.length →
      findAux doc term fuel pos ≤ j := by
  intro fuel
  induction fuel with
  | zero => intro pos j h1 h2 _ _; omega
  | succ n ih =>
    intro pos j h1 h2 hp hj
    simp only [findAux]
    rw [if_pos (Nat.lt_of_le_of_lt h1 hj)]
    by_cases hpp : term.isPrefixOf (doc.drop pos) = true
    · rw [if_pos hpp]; exact h1
    · rw [if_neg hpp]
      have hne : pos ≠ j := fun he => hpp (he ▸ hp)
      exact ih (pos + 1) j (by omega) (by omega) hp hj

theorem find_le_of_prefix (doc term : List Char) (pos j : Nat)
    (h1 : pos ≤ j) (hp : term.isPrefixOf (doc.drop j) = true) (hj : j < doc.length) :
    find doc term pos ≤ j :=
  findAux_le_of_prefix doc term _ pos j h1 (by omega) hp hj

theorem findAux_not_before (doc term : List Char) :
    ∀ fuel pos j, pos ≤ j → j < findAux doc term fuel pos →
      findAux doc term fuel pos ≠ npos →
      term.isPrefixOf (doc.drop j) = false := by
  intro fuel
  induction fuel with
  | zero => intro pos j _ _ hne; exact absurd rfl hne
  | succ n ih =>
    intro pos j h1 h2 hne
    simp only [findAux] at h2 hne
    by_cases hl : pos < doc.length
    · rw [if_pos hl] at h2 hne
      by_cases hpp : term.isPrefixOf (doc.drop pos) = true
      · rw [if_pos hpp] at h2
        omega
      · rw [if_neg hpp] at h2 hne
        rcases Nat.eq_or_lt_of_le h1 with he | hlt
        · exact he ▸ Bool.eq_false_iff.2 hpp
        · exact ih (pos + 1) j hlt h2 hne
    · rw [if_neg hl] at hne
      exact absurd rfl hne

theorem find_not_before (doc term : List Char) (pos j : Nat)
    (h1 : pos ≤ j) (h2 : j < find doc term pos) (hne : find doc term pos ≠ npos) :
    term.isPrefixOf (doc.drop j) = false :=
  findAux_not_before doc term _ pos j h1 h2 hne

theorem findFirstOfAux_cases (doc characters : List Char) :
    ∀ fuel pos, findFirstOfAux doc characters fuel pos = npos ∨
      (pos ≤ findFirstOfAux doc characters fuel pos ∧
       findFirstOfAux doc characters fuel pos < doc.length ∧
       ∃ c, charAt? doc (findFirstOfAux doc characters fuel pos) = some c ∧
         characters.contains c = true) := by
  intro fuel
  induction fuel with
  | zero => intro pos; exact Or.inl rfl
  | succ n ih =>
    intro pos
    simp only [findFirstOfAux]
    split
    · rename_i c hc
      by_cases hm : characters.contains c = true
      · rw [if_pos hm]
        have hlen : pos < doc.length := by
          have hc2 : doc.get? pos = some c := hc
          obtain ⟨h, -⟩ := List.get?_eq_some.1 hc2
          exact h
        exact Or.inr ⟨Nat.le_refl pos, hlen, c, hc, hm⟩
      · rw [if_neg hm]
        rcases ih (pos + 1) with h | ⟨h1, h2, h3⟩
        · exact Or.inl h
        · exact Or.inr ⟨Nat.le_of_succ_le h1, h2, h3⟩
    · exact Or.inl rfl

theorem findFirstOf_cases (doc characters : List Char) (pos : Nat) :
    findFirstOf doc characters pos = npos ∨
      (pos ≤ findFirstOf doc characters pos ∧
       findFirstOf doc characters pos < doc.length ∧
       ∃ c, charAt? doc (findFirstOf doc characters pos) = some c ∧
         characters.contains c = true) :=
  findFirstOfAux_cases doc characters _ pos

theorem findFirstNotOfAux_cases (doc characters : List Char) :
    ∀ fuel pos, findFirstNotOfAux doc characters fuel pos = npos ∨
      (pos ≤ findFirstNotOfAux doc characters fuel pos ∧
       findFirstNotOfAux doc characters fuel pos < doc.length ∧
       ∃ c, charAt? doc (findFirstNotOfAux doc characters fuel pos) = some c ∧
         characters.contains c = false) := by
  intro fuel
  induction fuel with
  | zero => intro pos; exact Or.inl rfl
  | succ n ih =>
    intro pos
    simp only [findFirstNotOfAux]
    split
    · rename_i c hc
      by_cases hm : characters.contains c = true
      · rw [if_pos hm]
        rcases ih (pos + 1) with h | ⟨h1, h2, h3⟩
        · exact Or.inl h
        · exact Or.inr ⟨Nat.le_of_succ_le h1, h2, h3⟩
      · rw [if_neg hm]
        have hlen : pos < doc.length := by
          have hc2 : doc.get? pos = some c := hc
          obtain ⟨h, -⟩ := List.get?_eq_some.1 hc2
          exact h
        exact Or.inr ⟨Nat.le_refl pos, hlen, c, hc, Bool.eq_false_iff.2 hm⟩
    · exact Or.inl rfl

theorem findFirstNotOf_cases (doc characters : List Char) (pos : Nat) :
    findFirstNotOf doc characters pos = npos ∨
      (pos ≤ findFirstNotOf doc characters pos ∧
       findFirstNotOf doc characters pos < doc.length ∧
       ∃ c, charAt? doc (findFirstNotOf doc characters pos) = some c ∧
         characters.contains c = false) :=
  findFirstNotOfAux_cases doc characters _ pos

/-- A prefix match pins the document characters it covers. -/
theorem isPrefixOf_charAt (cs doc : List Char) (i : Nat)
    (h : cs.isPrefixOf (doc.drop i) = true) :
    ∀ j, j < cs.length → charAt? doc (i + j) = cs.get? j := by
  intro j hj
  rw [List.isPrefixOf_iff_prefix] at h
  obtain ⟨t, ht⟩ := h
  have hdrop : (doc.drop i).get? j = doc.get? (i + j) := List.get?_drop doc i j
  rw [charAt?, ← hdrop, ← ht, List.get?_append]
  exact hj

/-- findEnd: not-found, or past the found occurrence and inside the document. -/
theorem findEnd_cases (doc term : List Char) (pos : Nat) :
    findEnd doc term pos = npos ∨
      (pos + term.length ≤ findEnd doc term pos ∧ findEnd doc term pos ≤ doc.length) := by
  unfold findEnd
  rcases find_cases doc term pos with h | ⟨h1, h2, h3⟩
  · rw [h]; simp
  · by_cases hne : find doc term pos ≠ npos
    · rw [if_pos hne]
      refine Or.inr ⟨by omega, ?_⟩
      have hp := (List.isPrefixOf_iff_prefix.1 h3).length_le
      rw [List.length_drop] at hp
      omega
    · rw [if_neg hne]
      exact Or.inl (by simpa using hne)

theorem choose_some (doc : List Char) (pos : Nat) (choices : List (List Char))
    (c : List Char) (h : choose doc pos choices = some c) :
    c ∈ choices ∧ c.isPrefixOf (doc.drop pos) = true := by
  unfold choose at h
  refine ⟨List.mem_of_find?_eq_some h, ?_⟩
  have h2 := List.find?_some h
  simpa using h2

theorem prefix_close_char {doc : List Char} {i : Nat}
    (h : close.isPrefixOf (doc.drop i) = true) : charAt? doc i = some '>' := by
  have h0 := isPrefixOf_charAt close doc i h 0 (by decide)
  simpa [close] using h0

theorem prefix_close_self_char {doc : List Char} {i : Nat}
    (h : close_self.isPrefixOf (doc.drop i) = true) :
    charAt? doc i = some '/' ∧ charAt? doc (i + 1) = some '>' := by
  have h0 := isPrefixOf_charAt close_self doc i h 0 (by decide)
  have h1 := isPrefixOf_charAt close_self doc i h 1 (by decide)
  exact ⟨by simpa [close_self] using h0, by simpa [close_self] using h1⟩

theorem find_npos (doc term : List Char) (hdoc : doc.length < npos) :
    find doc term npos = npos := by
  rw [find, Nat.sub_eq_zero_of_le (by omega)]
  rfl

theorem parseAttrsLoop_spec (doc : List Char) (hdoc : doc.length < npos) :
    ∀ fuel sp pending acc,
      parseAttrsLoop doc fuel sp pending acc ≠ .error .rangeError ∧
      (∀ attrs p2, parseAttrsLoop doc fuel sp pending acc = .ok (attrs, p2) →
        sp ≤ p2 + 1 ∧
        (p2 = npos ∨ doc.length ≤ p2 ∨ charAt? doc p2 = some '>' ∨
          (charAt? doc p2 = some '/' ∧ charAt? doc (p2 + 1) = some '>'))) := by
  intro fuel
  induction fuel with
  | zero =>
    intro sp pending acc
    constructor
    · simp [parseAttrsLoop]
    · intro attrs p2 h
      simp [parseAttrsLoop] at h
  | succ n ih =>
    intro sp pending acc
    by_cases hlen : sp < doc.length
    case neg =>
      constructor
      · simp [parseAttrsLoop, hlen]
      · intro attrs p2 h
        simp only [parseAttrsLoop, if_neg hlen, Except.ok.injEq, Prod.mk.injEq] at h
        obtain ⟨-, hp⟩ := h
        subst hp
        exact ⟨by omega, Or.inr (Or.inl (Nat.le_of_not_lt hlen))⟩
    case pos =>
      simp only [parseAttrsLoop, skipSpaces, if_pos hlen]
      by_cases h1 : findFirstNotOf doc attribute_spaces sp = npos
      · rw [if_pos h1]
        refine ⟨by simp, ?_⟩
        intro attrs p2 h
        simp only [Except.ok.injEq, Prod.mk.injEq] at h
        rw [← h.2, h1]
        exact ⟨by omega, Or.inl rfl⟩
      · obtain ⟨hge1, hlt1, -⟩ :=
          (findFirstNotOf_cases doc attribute_spaces sp).resolve_left h1
        rw [if_neg h1]
        by_cases h2 : (choose doc (findFirstNotOf doc attribute_spaces sp) close_choices).isSome = true
        · rw [if_pos h2]
          obtain ⟨c, hc⟩ := Option.isSome_iff_exists.1 h2
          obtain ⟨hmem, hpre⟩ :=
            choose_some doc (findFirstNotOf doc attribute_spaces sp) close_choices c hc
          refine ⟨by simp, ?_⟩
          intro attrs p2 h
          simp only [Except.ok.injEq, Prod.mk.injEq] at h
          obtain ⟨-, hp⟩ := h
          have hcc : c = close_self ∨ c = close := by
            simpa [close_choices] using hmem
          rcases hcc with rfl | rfl
          · have hsp2 : ¬(choose doc (findFirstNotOf doc attribute_spaces sp) close_choices
                = some close ∧ prevIsSlash doc (findFirstNotOf doc attribute_spaces sp) = true) := by
              rintro ⟨hx, -⟩
              rw [hc] at hx
              exact absurd (Option.some.inj hx) (by decide)
            rw [if_neg hsp2] at hp
            obtain ⟨hslash, hgt⟩ := prefix_close_self_char hpre
            rw [← hp]
            exact ⟨by omega, Or.inr (Or.inr (Or.inr ⟨hslash, hgt⟩))⟩
          · by_cases h3 : prevIsSlash doc (findFirstNotOf doc attribute_spaces sp) = true
            · rw [if_pos ⟨hc, h3⟩] at hp
              have h3x : 0 < findFirstNotOf doc attribute_spaces sp ∧
                  charAt? doc (findFirstNotOf doc attribute_spaces sp - 1) = some '/' := by
                simpa [prevIsSlash] using h3
              have hgt := prefix_close_char hpre
              rw [← hp]
              refine ⟨by omega, Or.inr (Or.inr (Or.inr ⟨h3x.2, ?_⟩))⟩
              have hx1 : findFirstNotOf doc attribute_spaces sp - 1 + 1
                  = findFirstNotOf doc attribute_spaces sp := by omega
              rw [hx1]
              exact hgt
            · rw [if_neg (fun hx => h3 hx.2)] at hp
              rw [← hp]
              exact ⟨by omega, Or.inr (Or.inr (Or.inl (prefix_close_char hpre)))⟩
        · rw [if_neg h2]
          have hord : findFirstNotOf doc attribute_spaces sp
              ≤ findFirstOf doc attribute_name_end (findFirstNotOf doc attribute_spaces sp + 1) := by
            rcases findFirstOf_cases doc attribute_name_end
                (findFirstNotOf doc attribute_spaces sp + 1) with h4 | ⟨hge4, -, -⟩
            · rw [h4]; omega
            · omega
          simp only [mkAttribute_ok hord]
          by_cases h4 : findFirstOf doc attribute_name_end (findFirstNotOf doc attribute_spaces sp + 1) = npos
          · rw [if_pos h4]
            refine ⟨by simp, ?_⟩
            intro attrs p2 h
            simp only [Except.ok.injEq, Prod.mk.injEq] at h
            rw [← h.2, h4]
            exact ⟨by omega, Or.inl rfl⟩
          · obtain ⟨hge4, hlt4, -⟩ :=
              (findFirstOf_cases doc attribute_name_end
                (findFirstNotOf doc attribute_spaces sp + 1)).resolve_left h4
            rw [if_neg h4]
            by_cases h5 : (choose doc
                (findFirstOf doc attribute_name_end (findFirstNotOf doc attribute_spaces sp + 1))
                close_choices).isSome = true
            · rw [if_pos h5]
              obtain ⟨c, hc⟩ := Option.isSome_iff_exists.1 h5
              obtain ⟨hmem, hpre⟩ := choose_some doc _ close_choices c hc
              refine ⟨by simp, ?_⟩
              intro attrs p2 h
              simp only [Except.ok.injEq, Prod.mk.injEq] at h
              rw [← h.2]
              have hcc : c = close_self ∨ c = close := by
                simpa [close_choices] using hmem
              rcases hcc with rfl | rfl
              · obtain ⟨hslash, hgt⟩ := prefix_close_self_char hpre
                exact ⟨by omega, Or.inr (Or.inr (Or.inr ⟨hslash, hgt⟩))⟩
              · exact ⟨by omega, Or.inr (Or.inr (Or.inl (prefix_close_char hpre)))⟩
            · rw [if_neg h5]
              by_cases h6 : findFirstNotOf doc spaces
                  (findFirstOf doc attribute_name_end (findFirstNotOf doc attribute_spaces sp + 1)) = npos
              · rw [if_pos h6]
                refine ⟨by simp, ?_⟩
                intro attrs p2 h
                simp only [Except.ok.injEq, Prod.mk.injEq] at h
                rw [← h.2, h6]
                exact ⟨by omega, Or.inl rfl⟩
              · obtain ⟨hge6, hlt6, -⟩ :=
                  (findFirstNotOf_cases doc spaces _).resolve_left h6
                rw [if_neg h6]
                by_cases h7 : charAt? doc (findFirstNotOf doc spaces
                    (findFirstOf doc attribute_name_end (findFirstNotOf doc attribute_spaces sp + 1)))
                    ≠ some '='
                · rw [if_pos h7]
                  obtain ⟨ihne, ihok⟩ := ih (findFirstNotOf doc spaces
                      (findFirstOf doc attribute_name_end (findFirstNotOf doc attribute_spaces sp + 1)))
                    (some _) (acc ++ pending.toList)
                  refine ⟨ihne, ?_⟩
                  intro attrs p2 h
                  obtain ⟨hle, hrest⟩ := ihok attrs p2 h
                  exact ⟨by omega, hrest⟩
                · rw [if_neg h7]
                  by_cases h8 : findFirstNotOf doc spaces (findFirstNotOf doc spaces
                      (findFirstOf doc attribute_name_end (findFirstNotOf doc attribute_spaces sp + 1)) + 1) = npos
                  · rw [if_pos h8]
                    refine ⟨by simp, ?_⟩
                    intro attrs p2 h
                    simp only [Except.ok.injEq, Prod.mk.injEq] at h
                    rw [← h.2, h8]
                    exact ⟨by omega, Or.inl rfl⟩
                  · obtain ⟨hge8, hlt8, -⟩ :=
                      (findFirstNotOf_cases doc spaces _).resolve_left h8
                    rw [if_neg h8]
                    by_cases h9 : (charAt? doc (findFirstNotOf doc spaces (findFirstNotOf doc spaces
                          (findFirstOf doc attribute_name_end (findFirstNotOf doc attribute_spaces sp + 1)) + 1))
                        = some '"' ∨
                        charAt? doc (findFirstNotOf doc spaces (findFirstNotOf doc spaces
                          (findFirstOf doc attribute_name_end (findFirstNotOf doc attribute_spaces sp + 1)) + 1))
                        = some '\'')
                    · rw [if_pos h9]
                      set NS := findFirstNotOf doc attribute_spaces sp with hNS
                      set sp5 := findFirstNotOf doc spaces (findFirstNotOf doc spaces
                        (findFirstOf doc attribute_name_end (NS + 1)) + 1) with hSP5
                      set Q := (if charAt? doc sp5 = some '"' then '"' else '\'') with hQ
                      by_cases hv : sp5 + 1 ≥ doc.length
                      · rw [if_pos hv]
                        have hfn : ∀ t, find doc t npos = npos := fun t => find_npos doc t hdoc
                        simp only [hfn]
                        rw [if_neg (by simp : ¬(npos ≠ npos))]
                        simp only [mkRange_self]
                        have hns : NS ≤ npos := by omega
                        simp only [mkRange_ok hns]
                        obtain ⟨ihne, ihok⟩ := ih npos (some _) (acc ++ pending.toList)
                        refine ⟨ihne, ?_⟩
                        intro attrs p2 h
                        obtain ⟨hle, hrest⟩ := ihok attrs p2 h
                        exact ⟨by omega, hrest⟩
                      · rw [if_neg hv]
                        rcases find_cases doc [Q] (sp5 + 1) with hfq | ⟨hgeq, hltq, -⟩
                        · rw [hfq]
                          rw [if_neg (by simp : ¬(npos ≠ npos))]
                          have h1q : sp5 + 1 ≤ npos := by omega
                          simp only [mkRange_ok h1q]
                          have hns : NS ≤ npos := by omega
                          simp only [mkRange_ok hns]
                          obtain ⟨ihne, ihok⟩ := ih npos (some _) (acc ++ pending.toList)
                          refine ⟨ihne, ?_⟩
                          intro attrs p2 h
                          obtain ⟨hle, hrest⟩ := ihok attrs p2 h
                          exact ⟨by omega, hrest⟩
                        · have hvne : find doc [Q] (sp5 + 1) ≠ npos := by omega
                          rw [if_pos hvne]
                          simp only [mkRange_ok hgeq]
                          have hns : NS ≤ find doc [Q] (sp5 + 1) + 1 := by omega
                          simp only [mkRange_ok hns]
                          obtain ⟨ihne, ihok⟩ := ih (find doc [Q] (sp5 + 1) + 1) (some _)
                            (acc ++ pending.toList)
                          refine ⟨ihne, ?_⟩
                          intro attrs p2 h
                          obtain ⟨hle, hrest⟩ := ihok attrs p2 h
                          exact ⟨by omega, hrest⟩
                    · rw [if_neg h9]
                      set NS := findFirstNotOf doc attribute_spaces sp with hNS
                      set sp5 := findFirstNotOf doc spaces (findFirstNotOf doc spaces
                        (findFirstOf doc attribute_name_end (NS + 1)) + 1) with hSP5
                      rcases findFirstOf_cases doc attribute_value_end sp5 with hfv2 | ⟨hgev, hltv, -⟩
                      · rw [hfv2]
                        have h1v : sp5 ≤ npos := by omega
                        simp only [mkRange_ok h1v]
                        have hns : NS ≤ npos := by omega
                        simp only [mkRange_ok hns]
                        rw [if_neg (fun hx => hx.1 rfl)]
                        obtain ⟨ihne, ihok⟩ := ih npos (some _) (acc ++ pending.toList)
                        refine ⟨ihne, ?_⟩
                        intro attrs p2 h
                        obtain ⟨hle, hrest⟩ := ihok attrs p2 h
                        exact ⟨by omega, hrest⟩
                      · simp only [mkRange_ok hgev]
                        have hns : NS ≤ findFirstOf doc attribute_value_end sp5 := by omega
                        simp only [mkRange_ok hns]
                        by_cases hgt : charAt? doc (findFirstOf doc attribute_value_end sp5) = some '>'
                        · rw [if_pos ⟨by omega, hgt⟩]
                          refine ⟨by simp, ?_⟩
                          intro attrs p2 h
                          simp only [Except.ok.injEq, Prod.mk.injEq] at h
                          rw [← h.2]
                          exact ⟨by omega, Or.inr (Or.inr (Or.inl hgt))⟩
                        · rw [if_neg (fun hx => hgt hx.2)]
                          obtain ⟨ihne, ihok⟩ := ih (findFirstOf doc attribute_value_end sp5) (some _)
                            (acc ++ pending.toList)
                          refine ⟨ihne, ?_⟩
                          intro attrs p2 h
                          obtain ⟨hle, hrest⟩ := ihok attrs p2 h
                          exact ⟨by omega, hrest⟩

theorem autoclosePops_ok (pos : Nat) (state : EndTagState) :
    ∀ n stack, ∃ evs st, autoclosePops pos state n stack = .ok (evs, st) := by
  intro n
  induction n with
  | zero => intro stack; exact ⟨[], stack, rfl⟩
  | succ m ih =>
    intro stack
    cases stack with
    | nil => exact ⟨[], [], rfl⟩
    | cons t rest =>
      obtain ⟨evs, st, hih⟩ := ih rest
      refine ⟨[.endTagOpen { tagID := t, name := ⟨pos, pos⟩, all := ⟨pos, pos⟩, state := state },
               .endTag { tagID := t, name := ⟨pos, pos⟩, all := ⟨pos, pos⟩, state := state }] ++ evs,
        st, ?_⟩
      simp only [autoclosePops, mkRange_self, hih]

theorem endTagResolve_ok (p : LandmarksPolicy) (pos : Nat) (tagID : TagID)
    (elements : List TagID) :
    ∃ out, endTagResolve p pos tagID elements = .ok out := by
  cases elements with
  | nil => exact ⟨_, rfl⟩
  | cons top rest =>
    simp only [endTagResolve]
    by_cases hsame : p.isSameElement (if p.isWildcardEndTag tagID = true then top else tagID) top = true
    · rw [if_pos hsame]
      exact ⟨_, rfl⟩
    · rw [if_neg hsame]
      rcases hsd : endTagSweepDepth p
          (p.isAutoclosingEndTag (if p.isWildcardEndTag tagID = true then top else tagID))
          (if p.isWildcardEndTag tagID = true then top else tagID) (top :: rest) with _ | n <;>
        simp only [hsd]
      · exact ⟨_, rfl⟩
      · obtain ⟨evs, st, hao⟩ := autoclosePops_ok pos
          (if p.isAutoclosingEndTag (if p.isWildcardEndTag tagID = true then top else tagID) = true
            then EndTagState.autoclosedByAncestor else EndTagState.autoclosedByParent) n (top :: rest)
        simp only [hao]
        exact ⟨_, rfl⟩

theorem opaqueScan_npos (doc : List Char) (p : LandmarksPolicy) (tagID : TagID) :
    ∀ fuel r, opaqueScan doc p tagID fuel npos = .ok r → r = npos := by
  intro fuel r h
  cases fuel with
  | zero => simp [opaqueScan] at h
  | succ n =>
    simp only [opaqueScan, if_pos rfl] at h
    exact (Except.ok.inj h).symm

theorem opaqueScan_le (doc : List Char) (p : LandmarksPolicy) (tagID : TagID)
    (hdoc : doc.length < npos) :
    ∀ fuel sp r, opaqueScan doc p tagID fuel sp = .ok r → sp ≤ r ∨ r = npos := by
  intro fuel
  induction fuel with
  | zero => intro sp r h; simp [opaqueScan] at h
  | succ n ih =>
    intro sp r h
    have h2 : open_end_tag.length = 2 := rfl
    simp only [opaqueScan] at h
    by_cases hsp : sp = npos
    · rw [if_pos hsp] at h
      exact Or.inr (Except.ok.inj h).symm
    · rw [if_neg hsp] at h
      rcases findEnd_cases doc open_end_tag sp with hfe | ⟨hfe1, hfe2⟩
      · rw [hfe] at h
        rw [if_neg (by omega)] at h
        exact Or.inr (opaqueScan_npos doc p tagID n r h)
      · by_cases hlt : findEnd doc open_end_tag sp < doc.length
        · rw [if_pos hlt] at h
          by_cases hm : opaqueMatchesAt doc p tagID (findEnd doc open_end_tag sp) = true
          · rw [if_pos hm] at h
            have := Except.ok.inj h
            omega
          · rw [if_neg hm] at h
            rcases ih _ r h with hle | hnp
            · exact Or.inl (by omega)
            · exact Or.inr hnp
        · rw [if_neg hlt] at h
          rcases ih _ r h with hle | hnp
          · exact Or.inl (by omega)
          · exact Or.inr hnp

theorem acpTail_ok (p : LandmarksPolicy) (pos : Nat) :
    ∀ l, ∃ evs st, acpTail p pos l = .ok (evs, st) := by
  intro l
  induction l with
  | nil => exact ⟨[], [], rfl⟩
  | cons t rest ih =>
    by_cases hacp : p.isAutocloseByParent t = true
    · obtain ⟨evs, st, hih⟩ := ih
      refine ⟨[.endTagOpen { tagID := t, name := ⟨pos, pos⟩, all := ⟨pos, pos⟩, state := .autoclosedByParent },
               .endTag { tagID := t, name := ⟨pos, pos⟩, all := ⟨pos, pos⟩, state := .autoclosedByParent }] ++ evs, st, ?_⟩
      simp only [acpTail, if_pos hacp, mkRange_self, hih]
    · exact ⟨[], t :: rest, by simp only [acpTail, if_neg hacp]⟩

theorem finish_no_rangeError (doc : List Char) (p : LandmarksPolicy)
    (s1 s2 : Nat) (st : List TagID) (acc : List LandmarksEvent) (hs : s1 ≤ s2) :
    finish doc p s1 s2 st acc ≠ .error .rangeError := by
  unfold finish
  obtain ⟨evs, st2, hat⟩ := acpTail_ok p s2 st
  by_cases ht : s2 ≠ s1
  · rw [if_pos ht]
    simp only [mkRange_ok hs, hat]
    simp
  · rw [if_neg ht]
    simp only [hat]
    simp

theorem opaqueScan_no_rangeError (doc : List Char) (p : LandmarksPolicy) (tagID : TagID) :
    ∀ fuel sp, opaqueScan doc p tagID fuel sp ≠ .error .rangeError := by
  intro fuel
  induction fuel with
  | zero => intro sp; simp [opaqueScan]
  | succ n ih =>
    intro sp
    simp only [opaqueScan]
    by_cases hsp : sp = npos
    · rw [if_pos hsp]; simp
    · rw [if_neg hsp]
      by_cases hlt : findEnd doc open_end_tag sp < doc.length
      · rw [if_pos hlt]
        by_cases hm : opaqueMatchesAt doc p tagID (findEnd doc open_end_tag sp) = true
        · rw [if_pos hm]; simp
        · rw [if_neg hm]; exact ih _
      · rw [if_neg hlt]; exact ih _

/-- Leaf dispatcher: a continuing step with ordered positions satisfies the
parseBody invariant. -/
theorem step_leaf_cont {E : List LandmarksEvent} {ELS : List TagID} {x y : Nat} (hxy : x ≤ y) :
    (Except.ok (Step.cont E ELS x y) : Except ParseError Step) ≠ .error .rangeError ∧
    ∀ evs els a b,
      ((Except.ok (Step.cont E ELS x y) : Except ParseError Step) = .ok (.cont evs els a b) ∨
       (Except.ok (Step.cont E ELS x y) : Except ParseError Step) = .ok (.halt evs els a b)) →
      a ≤ b := by
  refine ⟨by simp, ?_⟩
  rintro evs els a b (h | h) <;> simp only [Except.ok.injEq] at h
  · obtain ⟨-, -, h3, h4⟩ := Step.cont.inj h
    omega
  · exact Step.noConfusion h

/-- Leaf dispatcher: a halting step with ordered positions. -/
theorem step_leaf_halt {E : List LandmarksEvent} {ELS : List TagID} {x y : Nat} (hxy : x ≤ y) :
    (Except.ok (Step.halt E ELS x y) : Except ParseError Step) ≠ .error .rangeError ∧
    ∀ evs els a b,
      ((Except.ok (Step.halt E ELS x y) : Except ParseError Step) = .ok (.cont evs els a b) ∨
       (Except.ok (Step.halt E ELS x y) : Except ParseError Step) = .ok (.halt evs els a b)) →
      a ≤ b := by
  refine ⟨by simp, ?_⟩
  rintro evs els a b (h | h) <;> simp only [Except.ok.injEq] at h
  · exact Step.noConfusion h
  · obtain ⟨-, -, h3, h4⟩ := Step.halt.inj h
    omega

/-- Leaf dispatcher: a propagated non-range error. -/
theorem step_leaf_error {e : ParseError} (he : e ≠ .rangeError) :
    (Except.error e : Except ParseError Step) ≠ .error .rangeError ∧
    ∀ evs els a b,
      ((Except.error e : Except ParseError Step) = .ok (.cont evs els a b) ∨
       (Except.error e : Except ParseError Step) = .ok (.halt evs els a b)) → a ≤ b := by
  refine ⟨by simp [he], ?_⟩
  rintro evs els a b (h | h) <;> exact Except.noConfusion h

theorem findFirstOf_npos (doc characters : List Char) (hdoc : doc.length < npos) :
    findFirstOf doc characters npos = npos := by
  rw [findFirstOf, Nat.sub_eq_zero_of_le (by omega)]
  rfl

theorem parseStartTagBranch_spec (doc : List Char) (p : LandmarksPolicy) (hdoc : doc.length < npos)
    (hpol : ∀ pos, p.getElementNameStart doc pos = npos ∨
      (pos ≤ p.getElementNameStart doc pos ∧ p.getElementNameStart doc pos ≤ npos))
    (textEvents : List LandmarksEvent) (f : Nat) (elements : List TagID) (hfl : f < doc.length) :
    parseStartTagBranch doc p textEvents f elements ≠ .error .rangeError ∧
    ∀ evs els a b,
      (parseStartTagBranch doc p textEvents f elements = .ok (.cont evs els a b) ∨
       parseStartTagBranch doc p textEvents f elements = .ok (.halt evs els a b)) → a ≤ b := by
  simp only [parseStartTagBranch]
  by_cases hn : p.getElementNameStart doc (f + openTok.length) = npos
  · rw [if_pos hn]
    exact step_leaf_cont (by omega)
  · rw [if_neg hn]
    obtain ⟨hge_n, hle_n⟩ := (hpol (f + openTok.length)).resolve_left hn
    have hol : openTok.length = 1 := rfl
    have hENc := findFirstOf_cases doc element_name_end
      (p.getElementNameStart doc (f + openTok.length))
    generalize hSN : p.getElementNameStart doc (f + openTok.length) = SN
      at hge_n hle_n hENc ⊢
    have hfen : f ≤ findFirstOf doc element_name_end SN := by
      rcases hENc with h | ⟨hge, -, -⟩ <;> omega
    have hnen : SN ≤ findFirstOf doc element_name_end SN := by
      rcases hENc with h | ⟨hge, -, -⟩ <;> omega
    simp only [mkRange_ok hfen, mkRange_ok hnen]
    generalize hEN : findFirstOf doc element_name_end SN = EN at hENc hfen hnen ⊢
    by_cases hen : EN = npos
    · rw [if_pos hen]
      exact step_leaf_halt (by omega)
    · rw [if_neg hen]
      generalize hTID : p.getTagID (String.mk (substr doc SN (EN - SN))) = TID
      obtain ⟨sweepEvs, els1, hout⟩ := autoclosePops_ok f .autoclosedBySibling
        (match findFromTop (fun e => p.isAutoclosingSibling e TID) elements with
          | some i => i + 1
          | none => 0) elements
      simp only [hout]
      rcases hpa : parseAttributes doc EN with e | ⟨attrs, sp1⟩ <;> simp only [hpa]
      · refine step_leaf_error ?_
        intro he
        subst he
        exact (parseAttrsLoop_spec doc hdoc (doc.length + 2) EN none []).1 hpa
      · obtain ⟨hple, -⟩ :=
          (parseAttrsLoop_spec doc hdoc (doc.length + 2) EN none []).2 attrs sp1 hpa
        rcases findEnd_cases doc close sp1 with hte | ⟨hte1, hte2⟩
        · rw [hte]
          simp only [mkRange_ok (show f ≤ npos by omega)]
          generalize hTag : LandmarksStartTag.mk TID ⟨SN, EN⟩ ⟨f, npos⟩
            (if p.isVoidElement TID = true then SelfClosingPolicy.required
              else if p.isContentElement TID = true then SelfClosingPolicy.prohibited
              else SelfClosingPolicy.allowed)
            (selfClosingMarkerAt doc sp1) = TAG
          by_cases hsc : TAG.isSelfClosing = true
          · rw [if_pos hsc]
            exact step_leaf_cont (by omega)
          · rw [if_neg hsc]
            by_cases hop : p.isOpaqueElement TID = true
            · rw [if_pos hop]
              rcases hos : opaqueScan doc p TID (doc.length + 2) npos
                  with e | sp2 <;> simp only [hos]
              · refine step_leaf_error ?_
                intro he
                subst he
                exact opaqueScan_no_rangeError doc p TID (doc.length + 2) npos hos
              · have := opaqueScan_npos doc p TID (doc.length + 2) sp2 hos
                exact step_leaf_cont (by omega)
            · rw [if_neg hop]
              exact step_leaf_cont (by omega)
        · have hfte : f ≤ findEnd doc close sp1 := by omega
          simp only [mkRange_ok hfte]
          generalize hTag : LandmarksStartTag.mk TID ⟨SN, EN⟩ ⟨f, findEnd doc close sp1⟩
            (if p.isVoidElement TID = true then SelfClosingPolicy.required
              else if p.isContentElement TID = true then SelfClosingPolicy.prohibited
              else SelfClosingPolicy.allowed)
            (selfClosingMarkerAt doc sp1) = TAG
          by_cases hsc : TAG.isSelfClosing = true
          · rw [if_pos hsc]
            exact step_leaf_cont (by omega)
          · rw [if_neg hsc]
            by_cases hop : p.isOpaqueElement TID = true
            · rw [if_pos hop]
              rcases hos : opaqueScan doc p TID (doc.length + 2) (findEnd doc close sp1)
                  with e | sp2 <;> simp only [hos]
              · refine step_leaf_error ?_
                intro he
                subst he
                exact opaqueScan_no_rangeError doc p TID (doc.length + 2) _ hos
              · rcases opaqueScan_le doc p TID hdoc (doc.length + 2) _ sp2 hos
                    with hle2 | hnp2
                · exact step_leaf_cont hle2
                · exact step_leaf_cont (by omega)
            · rw [if_neg hop]
              exact step_leaf_cont (by omega)

theorem parseEndTagBranch_spec (doc : List Char) (p : LandmarksPolicy) (hdoc : doc.length < npos)
    (hpol : ∀ pos, p.getElementNameStart doc pos = npos ∨
      (pos ≤ p.getElementNameStart doc pos ∧ p.getElementNameStart doc pos ≤ npos))
    (textEvents : List LandmarksEvent) (f : Nat) (elements : List TagID) (hfl : f < doc.length) :
    parseEndTagBranch doc p textEvents f elements ≠ .error .rangeError ∧
    ∀ evs els a b,
      (parseEndTagBranch doc p textEvents f elements = .ok (.cont evs els a b) ∨
       parseEndTagBranch doc p textEvents f elements = .ok (.halt evs els a b)) → a ≤ b := by
  simp only [parseEndTagBranch]
  have hol2 : open_end_tag.length = 2 := rfl
  by_cases hn2 : p.getElementNameStart doc (f + open_end_tag.length) = npos
  · rw [if_neg (not_not_intro hn2)]
    have hSN0a : f + 2 ≤ f + open_end_tag.length := by omega
    have hSN0b : f + open_end_tag.length ≤ npos := by omega
    generalize hSN0 : f + open_end_tag.length = SN0 at hSN0a hSN0b ⊢
    by_cases hsl : SN0 ≥ doc.length
    · rw [if_pos hsl]
      rw [findFirstOf_npos doc element_name_end hdoc]
      rw [if_pos rfl]
      rcases hetr : endTagResolve p f UnknownTagID elements
          with e | ⟨tagID1, est, sevs, els1⟩ <;> simp only [hetr]
      · obtain ⟨out, hok⟩ := endTagResolve_ok p f UnknownTagID elements
        rw [hetr] at hok
        exact absurd hok (by simp)
      · simp only [mkRange_self, mkRange_ok (show f ≤ npos by omega)]
        rcases hpa : parseAttributes doc npos with e | ⟨attrs, sp1⟩ <;> simp only [hpa]
        · refine step_leaf_error ?_
          intro he
          subst he
          exact (parseAttrsLoop_spec doc hdoc (doc.length + 2) npos none []).1 hpa
        · obtain ⟨hple, -⟩ :=
            (parseAttrsLoop_spec doc hdoc (doc.length + 2) npos none []).2 attrs sp1 hpa
          rcases findEnd_cases doc close sp1 with hte | ⟨hte1, hte2⟩
          · rw [hte]
            simp only [mkRange_ok (show f ≤ npos by omega)]
            exact step_leaf_cont (le_refl _)
          · simp only [mkRange_ok (show f ≤ findEnd doc close sp1 by omega)]
            exact step_leaf_cont (le_refl _)
    · rw [if_neg hsl]
      have hENc := findFirstOf_cases doc element_name_end SN0
      have hEN1 : SN0 ≤ findFirstOf doc element_name_end SN0 := by
        rcases hENc with h | ⟨hge, -, -⟩ <;> omega
      have hEN2 : f ≤ findFirstOf doc element_name_end SN0 := by omega
      rw [if_neg (show ¬SN0 > doc.length by omega)]
      simp only [mkRange_ok hEN1, mkRange_ok hEN2]
      generalize hTID : (if findFirstOf doc element_name_end SN0 = npos then UnknownTagID
        else p.getTagID (String.mk
          (substr doc SN0 (findFirstOf doc element_name_end SN0 - SN0)))) = TID0
      generalize hEN : findFirstOf doc element_name_end SN0 = EN at hEN1 hEN2 ⊢
      rcases hetr : endTagResolve p f TID0 elements
          with e | ⟨tagID1, est, sevs, els1⟩ <;> simp only [hetr]
      · obtain ⟨out, hok⟩ := endTagResolve_ok p f TID0 elements
        rw [hetr] at hok
        exact absurd hok (by simp)
      · rcases hpa : parseAttributes doc EN with e | ⟨attrs, sp1⟩ <;> simp only [hpa]
        · refine step_leaf_error ?_
          intro he
          subst he
          exact (parseAttrsLoop_spec doc hdoc (doc.length + 2) EN none []).1 hpa
        · obtain ⟨hple, -⟩ :=
            (parseAttrsLoop_spec doc hdoc (doc.length + 2) EN none []).2 attrs sp1 hpa
          rcases findEnd_cases doc close sp1 with hte | ⟨hte1, hte2⟩
          · rw [hte]
            simp only [mkRange_ok (show f ≤ npos by omega)]
            exact step_leaf_cont (le_refl _)
          · simp only [mkRange_ok (show f ≤ findEnd doc close sp1 by omega)]
            exact step_leaf_cont (le_refl _)

  · rw [if_pos hn2]
    obtain ⟨hge_n, hle_n⟩ := (hpol (f + open_end_tag.length)).resolve_left hn2
    have hSN0a : f + 2 ≤ p.getElementNameStart doc (f + open_end_tag.length) := by omega
    have hSN0b : p.getElementNameStart doc (f + open_end_tag.length) ≤ npos := hle_n
    generalize hSN0 : p.getElementNameStart doc (f + open_end_tag.length) = SN0
      at hSN0a hSN0b ⊢
    by_cases hsl : SN0 ≥ doc.length
    · rw [if_pos hsl]
      rw [findFirstOf_npos doc element_name_end hdoc]
      rw [if_pos rfl]
      rcases hetr : endTagResolve p f UnknownTagID elements
          with e | ⟨tagID1, est, sevs, els1⟩ <;> simp only [hetr]
      · obtain ⟨out, hok⟩ := endTagResolve_ok p f UnknownTagID elements
        rw [hetr] at hok
        exact absurd hok (by simp)
      · simp only [mkRange_self, mkRange_ok (show f ≤ npos by omega)]
        rcases hpa : parseAttributes doc npos with e | ⟨attrs, sp1⟩ <;> simp only [hpa]
        · refine step_leaf_error ?_
          intro he
          subst he
          exact (parseAttrsLoop_spec doc hdoc (doc.length + 2) npos none []).1 hpa
        · obtain ⟨hple, -⟩ :=
            (parseAttrsLoop_spec doc hdoc (doc.length + 2) npos none []).2 attrs sp1 hpa
          rcases findEnd_cases doc close sp1 with hte | ⟨hte1, hte2⟩
          · rw [hte]
            simp only [mkRange_ok (show f ≤ npos by omega)]
            exact step_leaf_cont (le_refl _)
          · simp only [mkRange_ok (show f ≤ findEnd doc close sp1 by omega)]
            exact step_leaf_cont (le_refl _)
    · rw [if_neg hsl]
      have hENc := findFirstOf_cases doc element_name_end SN0
      have hEN1 : SN0 ≤ findFirstOf doc element_name_end SN0 := by
        rcases hENc with h | ⟨hge, -, -⟩ <;> omega
      have hEN2 : f ≤ findFirstOf doc element_name_end SN0 := by omega
      rw [if_neg (show ¬SN0 > doc.length by omega)]
      simp only [mkRange_ok hEN1, mkRange_ok hEN2]
      generalize hTID : (if findFirstOf doc element_name_end SN0 = npos then UnknownTagID
        else p.getTagID (String.mk
          (substr doc SN0 (findFirstOf doc element_name_end SN0 - SN0)))) = TID0
      generalize hEN : findFirstOf doc element_name_end SN0 = EN at hEN1 hEN2 ⊢
      rcases hetr : endTagResolve p f TID0 elements
          with e | ⟨tagID1, est, sevs, els1⟩ <;> simp only [hetr]
      · obtain ⟨out, hok⟩ := endTagResolve_ok p f TID0 elements
        rw [hetr] at hok
        exact absurd hok (by simp)
      · rcases hpa : parseAttributes doc EN with e | ⟨attrs, sp1⟩ <;> simp only [hpa]
        · refine step_leaf_error ?_
          intro he
          subst he
          exact (parseAttrsLoop_spec doc hdoc (doc.length + 2) EN none []).1 hpa
        · obtain ⟨hple, -⟩ :=
            (parseAttrsLoop_spec doc hdoc (doc.length + 2) EN none []).2 attrs sp1 hpa
          rcases findEnd_cases doc close sp1 with hte | ⟨hte1, hte2⟩
          · rw [hte]
            simp only [mkRange_ok (show f ≤ npos by omega)]
            exact step_leaf_cont (le_refl _)
          · simp only [mkRange_ok (show f ≤ findEnd doc close sp1 by omega)]
            exact step_leaf_cont (le_refl _)


theorem parseBody_spec (doc : List Char) (p : LandmarksPolicy) (hdoc : doc.length < npos)
    (hpol : ∀ pos, p.getElementNameStart doc pos = npos ∨
      (pos ≤ p.getElementNameStart doc pos ∧ p.getElementNameStart doc pos ≤ npos))
    (s1 s2 : Nat) (elements : List TagID) (hs : s1 ≤ s2) (hs2 : s2 < doc.length) :
    parseBody doc p s1 s2 elements ≠ .error .rangeError ∧
    ∀ evs els a b,
      (parseBody doc p s1 s2 elements = .ok (.cont evs els a b) ∨
       parseBody doc p s1 s2 elements = .ok (.halt evs els a b)) → a ≤ b := by
  simp only [parseBody]
  by_cases hf : find doc openTok s2 = npos
  · rw [if_pos hf]
    exact step_leaf_halt (by omega)
  · rw [if_neg hf]
    obtain ⟨hgef, hltf, -⟩ := (find_cases doc openTok s2).resolve_left hf
    have htv : (if find doc openTok s2 ≠ s1 then
          match mkRange s1 (find doc openTok s2) with
          | .error e => (.error e : Except ParseError (List LandmarksEvent))
          | .ok r => .ok [.Text r]
        else .ok []) =
        .ok (if find doc openTok s2 ≠ s1 then [.Text ⟨s1, find doc openTok s2⟩] else []) := by
      by_cases hts : find doc openTok s2 ≠ s1
      · rw [if_pos hts, if_pos hts, mkRange_ok (by omega)]
      · rw [if_neg hts, if_neg hts]
    rw [htv]
    rcases hch : choose doc (find doc openTok s2) open_choices with _ | c <;> simp only [hch]
    · exact step_leaf_cont (by omega)
    · generalize hF : find doc openTok s2 = F at hgef hltf ⊢
      by_cases hc1 : c = openTok
      · rw [if_pos hc1]
        exact parseStartTagBranch_spec doc p hdoc hpol _ F elements hltf
      · rw [if_neg hc1]
        by_cases hc2 : c = open_end_tag
        · rw [if_pos hc2]
          exact parseEndTagBranch_spec doc p hdoc hpol _ F elements hltf
        · rw [if_neg hc2]
          by_cases hc3 : c = open_comment
          · rw [if_pos hc3]
            rcases findEnd_cases doc close_comment F with he | ⟨he1, he2⟩
            · rw [he]
              simp only [mkRange_ok (show F ≤ npos by omega)]
              exact step_leaf_cont (le_refl _)
            · simp only [mkRange_ok (show F ≤ findEnd doc close_comment F by omega)]
              exact step_leaf_cont (le_refl _)
          · rw [if_neg hc3]
            by_cases hc4 : c = open_cdata
            · rw [if_pos hc4]
              rcases findEnd_cases doc close_cdata F with he | ⟨he1, he2⟩
              · rw [he]
                simp only [mkRange_ok (show F ≤ npos by omega)]
                exact step_leaf_cont (le_refl _)
              · simp only [mkRange_ok (show F ≤ findEnd doc close_cdata F by omega)]
                exact step_leaf_cont (le_refl _)
            · rw [if_neg hc4]
              by_cases hc5 : c = open_processing
              · rw [if_pos hc5]
                rcases findEnd_cases doc close_processing F with he | ⟨he1, he2⟩
                · rw [he]
                  simp only [mkRange_ok (show F ≤ npos by omega)]
                  exact step_leaf_cont (le_refl _)
                · simp only [mkRange_ok (show F ≤ findEnd doc close_processing F by omega)]
                  exact step_leaf_cont (le_refl _)
              · rw [if_neg hc5]
                by_cases hc6 : c = open_declaration
                · rw [if_pos hc6]
                  rcases findEnd_cases doc close_declaration F with he | ⟨he1, he2⟩
                  · rw [he]
                    simp only [mkRange_ok (show F ≤ npos by omega)]
                    exact step_leaf_cont (le_refl _)
                  · simp only [mkRange_ok (show F ≤ findEnd doc close_declaration F by omega)]
                    exact step_leaf_cont (le_refl _)
                · rw [if_neg hc6]
                  exact step_leaf_cont (le_refl _)

theorem parseIter_no_rangeError (doc : List Char) (p : LandmarksPolicy) (hdoc : doc.length < npos)
    (hpol : ∀ pos, p.getElementNameStart doc pos = npos ∨
      (pos ≤ p.getElementNameStart doc pos ∧ p.getElementNameStart doc pos ≤ npos)) :
    ∀ fuel s1 s2 st acc, s1 ≤ s2 →
      parseIter doc p fuel s1 s2 st acc ≠ .error .rangeError := by
  intro fuel
  induction fuel with
  | zero =>
    intro s1 s2 st acc hs
    exact fun hcon => absurd hcon (by simp [parseIter])
  | succ n ih =>
    intro s1 s2 st acc hs
    simp only [parseIter]
    by_cases hlt : s2 < doc.length
    · rw [if_pos hlt]
      obtain ⟨hne, hstep⟩ := parseBody_spec doc p hdoc hpol s1 s2 st hs hlt
      rcases hb : parseBody doc p s1 s2 st with e | step
      · intro hcon
        have he : e = .rangeError := Except.error.inj hcon
        rw [he] at hb
        exact hne hb
      · rcases step with ⟨evs1, st1, a1, b1⟩ | ⟨evs1, st1, a1, b1⟩
        · exact ih a1 b1 st1 (acc ++ evs1) (hstep evs1 st1 a1 b1 (Or.inl hb))
        · exact finish_no_rangeError doc p a1 b1 st1 (acc ++ evs1) (hstep evs1 st1 a1 b1 (Or.inr hb))
    · rw [if_neg hlt]
      exact finish_no_rangeError doc p s1 s2 st acc hs

/-- C10: when the policy returns from getElementNameStart only NPOS or a
position at or after the queried one (and at most NPOS), every LandmarksRange
constructed during parse() satisfies start <= end, so the range-constructor
error branch is unreachable: parse never returns the rangeError outcome (the
only modelled throw). The document-length bound reflects the JS guarantee
that string lengths stay below Number.MAX_SAFE_INTEGER. -/
theorem c10_no_range_throw (doc : List Char) (p : LandmarksPolicy)
    (hdoc : doc.length < npos)
    (hpol : ∀ pos, p.getElementNameStart doc pos = npos ∨
      (pos ≤ p.getElementNameStart doc pos ∧ p.getElementNameStart doc pos ≤ npos)) :
    parse doc p ≠ .error .rangeError :=
  parseIter_no_rangeError doc p hdoc hpol (doc.length + 2) 0 0 [] [] (le_refl 0)

/-- Witness for c10_no_range_throw at the document docAX under xmlPolicy. -/
theorem c10_no_range_throw_witness : parse docAX xmlPolicy ≠ .error .rangeError :=
  c10_no_range_throw docAX xmlPolicy (by decide) (fun pos => by
    show stdElementNameStart docAX pos = npos ∨
      (pos ≤ stdElementNameStart docAX pos ∧ stdElementNameStart docAX pos ≤ npos)
    unfold stdElementNameStart
    cases h : charAt? docAX pos with
    | none => exact Or.inl rfl
    | some c =>
      show (if ('0' ≤ c ∧ c ≤ '9') ∨ ('A' ≤ c ∧ c ≤ 'z') then pos else npos) = npos ∨
        (pos ≤ (if ('0' ≤ c ∧ c ≤ '9') ∨ ('A' ≤ c ∧ c ≤ 'z') then pos else npos) ∧
         (if ('0' ≤ c ∧ c ≤ '9') ∨ ('A' ≤ c ∧ c ≤ 'z') then pos else npos) ≤ npos)
      by_cases halnum : (('0' ≤ c ∧ c ≤ '9') ∨ ('A' ≤ c ∧ c ≤ 'z'))
      · rw [if_pos halnum]
        refine Or.inr ⟨le_refl pos, ?_⟩
        have hc2 : docAX.get? pos = some c := h
        obtain ⟨hlt, -⟩ := List.get?_eq_some.1 hc2
        have h8 : docAX.length = 8 := rfl
        have hnp : (8 : Nat) < npos := by decide
        omega
      · rw [if_neg halnum]
        exact Or.inl rfl)

theorem mkRange_ok_inv {a b : Nat} {r : LandmarksRange} (h : mkRange a b = .ok r) :
    r = ⟨a, b⟩ ∧ a ≤ b := by
  unfold mkRange at h
  split at h
  · exact Except.noConfusion h
  · exact ⟨(Except.ok.inj h).symm, by omega⟩

/-- Full characterization of the start-tag branch outcomes. -/
theorem parseStartTagBranch_cases (doc : List Char) (p : LandmarksPolicy)
    (textEvents : List LandmarksEvent) (f : Nat) (elements : List TagID) (step : Step)
    (h : parseStartTagBranch doc p textEvents f elements = .ok step) :
    (p.getElementNameStart doc (f + openTok.length) = npos ∧
     step = .cont textEvents elements f (f + 1)) ∨
    (p.getElementNameStart doc (f + openTok.length) ≠ npos ∧
     findFirstOf doc element_name_end (p.getElementNameStart doc (f + openTok.length)) = npos ∧
     step = .halt (textEvents ++
       [.startTagOpen ⟨UnknownTagID, ⟨p.getElementNameStart doc (f + openTok.length), npos⟩, ⟨f, npos⟩, .allowed, .absent⟩,
        .startTag ⟨UnknownTagID, ⟨p.getElementNameStart doc (f + openTok.length), npos⟩, ⟨f, npos⟩, .allowed, .absent⟩])
       elements npos npos) ∨
    (p.getElementNameStart doc (f + openTok.length) ≠ npos ∧
     findFirstOf doc element_name_end (p.getElementNameStart doc (f + openTok.length)) ≠ npos ∧
     ∃ TID sweepEvs els1 attrs sp1 PRE TAG,
       TID = p.getTagID (String.mk (substr doc (p.getElementNameStart doc (f + openTok.length))
         (findFirstOf doc element_name_end (p.getElementNameStart doc (f + openTok.length)) -
          p.getElementNameStart doc (f + openTok.length)))) ∧
       autoclosePops f .autoclosedBySibling
         (match findFromTop (fun e => p.isAutoclosingSibling e TID) elements with
           | some i => i + 1
           | none => 0) elements = .ok (sweepEvs, els1) ∧
       parseAttributes doc (findFirstOf doc element_name_end
         (p.getElementNameStart doc (f + openTok.length))) = .ok (attrs, sp1) ∧
       PRE = LandmarksStartTag.mk TID
         ⟨p.getElementNameStart doc (f + openTok.length),
          findFirstOf doc element_name_end (p.getElementNameStart doc (f + openTok.length))⟩
         ⟨f, findFirstOf doc element_name_end (p.getElementNameStart doc (f + openTok.length))⟩
         .allowed .absent ∧
       TAG = LandmarksStartTag.mk TID
         ⟨p.getElementNameStart doc (f + openTok.length),
          findFirstOf doc element_name_end (p.getElementNameStart doc (f + openTok.length))⟩
         ⟨f, findEnd doc close sp1⟩
         (if p.isVoidElement TID = true then SelfClosingPolicy.required
           else if p.isContentElement TID = true then SelfClosingPolicy.prohibited
           else SelfClosingPolicy.allowed)
         (selfClosingMarkerAt doc sp1) ∧
       ((TAG.isSelfClosing = true ∧
         step = .cont (textEvents ++ sweepEvs ++ [.startTagOpen PRE]
           ++ attrs.map LandmarksEvent.startTagAttr ++ [.startTag TAG]) els1
           (findEnd doc close sp1) (findEnd doc close sp1)) ∨
        (TAG.isSelfClosing = false ∧ p.isOpaqueElement TID = false ∧
         step = .cont (textEvents ++ sweepEvs ++ [.startTagOpen PRE]
           ++ attrs.map LandmarksEvent.startTagAttr ++ [.startTag TAG]) (TID :: els1)
           (findEnd doc close sp1) (findEnd doc close sp1)) ∨
        (TAG.isSelfClosing = false ∧ p.isOpaqueElement TID = true ∧
         ∃ sp2, opaqueScan doc p TID (doc.length + 2) (findEnd doc close sp1) = .ok sp2 ∧
           step = .cont (textEvents ++ sweepEvs ++ [.startTagOpen PRE]
             ++ attrs.map LandmarksEvent.startTagAttr ++ [.startTag TAG]) (TID :: els1)
             (findEnd doc close sp1) sp2))) := by
  simp only [parseStartTagBranch] at h
  by_cases hn : p.getElementNameStart doc (f + openTok.length) = npos
  · rw [if_pos hn] at h
    exact Or.inl ⟨hn, (Except.ok.inj h).symm⟩
  · rw [if_neg hn] at h
    rcases hmk1 : mkRange f (findFirstOf doc element_name_end
        (p.getElementNameStart doc (f + openTok.length))) with e | tagAll <;> simp only [hmk1] at h
    · exact Except.noConfusion h
    · obtain ⟨hAll, hfle⟩ := mkRange_ok_inv hmk1
      rcases hmk2 : mkRange (p.getElementNameStart doc (f + openTok.length))
          (findFirstOf doc element_name_end (p.getElementNameStart doc (f + openTok.length)))
          with e | tagName <;> simp only [hmk2] at h
      · exact Except.noConfusion h
      · obtain ⟨hName, hnle⟩ := mkRange_ok_inv hmk2
        subst hAll hName
        by_cases hen : findFirstOf doc element_name_end
            (p.getElementNameStart doc (f + openTok.length)) = npos
        · rw [if_pos hen] at h
          refine Or.inr (Or.inl ⟨hn, hen, ?_⟩)
          rw [← (Except.ok.inj h), hen]
        · rw [if_neg hen] at h
          rcases hout : autoclosePops f .autoclosedBySibling
              (match findFromTop (fun e => p.isAutoclosingSibling e
                (p.getTagID (String.mk (substr doc (p.getElementNameStart doc (f + openTok.length))
                  (findFirstOf doc element_name_end (p.getElementNameStart doc (f + openTok.length)) -
                   p.getElementNameStart doc (f + openTok.length)))))) elements with
                | some i => i + 1
                | none => 0) elements with e | ⟨sweepEvs, els1⟩ <;> simp only [hout] at h
          · exact Except.noConfusion h
          · rcases hpa : parseAttributes doc (findFirstOf doc element_name_end
                (p.getElementNameStart doc (f + openTok.length))) with e | ⟨attrs, sp1⟩ <;>
              simp only [hpa] at h
            · exact Except.noConfusion h
            · rcases hmk3 : mkRange f (findEnd doc close sp1) with e | allR <;> simp only [hmk3] at h
              · exact Except.noConfusion h
              · obtain ⟨hAll2, hfle2⟩ := mkRange_ok_inv hmk3
                subst hAll2
                refine Or.inr (Or.inr ⟨hn, hen, _, sweepEvs, els1, attrs, sp1, _, _, rfl,
                  hout, rfl, rfl, rfl, ?_⟩)
                by_cases hsc : (LandmarksStartTag.mk (p.getTagID (String.mk (substr doc
                    (p.getElementNameStart doc (f + openTok.length))
                    (findFirstOf doc element_name_end (p.getElementNameStart doc (f + openTok.length)) -
                     p.getElementNameStart doc (f + openTok.length)))))
                    ⟨p.getElementNameStart doc (f + openTok.length),
                     findFirstOf doc element_name_end (p.getElementNameStart doc (f + openTok.length))⟩
                    ⟨f, findEnd doc close sp1⟩
                    (if p.isVoidElement (p.getTagID (String.mk (substr doc
                        (p.getElementNameStart doc (f + openTok.length))
                        (findFirstOf doc element_name_end (p.getElementNameStart doc (f + openTok.length)) -
                         p.getElementNameStart doc (f + openTok.length))))) = true
                      then SelfClosingPolicy.required
                      else if p.isContentElement (p.getTagID (String.mk (substr doc
                        (p.getElementNameStart doc (f + openTok.length))
                        (findFirstOf doc element_name_end (p.getElementNameStart doc (f + openTok.length)) -
                         p.getElementNameStart doc (f + openTok.length))))) = true
                      then SelfClosingPolicy.prohibited
                      else SelfClosingPolicy.allowed)
                    (selfClosingMarkerAt doc sp1)).isSelfClosing = true
                · rw [if_pos hsc] at h
                  exact Or.inl ⟨hsc, (Except.ok.inj h).symm⟩
                · rw [if_neg hsc] at h
                  by_cases hop : p.isOpaqueElement (p.getTagID (String.mk (substr doc
                      (p.getElementNameStart doc (f + openTok.length))
                      (findFirstOf doc element_name_end (p.getElementNameStart doc (f + openTok.length)) -
                       p.getElementNameStart doc (f + openTok.length))))) = true
                  · rw [if_pos hop] at h
                    rcases hos : opaqueScan doc p (p.getTagID (String.mk (substr doc
                        (p.getElementNameStart doc (f + openTok.length))
                        (findFirstOf doc element_name_end (p.getElementNameStart doc (f + openTok.length)) -
                         p.getElementNameStart doc (f + openTok.length)))))
                        (doc.length + 2) (findEnd doc close sp1) with e | sp2 <;> simp only [hos] at h
                    · exact Except.noConfusion h
                    · exact Or.inr (Or.inr ⟨Bool.not_eq_true _ ▸ hsc, hop, sp2, rfl,
                        (Except.ok.inj h).symm⟩)
                  · rw [if_neg hop] at h
                    exact Or.inr (Or.inl ⟨Bool.not_eq_true _ ▸ hsc, Bool.not_eq_true _ ▸ hop,
                      (Except.ok.inj h).symm⟩)

/-- Full characterization of the end-tag branch outcome. -/
theorem parseEndTagBranch_cases (doc : List Char) (p : LandmarksPolicy)
    (textEvents : List LandmarksEvent) (f : Nat) (elements : List TagID) (step : Step)
    (h : parseEndTagBranch doc p textEvents f elements = .ok step) :
    ∃ start_name end_name tagID0 tagID1 end_state sweepEvents elements1 attrs sp1,
      start_name = (if (if p.getElementNameStart doc (f + open_end_tag.length) ≠ npos
          then p.getElementNameStart doc (f + open_end_tag.length)
          else f + open_end_tag.length) ≥ doc.length then npos
        else (if p.getElementNameStart doc (f + open_end_tag.length) ≠ npos
          then p.getElementNameStart doc (f + open_end_tag.length)
          else f + open_end_tag.length)) ∧
      end_name = findFirstOf doc element_name_end start_name ∧
      tagID0 = (if end_name = npos then UnknownTagID
        else p.getTagID (String.mk (substr doc
          (if start_name > doc.length then doc.length else start_name)
          (end_name - (if start_name > doc.length then doc.length else start_name))))) ∧
      endTagResolve p f tagID0 elements = .ok (tagID1, end_state, sweepEvents, elements1) ∧
      parseAttributes doc end_name = .ok (attrs, sp1) ∧
      step = .cont (textEvents ++ sweepEvents
        ++ [.endTagOpen ⟨tagID1, ⟨start_name, end_name⟩, ⟨f, end_name⟩, end_state⟩]
        ++ attrs.map LandmarksEvent.endTagAttr
        ++ [.endTag ⟨tagID1, ⟨start_name, end_name⟩, ⟨f, findEnd doc close sp1⟩, end_state⟩])
        elements1 (findEnd doc close sp1) (findEnd doc close sp1) := by
  simp only [parseEndTagBranch] at h
  set G := p.getElementNameStart doc (f + open_end_tag.length) with hG
  set SN0 := if G ≠ npos then G else f + open_end_tag.length with hSN0
  set SN := if SN0 ≥ doc.length then npos else SN0 with hSN
  set EN := findFirstOf doc element_name_end SN with hEN
  set POS := if SN > doc.length then doc.length else SN with hPOS
  set TID0 := if EN = npos then UnknownTagID
    else p.getTagID (String.mk (substr doc POS (EN - POS))) with hTID0
  rcases hetr : endTagResolve p f TID0 elements
      with e | ⟨tagID1, est, sevs, els1⟩ <;> simp only [hetr] at h
  · exact Except.noConfusion h
  · rcases hmk1 : mkRange SN EN with e | nameR <;> simp only [hmk1] at h
    · exact Except.noConfusion h
    · obtain ⟨hName, -⟩ := mkRange_ok_inv hmk1
      subst hName
      rcases hmk2 : mkRange f EN with e | allR <;> simp only [hmk2] at h
      · exact Except.noConfusion h
      · obtain ⟨hAll, -⟩ := mkRange_ok_inv hmk2
        subst hAll
        rcases hpa : parseAttributes doc EN with e | ⟨attrs, sp1⟩ <;> simp only [hpa] at h
        · exact Except.noConfusion h
        · rcases hmk3 : mkRange f (findEnd doc close sp1) with e | allR2 <;> simp only [hmk3] at h
          · exact Except.noConfusion h
          · obtain ⟨hAll2, -⟩ := mkRange_ok_inv hmk3
            subst hAll2
            refine ⟨SN, EN, TID0, tagID1, est, sevs, els1, attrs, sp1, ?_, ?_, ?_, hetr, ?_, ?_⟩
            · rw [hSN, hSN0, hG]
            · rw [hEN]
            · rw [hTID0, hPOS]
            · exact hpa
            · exact (Except.ok.inj h).symm

/-! Counting lemmas for the start/end balance (claim C2). -/

theorem countStartTagsNamed_append (xs ys : List LandmarksEvent) (id : TagID) :
    countStartTagsNamed (xs ++ ys) id = countStartTagsNamed xs id + countStartTagsNamed ys id := by
  simp [countStartTagsNamed, List.filter_append]

theorem countPoppedEnds_append (xs ys : List LandmarksEvent) (id : TagID) :
    countPoppedEnds (xs ++ ys) id = countPoppedEnds xs id + countPoppedEnds ys id := by
  simp [countPoppedEnds, List.filter_append]

theorem countOpenAtEOF_append (xs ys : List LandmarksEvent) (id : TagID) :
    countOpenAtEOF (xs ++ ys) id = countOpenAtEOF xs id + countOpenAtEOF ys id := by
  simp [countOpenAtEOF]

theorem counts_startTagAttrMap (attrs : List LandmarksAttribute) (id : TagID) :
    countStartTagsNamed (attrs.map LandmarksEvent.startTagAttr) id = 0 ∧
    countPoppedEnds (attrs.map LandmarksEvent.startTagAttr) id = 0 ∧
    countOpenAtEOF (attrs.map LandmarksEvent.startTagAttr) id = 0 := by
  induction attrs with
  | nil => exact ⟨rfl, rfl, rfl⟩
  | cons a t ih =>
    simpa [countStartTagsNamed, countPoppedEnds, countOpenAtEOF, List.filter] using ih

theorem counts_endTagAttrMap (attrs : List LandmarksAttribute) (id : TagID) :
    countStartTagsNamed (attrs.map LandmarksEvent.endTagAttr) id = 0 ∧
    countPoppedEnds (attrs.map LandmarksEvent.endTagAttr) id = 0 ∧
    countOpenAtEOF (attrs.map LandmarksEvent.endTagAttr) id = 0 := by
  induction attrs with
  | nil => exact ⟨rfl, rfl, rfl⟩
  | cons a t ih =>
    simpa [countStartTagsNamed, countPoppedEnds, countOpenAtEOF, List.filter] using ih

theorem countPoppedEnds_pair (tag : LandmarksEndTag) (id : TagID) :
    countPoppedEnds [.endTagOpen tag, .endTag tag] id =
      if isPoppingState tag.state && (tag.tagID == id) then 1 else 0 := by
  cases h : isPoppingState tag.state && (tag.tagID == id) <;>
    simp [countPoppedEnds, List.filter, h]

theorem countStartTagsNamed_single (tag : LandmarksStartTag) (id : TagID) :
    countStartTagsNamed [.startTag tag] id =
      if !tag.isSelfClosing && tag.name.isComplete && (tag.tagID == id) then 1 else 0 := by
  cases h : !tag.isSelfClosing && tag.name.isComplete && (tag.tagID == id) <;>
    simp [countStartTagsNamed, List.filter, h]

theorem autoclosePops_balance (pos : Nat) (state : EndTagState)
    (hstate : isPoppingState state = true) (id : TagID) :
    ∀ n stack evs st2, autoclosePops pos state n stack = .ok (evs, st2) →
      countPoppedEnds evs id + st2.count id = stack.count id ∧
      countStartTagsNamed evs id = 0 ∧ countOpenAtEOF evs id = 0 := by
  intro n
  induction n with
  | zero =>
    intro stack evs st2 h
    obtain ⟨h1, h2⟩ := Prod.mk.injEq _ _ _ _ ▸ Except.ok.inj h
    subst h1; subst h2
    exact ⟨Nat.zero_add _, rfl, rfl⟩
  | succ n ih =>
    intro stack evs st2 h
    cases stack with
    | nil =>
      obtain ⟨h1, h2⟩ := Prod.mk.injEq _ _ _ _ ▸ Except.ok.inj h
      subst h1; subst h2
      exact ⟨Nat.zero_add _, rfl, rfl⟩
    | cons t rest =>
      simp only [autoclosePops, mkRange_self] at h
      rcases hrec : autoclosePops pos state n rest with e | ⟨evs1, st1⟩ <;>
        simp only [hrec] at h
      · exact Except.noConfusion h
      · obtain ⟨h1, h2⟩ := Prod.mk.injEq _ _ _ _ ▸ Except.ok.inj h
        subst h1; subst h2
        obtain ⟨ihc, ihs, iho⟩ := ih rest evs1 st1 hrec
        refine ⟨?_, ?_, ?_⟩
        · rw [countPoppedEnds_append, countPoppedEnds_pair]
          simp only [hstate, Bool.true_and, List.count_cons]
          by_cases ht : (t == id) = true <;> simp [ht] <;> omega
        · rw [countStartTagsNamed_append, ihs]
          rfl
        · rw [countOpenAtEOF_append, iho]
          rfl

theorem autoclosePops_drop (pos : Nat) (state : EndTagState) :
    ∀ n stack evs st2, autoclosePops pos state n stack = .ok (evs, st2) →
      n ≤ stack.length → st2 = stack.drop n := by
  intro n
  induction n with
  | zero =>
    intro stack evs st2 h _
    obtain ⟨h1, h2⟩ := Prod.mk.injEq _ _ _ _ ▸ Except.ok.inj h
    subst h2
    rfl
  | succ n ih =>
    intro stack evs st2 h hle
    cases stack with
    | nil => exact absurd hle (by simp)
    | cons t rest =>
      simp only [autoclosePops, mkRange_self] at h
      rcases hrec : autoclosePops pos state n rest with e | ⟨evs1, st1⟩ <;>
        simp only [hrec] at h
      · exact Except.noConfusion h
      · obtain ⟨h1, h2⟩ := Prod.mk.injEq _ _ _ _ ▸ Except.ok.inj h
        subst h2
        simpa using ih rest evs1 st1 hrec (by simpa using hle)

theorem endTagSweepDepth_some (p : LandmarksPolicy) (landmark : Bool) (tagID : TagID) :
    ∀ stack n, endTagSweepDepth p landmark tagID stack = some n →
      ∃ hn : n < stack.length, p.isSameElement (stack.get ⟨n, hn⟩) tagID = true := by
  intro stack
  induction stack with
  | nil => intro n h; exact Option.noConfusion h
  | cons e rest ih =>
    intro n h
    simp only [endTagSweepDepth] at h
    by_cases hs : p.isSameElement e tagID = true
    · rw [if_pos hs] at h
      obtain rfl : (0 : Nat) = n := Option.some.inj h
      exact ⟨by simp, hs⟩
    · rw [if_neg hs] at h
      by_cases hl : (landmark || p.isAutocloseByParent e) = true
      · rw [if_pos hl] at h
        rcases ho : endTagSweepDepth p landmark tagID rest with _ | m <;>
          rw [ho] at h
        · exact Option.noConfusion h
        · obtain rfl : m + 1 = n := Option.some.inj (by simpa using h)
          obtain ⟨hm, hsame⟩ := ih m ho
          exact ⟨by simpa using Nat.succ_lt_succ hm, hsame⟩
      · rw [if_neg hl] at h
        exact Option.noConfusion h

theorem endTagResolve_balance (p : LandmarksPolicy) (pos : Nat) (tagID : TagID)
    (elements : List TagID)
    (hsame : ∀ a b, p.isSameElement a b = true → a = b) (id : TagID)
    {tagID1 est sevs els1}
    (h : endTagResolve p pos tagID elements = .ok (tagID1, est, sevs, els1)) :
    countPoppedEnds sevs id + (if isPoppingState est && (tagID1 == id) then 1 else 0) +
      els1.count id = elements.count id ∧
    countStartTagsNamed sevs id = 0 ∧ countOpenAtEOF sevs id = 0 := by
  cases elements with
  | nil =>
    simp only [endTagResolve, Except.ok.injEq, Prod.mk.injEq] at h
    obtain ⟨h1, h2, h3, h4⟩ := h
    subst h1; subst h2; subst h3; subst h4
    exact ⟨by simp [countPoppedEnds, isPoppingState], rfl, rfl⟩
  | cons top rest =>
    simp only [endTagResolve] at h
    set T1 := if p.isWildcardEndTag tagID then top else tagID with hT1
    by_cases hmatch : p.isSameElement T1 top = true
    · rw [if_pos hmatch] at h
      simp only [Except.ok.injEq, Prod.mk.injEq] at h
      obtain ⟨h1, h2, h3, h4⟩ := h
      subst h1; subst h2; subst h3; subst h4
      have hTtop : T1 = top := hsame _ _ hmatch
      refine ⟨?_, rfl, rfl⟩
      rw [hTtop]
      simp only [countPoppedEnds, List.filter, List.count_cons, isPoppingState,
        Bool.true_and]
      by_cases ht : (top == id) = true <;> simp [ht] <;> omega
    · rw [if_neg hmatch] at h
      set lm := p.isAutoclosingEndTag T1 with hlm
      have hpop : isPoppingState
          (if lm then EndTagState.autoclosedByAncestor else EndTagState.autoclosedByParent) =
          true := by
        cases lm <;> rfl
      rcases hsw : endTagSweepDepth p lm T1 (top :: rest) with _ | n <;> simp only [hsw] at h
      · simp only [Except.ok.injEq, Prod.mk.injEq] at h
        obtain ⟨h1, h2, h3, h4⟩ := h
        subst h1; subst h2; subst h3; subst h4
        exact ⟨by simp [countPoppedEnds, isPoppingState], rfl, rfl⟩
      · rcases hap : autoclosePops pos
            (if lm then EndTagState.autoclosedByAncestor else EndTagState.autoclosedByParent)
            n (top :: rest) with e | ⟨evsP, stack1⟩ <;> simp only [hap] at h
        · exact Except.noConfusion h
        · simp only [Except.ok.injEq, Prod.mk.injEq] at h
          obtain ⟨h1, h2, h3, h4⟩ := h
          subst h1; subst h2; subst h3; subst h4
          obtain ⟨hn, hsame2⟩ := endTagSweepDepth_some p lm T1 (top :: rest) n hsw
          have hET : (top :: rest).get ⟨n, hn⟩ = T1 := hsame _ _ hsame2
          obtain ⟨hbal, hs0, ho0⟩ := autoclosePops_balance pos _ hpop id n (top :: rest)
            evsP stack1 hap
          have hdrop : stack1 = (top :: rest).drop n :=
            autoclosePops_drop pos _ n (top :: rest) evsP stack1 hap (Nat.le_of_lt hn)
          have hcons : (top :: rest).drop n =
              (top :: rest).get ⟨n, hn⟩ :: (top :: rest).drop (n + 1) :=
            List.drop_eq_getElem_cons hn
          refine ⟨?_, hs0, ho0⟩
          rw [hdrop, hcons, hET] at hbal
          rw [hdrop, hcons, hET]
          simp only [List.count_cons, isPoppingState, Bool.true_and] at hbal ⊢
          simp only [List.drop_one, List.tail_cons]
          by_cases ht : (T1 == id) = true <;> simp [ht] at hbal ⊢ <;> omega

theorem acpTail_balance (p : LandmarksPolicy) (pos : Nat) (id : TagID) :
    ∀ stack tailEvents st2, acpTail p pos stack = .ok (tailEvents, st2) →
      countPoppedEnds tailEvents id + st2.count id = stack.count id ∧
      countStartTagsNamed tailEvents id = 0 ∧ countOpenAtEOF tailEvents id = 0 := by
  intro stack
  induction stack with
  | nil =>
    intro tailEvents st2 h
    simp only [acpTail, Except.ok.injEq, Prod.mk.injEq] at h
    obtain ⟨h1, h2⟩ := h
    subst h1; subst h2
    exact ⟨Nat.zero_add _, rfl, rfl⟩
  | cons t rest ih =>
    intro tailEvents st2 h
    simp only [acpTail, mkRange_self] at h
    by_cases hacp : p.isAutocloseByParent t = true
    · rw [if_pos hacp] at h
      rcases hrec : acpTail p pos rest with e | ⟨evs1, st1⟩ <;> simp only [hrec] at h
      · exact Except.noConfusion h
      · simp only [Except.ok.injEq, Prod.mk.injEq] at h
        obtain ⟨h1, h2⟩ := h
        subst h1; subst h2
        obtain ⟨ihc, ihs, iho⟩ := ih evs1 st1 hrec
        refine ⟨?_, ?_, ?_⟩
        · rw [countPoppedEnds_append, countPoppedEnds_pair]
          simp only [isPoppingState, Bool.true_and, List.count_cons]
          by_cases ht : (t == id) = true <;> simp [ht] <;> omega
        · rw [countStartTagsNamed_append, ihs]
          rfl
        · rw [countOpenAtEOF_append, iho]
          rfl
    · rw [if_neg hacp] at h
      simp only [Except.ok.injEq, Prod.mk.injEq] at h
      obtain ⟨h1, h2⟩ := h
      subst h1; subst h2
      exact ⟨Nat.zero_add _, rfl, rfl⟩

theorem countStartTagsNamed_pair_trunc (t : LandmarksStartTag) (id : TagID)
    (h : t.name.endPos = npos) :
    countStartTagsNamed [.startTagOpen t, .startTag t] id = 0 := by
  simp [countStartTagsNamed, List.filter, LandmarksRange.isComplete, h]

theorem countPoppedEnds_startPair (t : LandmarksStartTag) (id : TagID) :
    countPoppedEnds [.startTagOpen t, .startTag t] id = 0 := rfl

theorem countOpenAtEOF_startPair (t : LandmarksStartTag) (id : TagID) :
    countOpenAtEOF [.startTagOpen t, .startTag t] id = 0 := rfl

theorem parseStartTagBranch_balance (doc : List Char) (p : LandmarksPolicy)
    (textEvents : List LandmarksEvent) (f : Nat) (elements : List TagID) (step : Step)
    (h : parseStartTagBranch doc p textEvents f elements = .ok step) (id : TagID)
    (ht1 : countStartTagsNamed textEvents id = 0)
    (ht2 : countPoppedEnds textEvents id = 0)
    (ht3 : countOpenAtEOF textEvents id = 0) :
    ∀ evs els a b, (step = .cont evs els a b ∨ step = .halt evs els a b) →
      countStartTagsNamed evs id + elements.count id =
        countPoppedEnds evs id + els.count id ∧
      countOpenAtEOF evs id = 0 := by
  intro evs els a b hstep
  rcases parseStartTagBranch_cases doc p textEvents f elements step h with
    ⟨-, hs⟩ | ⟨-, hen, hs⟩ |
    ⟨-, hen, TID, sweepEvs, els1, attrs, sp1, PRE, TAG, hTID, hpops, hpa, hPRE, hTAG, hrest⟩
  · subst hs
    rcases hstep with he | he
    · obtain ⟨rfl, rfl, -, -⟩ := Step.cont.inj he
      exact ⟨by omega, ht3⟩
    · exact Step.noConfusion he
  · subst hs
    rcases hstep with he | he
    · exact Step.noConfusion he
    · obtain ⟨rfl, rfl, -, -⟩ := Step.halt.inj he
      rw [countStartTagsNamed_append, countPoppedEnds_append, countOpenAtEOF_append,
        ht1, ht2, ht3, countStartTagsNamed_pair_trunc _ _ rfl, countPoppedEnds_startPair,
        countOpenAtEOF_startPair]
      exact ⟨by omega, by omega⟩
  · obtain ⟨hswc, hsws, hswo⟩ :=
      autoclosePops_balance f .autoclosedBySibling rfl id _ elements sweepEvs els1 hpops
    obtain ⟨ham1, ham2, ham3⟩ := counts_startTagAttrMap attrs id
    have hcompl : TAG.name.isComplete = true := by
      rw [hTAG]
      simp [LandmarksRange.isComplete, hen]
    have hSNsingle := countStartTagsNamed_single TAG id
    have hPEsingle : countPoppedEnds [LandmarksEvent.startTag TAG] id = 0 := rfl
    have hOEsingle : countOpenAtEOF [LandmarksEvent.startTag TAG] id = 0 := rfl
    have hOP1 : countStartTagsNamed [LandmarksEvent.startTagOpen PRE] id = 0 := rfl
    have hOP2 : countPoppedEnds [LandmarksEvent.startTagOpen PRE] id = 0 := rfl
    have hOP3 : countOpenAtEOF [LandmarksEvent.startTagOpen PRE] id = 0 := rfl
    have hTagID : TAG.tagID = TID := by rw [hTAG]
    rcases hrest with ⟨hsc, hs⟩ | ⟨hsc, hop, hs⟩ | ⟨hsc, hop, sp2, hos, hs⟩ <;> subst hs <;>
      rcases hstep with he | he
    · obtain ⟨rfl, rfl, -, -⟩ := Step.cont.inj he
      have hSN0 : countStartTagsNamed [LandmarksEvent.startTag TAG] id = 0 := by
        rw [hSNsingle, hsc]
        rfl
      simp only [countStartTagsNamed_append, countPoppedEnds_append, countOpenAtEOF_append,
        ht1, ht2, ht3, hsws, hswo, ham1, ham2, ham3, hPEsingle, hOEsingle, hSN0,
        hOP1, hOP2, hOP3]
      exact ⟨by omega, by trivial⟩
    · exact Step.noConfusion he
    · obtain ⟨rfl, rfl, -, -⟩ := Step.cont.inj he
      have hSN1 : countStartTagsNamed [LandmarksEvent.startTag TAG] id =
          if (TID == id) = true then 1 else 0 := by
        rw [hSNsingle, hsc, hcompl, hTagID]
        by_cases ht : (TID == id) = true <;> simp [ht]
      simp only [countStartTagsNamed_append, countPoppedEnds_append, countOpenAtEOF_append,
        ht1, ht2, ht3, hsws, hswo, ham1, ham2, ham3, hPEsingle, hOEsingle, hSN1,
        hOP1, hOP2, hOP3]
      refine ⟨?_, by trivial⟩
      rw [List.count_cons]
      by_cases ht : (TID == id) = true <;> simp [ht] <;> omega
    · exact Step.noConfusion he
    · obtain ⟨rfl, rfl, -, -⟩ := Step.cont.inj he
      have hSN1 : countStartTagsNamed [LandmarksEvent.startTag TAG] id =
          if (TID == id) = true then 1 else 0 := by
        rw [hSNsingle, hsc, hcompl, hTagID]
        by_cases ht : (TID == id) = true <;> simp [ht]
      simp only [countStartTagsNamed_append, countPoppedEnds_append, countOpenAtEOF_append,
        ht1, ht2, ht3, hsws, hswo, ham1, ham2, ham3, hPEsingle, hOEsingle, hSN1,
        hOP1, hOP2, hOP3]
      refine ⟨?_, by trivial⟩
      rw [List.count_cons]
      by_cases ht : (TID == id) = true <;> simp [ht] <;> omega
    · exact Step.noConfusion he

theorem countPoppedEnds_endSingle (tid : TagID) (nm al : LandmarksRange) (st : EndTagState)
    (id : TagID) :
    countPoppedEnds [.endTag ⟨tid, nm, al, st⟩] id =
      if isPoppingState st && (tid == id) then 1 else 0 := by
  cases hb : isPoppingState st && (tid == id) <;> simp [countPoppedEnds, List.filter, hb]

theorem countStartTagsNamed_endTagOpen (t : LandmarksEndTag) (id : TagID) :
    countStartTagsNamed [.endTagOpen t] id = 0 := rfl

theorem countPoppedEnds_endTagOpen (t : LandmarksEndTag) (id : TagID) :
    countPoppedEnds [.endTagOpen t] id = 0 := rfl

theorem countOpenAtEOF_endTagOpen (t : LandmarksEndTag) (id : TagID) :
    countOpenAtEOF [.endTagOpen t] id = 0 := rfl

theorem countStartTagsNamed_endSingle (t : LandmarksEndTag) (id : TagID) :
    countStartTagsNamed [.endTag t] id = 0 := rfl

theorem countOpenAtEOF_endSingle (t : LandmarksEndTag) (id : TagID) :
    countOpenAtEOF [.endTag t] id = 0 := rfl

theorem parseEndTagBranch_balance (doc : List Char) (p : LandmarksPolicy)
    (hsame : ∀ a b, p.isSameElement a b = true → a = b)
    (textEvents : List LandmarksEvent) (f : Nat) (elements : List TagID) (step : Step)
    (h : parseEndTagBranch doc p textEvents f elements = .ok step) (id : TagID)
    (ht1 : countStartTagsNamed textEvents id = 0)
    (ht2 : countPoppedEnds textEvents id = 0)
    (ht3 : countOpenAtEOF textEvents id = 0) :
    ∀ evs els a b, (step = .cont evs els a b ∨ step = .halt evs els a b) →
      countStartTagsNamed evs id + elements.count id =
        countPoppedEnds evs id + els.count id ∧
      countOpenAtEOF evs id = 0 := by
  intro evs els a b hstep
  obtain ⟨SN, EN, T0, tagID1, est, sevs, els1, attrs, sp1, hSN, hEN2, hT0, hetr, hpa, hs⟩ :=
    parseEndTagBranch_cases doc p textEvents f elements step h
  subst hs
  rcases hstep with he | he
  · obtain ⟨rfl, rfl, -, -⟩ := Step.cont.inj he
    obtain ⟨hbal, hs0, ho0⟩ := endTagResolve_balance p f T0 elements hsame id hetr
    obtain ⟨ham1, ham2, ham3⟩ := counts_endTagAttrMap attrs id
    simp only [countStartTagsNamed_append, countPoppedEnds_append, countOpenAtEOF_append,
      ht1, ht2, ht3, hs0, ho0, ham1, ham2, ham3, countStartTagsNamed_endTagOpen,
      countPoppedEnds_endTagOpen, countOpenAtEOF_endTagOpen, countStartTagsNamed_endSingle,
      countOpenAtEOF_endSingle, countPoppedEnds_endSingle]
    refine ⟨?_, by trivial⟩
    omega
  · exact Step.noConfusion he

theorem countStartTagsNamed_textSingle (r : LandmarksRange) (id : TagID) :
    countStartTagsNamed [.Text r] id = 0 := rfl

theorem countPoppedEnds_textSingle (r : LandmarksRange) (id : TagID) :
    countPoppedEnds [.Text r] id = 0 := rfl

theorem countOpenAtEOF_textSingle (r : LandmarksRange) (id : TagID) :
    countOpenAtEOF [.Text r] id = 0 := rfl

theorem countStartTagsNamed_commentSingle (r : LandmarksRange) (id : TagID) :
    countStartTagsNamed [.Comment r] id = 0 := rfl

theorem countPoppedEnds_commentSingle (r : LandmarksRange) (id : TagID) :
    countPoppedEnds [.Comment r] id = 0 := rfl

theorem countOpenAtEOF_commentSingle (r : LandmarksRange) (id : TagID) :
    countOpenAtEOF [.Comment r] id = 0 := rfl

theorem countStartTagsNamed_cdataSingle (r : LandmarksRange) (id : TagID) :
    countStartTagsNamed [.CData r] id = 0 := rfl

theorem countPoppedEnds_cdataSingle (r : LandmarksRange) (id : TagID) :
    countPoppedEnds [.CData r] id = 0 := rfl

theorem countOpenAtEOF_cdataSingle (r : LandmarksRange) (id : TagID) :
    countOpenAtEOF [.CData r] id = 0 := rfl

theorem countStartTagsNamed_processingSingle (r : LandmarksRange) (id : TagID) :
    countStartTagsNamed [.Processing r] id = 0 := rfl

theorem countPoppedEnds_processingSingle (r : LandmarksRange) (id : TagID) :
    countPoppedEnds [.Processing r] id = 0 := rfl

theorem countOpenAtEOF_processingSingle (r : LandmarksRange) (id : TagID) :
    countOpenAtEOF [.Processing r] id = 0 := rfl

theorem countStartTagsNamed_declarationSingle (r : LandmarksRange) (id : TagID) :
    countStartTagsNamed [.Declaration r] id = 0 := rfl

theorem countPoppedEnds_declarationSingle (r : LandmarksRange) (id : TagID) :
    countPoppedEnds [.Declaration r] id = 0 := rfl

theorem countOpenAtEOF_declarationSingle (r : LandmarksRange) (id : TagID) :
    countOpenAtEOF [.Declaration r] id = 0 := rfl

theorem countStartTagsNamed_nil (id : TagID) :
    countStartTagsNamed ([] : List LandmarksEvent) id = 0 := rfl

theorem countPoppedEnds_nil (id : TagID) :
    countPoppedEnds ([] : List LandmarksEvent) id = 0 := rfl

theorem countOpenAtEOF_nil (id : TagID) :
    countOpenAtEOF ([] : List LandmarksEvent) id = 0 := rfl

theorem parseBody_balance (doc : List Char) (p : LandmarksPolicy)
    (hsame : ∀ a b, p.isSameElement a b = true → a = b)
    (s1 s2 : Nat) (elements : List TagID) (step : Step)
    (h : parseBody doc p s1 s2 elements = .ok step) (id : TagID) :
    ∀ evs els a b, (step = .cont evs els a b ∨ step = .halt evs els a b) →
      countStartTagsNamed evs id + elements.count id =
        countPoppedEnds evs id + els.count id ∧
      countOpenAtEOF evs id = 0 := by
  intro evs els a b hstep
  simp only [parseBody] at h
  by_cases hf : find doc openTok s2 = npos
  · rw [if_pos hf] at h
    obtain rfl := Except.ok.inj h
    rcases hstep with he | he
    · exact Step.noConfusion he
    · obtain ⟨rfl, rfl, -, -⟩ := Step.halt.inj he
      exact ⟨by rw [countStartTagsNamed_nil, countPoppedEnds_nil], countOpenAtEOF_nil id⟩
  · rw [if_neg hf] at h
    by_cases hts : find doc openTok s2 ≠ s1
    · rw [if_pos hts] at h
      rcases hmk : mkRange s1 (find doc openTok s2) with e | r <;> simp only [hmk] at h
      · exact Except.noConfusion h
      · have hz1 : countStartTagsNamed [LandmarksEvent.Text r] id = 0 := rfl
        have hz2 : countPoppedEnds [LandmarksEvent.Text r] id = 0 := rfl
        have hz3 : countOpenAtEOF [LandmarksEvent.Text r] id = 0 := rfl
        rcases hch : choose doc (find doc openTok s2) open_choices with _ | c <;>
          simp only [hch] at h
        · obtain rfl := Except.ok.inj h
          rcases hstep with he | he
          · obtain ⟨rfl, rfl, -, -⟩ := Step.cont.inj he
            exact ⟨by rw [hz1, hz2], hz3⟩
          · exact Step.noConfusion he
        · by_cases hc1 : c = openTok
          · rw [if_pos hc1] at h
            exact parseStartTagBranch_balance doc p [LandmarksEvent.Text r] (find doc openTok s2) elements step h id
              hz1 hz2 hz3 evs els a b hstep
          · rw [if_neg hc1] at h
            by_cases hc2 : c = open_end_tag
            · rw [if_pos hc2] at h
              exact parseEndTagBranch_balance doc p hsame [LandmarksEvent.Text r] (find doc openTok s2) elements step h
                id hz1 hz2 hz3 evs els a b hstep
            · rw [if_neg hc2] at h
              by_cases hc3 : c = open_comment
              · rw [if_pos hc3] at h
                rcases hmkc : mkRange (find doc openTok s2)
                    (findEnd doc close_comment (find doc openTok s2)) with e | r2 <;>
                  simp only [hmkc] at h
                · exact Except.noConfusion h
                · obtain rfl := Except.ok.inj h
                  rcases hstep with he | he
                  · obtain ⟨rfl, rfl, -, -⟩ := Step.cont.inj he
                    refine ⟨?_, ?_⟩
                    · rw [countStartTagsNamed_append, countPoppedEnds_append, hz1, hz2,
                        countStartTagsNamed_commentSingle, countPoppedEnds_commentSingle]
                    · rw [countOpenAtEOF_append, hz3, countOpenAtEOF_commentSingle]
                  · exact Step.noConfusion he
              · rw [if_neg hc3] at h
                by_cases hc4 : c = open_cdata
                · rw [if_pos hc4] at h
                  rcases hmkc : mkRange (find doc openTok s2)
                      (findEnd doc close_cdata (find doc openTok s2)) with e | r2 <;>
                    simp only [hmkc] at h
                  · exact Except.noConfusion h
                  · obtain rfl := Except.ok.inj h
                    rcases hstep with he | he
                    · obtain ⟨rfl, rfl, -, -⟩ := Step.cont.inj he
                      refine ⟨?_, ?_⟩
                      · rw [countStartTagsNamed_append, countPoppedEnds_append, hz1, hz2,
                          countStartTagsNamed_cdataSingle, countPoppedEnds_cdataSingle]
                      · rw [countOpenAtEOF_append, hz3, countOpenAtEOF_cdataSingle]
                    · exact Step.noConfusion he
                · rw [if_neg hc4] at h
                  by_cases hc5 : c = open_processing
                  · rw [if_pos hc5] at h
                    rcases hmkc : mkRange (find doc openTok s2)
                        (findEnd doc close_processing (find doc openTok s2)) with e | r2 <;>
                      simp only [hmkc] at h
                    · exact Except.noConfusion h
                    · obtain rfl := Except.ok.inj h
                      rcases hstep with he | he
                      · obtain ⟨rfl, rfl, -, -⟩ := Step.cont.inj he
                        refine ⟨?_, ?_⟩
                        · rw [countStartTagsNamed_append, countPoppedEnds_append, hz1, hz2,
                            countStartTagsNamed_processingSingle, countPoppedEnds_processingSingle]
                        · rw [countOpenAtEOF_append, hz3, countOpenAtEOF_processingSingle]
                      · exact Step.noConfusion he
                  · rw [if_neg hc5] at h
                    by_cases hc6 : c = open_declaration
                    · rw [if_pos hc6] at h
                      rcases hmkc : mkRange (find doc openTok s2)
                          (findEnd doc close_declaration (find doc openTok s2)) with e | r2 <;>
                        simp only [hmkc] at h
                      · exact Except.noConfusion h
                      · obtain rfl := Except.ok.inj h
                        rcases hstep with he | he
                        · obtain ⟨rfl, rfl, -, -⟩ := Step.cont.inj he
                          refine ⟨?_, ?_⟩
                          · rw [countStartTagsNamed_append, countPoppedEnds_append, hz1, hz2,
                              countStartTagsNamed_declarationSingle, countPoppedEnds_declarationSingle]
                          · rw [countOpenAtEOF_append, hz3, countOpenAtEOF_declarationSingle]
                        · exact Step.noConfusion he
                    · rw [if_neg hc6] at h
                      obtain rfl := Except.ok.inj h
                      rcases hstep with he | he
                      · obtain ⟨rfl, rfl, -, -⟩ := Step.cont.inj he
                        exact ⟨by rw [hz1, hz2], hz3⟩
                      · exact Step.noConfusion he
    · rw [if_neg hts] at h
      have hz1 : countStartTagsNamed ([] : List LandmarksEvent) id = 0 := rfl
      have hz2 : countPoppedEnds ([] : List LandmarksEvent) id = 0 := rfl
      have hz3 : countOpenAtEOF ([] : List LandmarksEvent) id = 0 := rfl
      rcases hch : choose doc (find doc openTok s2) open_choices with _ | c <;>
        simp only [hch] at h
      · obtain rfl := Except.ok.inj h
        rcases hstep with he | he
        · obtain ⟨rfl, rfl, -, -⟩ := Step.cont.inj he
          exact ⟨by rw [hz1, hz2], hz3⟩
        · exact Step.noConfusion he
      · by_cases hc1 : c = openTok
        · rw [if_pos hc1] at h
          exact parseStartTagBranch_balance doc p ([] : List LandmarksEvent) (find doc openTok s2) elements step h id
            hz1 hz2 hz3 evs els a b hstep
        · rw [if_neg hc1] at h
          by_cases hc2 : c = open_end_tag
          · rw [if_pos hc2] at h
            exact parseEndTagBranch_balance doc p hsame ([] : List LandmarksEvent) (find doc openTok s2) elements step h
              id hz1 hz2 hz3 evs els a b hstep
          · rw [if_neg hc2] at h
            by_cases hc3 : c = open_comment
            · rw [if_pos hc3] at h
              rcases hmkc : mkRange (find doc openTok s2)
                  (findEnd doc close_comment (find doc openTok s2)) with e | r2 <;>
                simp only [hmkc] at h
              · exact Except.noConfusion h
              · obtain rfl := Except.ok.inj h
                rcases hstep with he | he
                · obtain ⟨rfl, rfl, -, -⟩ := Step.cont.inj he
                  refine ⟨?_, ?_⟩
                  · rw [countStartTagsNamed_append, countPoppedEnds_append, hz1, hz2,
                      countStartTagsNamed_commentSingle, countPoppedEnds_commentSingle]
                  · rw [countOpenAtEOF_append, hz3, countOpenAtEOF_commentSingle]
                · exact Step.noConfusion he
            · rw [if_neg hc3] at h
              by_cases hc4 : c = open_cdata
              · rw [if_pos hc4] at h
                rcases hmkc : mkRange (find doc openTok s2)
                    (findEnd doc close_cdata (find doc openTok s2)) with e | r2 <;>
                  simp only [hmkc] at h
                · exact Except.noConfusion h
                · obtain rfl := Except.ok.inj h
                  rcases hstep with he | he
                  · obtain ⟨rfl, rfl, -, -⟩ := Step.cont.inj he
                    refine ⟨?_, ?_⟩
                    · rw [countStartTagsNamed_append, countPoppedEnds_append, hz1, hz2,
                        countStartTagsNamed_cdataSingle, countPoppedEnds_cdataSingle]
                    · rw [countOpenAtEOF_append, hz3, countOpenAtEOF_cdataSingle]
                  · exact Step.noConfusion he
              · rw [if_neg hc4] at h
                by_cases hc5 : c = open_processing
                · rw [if_pos hc5] at h
                  rcases hmkc : mkRange (find doc openTok s2)
                      (findEnd doc close_processing (find doc openTok s2)) with e | r2 <;>
                    simp only [hmkc] at h
                  · exact Except.noConfusion h
                  · obtain rfl := Except.ok.inj h
                    rcases hstep with he | he
                    · obtain ⟨rfl, rfl, -, -⟩ := Step.cont.inj he
                      refine ⟨?_, ?_⟩
                      · rw [countStartTagsNamed_append, countPoppedEnds_append, hz1, hz2,
                          countStartTagsNamed_processingSingle, countPoppedEnds_processingSingle]
                      · rw [countOpenAtEOF_append, hz3, countOpenAtEOF_processingSingle]
                    · exact Step.noConfusion he
                · rw [if_neg hc5] at h
                  by_cases hc6 : c = open_declaration
                  · rw [if_pos hc6] at h
                    rcases hmkc : mkRange (find doc openTok s2)
                        (findEnd doc close_declaration (find doc openTok s2)) with e | r2 <;>
                      simp only [hmkc] at h
                    · exact Except.noConfusion h
                    · obtain rfl := Except.ok.inj h
                      rcases hstep with he | he
                      · obtain ⟨rfl, rfl, -, -⟩ := Step.cont.inj he
                        refine ⟨?_, ?_⟩
                        · rw [countStartTagsNamed_append, countPoppedEnds_append, hz1, hz2,
                            countStartTagsNamed_declarationSingle, countPoppedEnds_declarationSingle]
                        · rw [countOpenAtEOF_append, hz3, countOpenAtEOF_declarationSingle]
                      · exact Step.noConfusion he
                  · rw [if_neg hc6] at h
                    obtain rfl := Except.ok.inj h
                    rcases hstep with he | he
                    · obtain ⟨rfl, rfl, -, -⟩ := Step.cont.inj he
                      exact ⟨by rw [hz1, hz2], hz3⟩
                    · exact Step.noConfusion he

theorem countStartTagsNamed_eofSingle (l : List TagID) (id : TagID) :
    countStartTagsNamed [.eof l] id = 0 := rfl

theorem countPoppedEnds_eofSingle (l : List TagID) (id : TagID) :
    countPoppedEnds [.eof l] id = 0 := rfl

theorem countOpenAtEOF_eofSingle (l : List TagID) (id : TagID) :
    countOpenAtEOF [.eof l] id = l.count id := by
  simp [countOpenAtEOF]

theorem finish_balance (doc : List Char) (p : LandmarksPolicy) (s1 s2 : Nat)
    (elements : List TagID) (acc evs : List LandmarksEvent) (id : TagID)
    (h : finish doc p s1 s2 elements acc = .ok evs) :
    countStartTagsNamed evs id = countStartTagsNamed acc id ∧
    countPoppedEnds evs id + countOpenAtEOF evs id =
      countPoppedEnds acc id + countOpenAtEOF acc id + elements.count id := by
  simp only [finish] at h
  by_cases hts : s2 ≠ s1
  · rw [if_pos hts] at h
    rcases hmk : mkRange s1 s2 with e | r <;> simp only [hmk] at h
    · exact Except.noConfusion h
    · rcases hat : acpTail p s2 elements with e | ⟨tailE, els1⟩ <;> simp only [hat] at h
      · exact Except.noConfusion h
      · obtain rfl := (Except.ok.inj h).symm
        obtain ⟨hbal, hs0, ho0⟩ := acpTail_balance p s2 id elements tailE els1 hat
        simp only [countStartTagsNamed_append, countPoppedEnds_append, countOpenAtEOF_append,
          countStartTagsNamed_textSingle, countPoppedEnds_textSingle, countOpenAtEOF_textSingle,
          countStartTagsNamed_eofSingle, countPoppedEnds_eofSingle, countOpenAtEOF_eofSingle,
          hs0, ho0, List.count_reverse]
        exact ⟨by omega, by omega⟩
  · rw [if_neg hts] at h
    rcases hat : acpTail p s2 elements with e | ⟨tailE, els1⟩ <;> simp only [hat] at h
    · exact Except.noConfusion h
    · obtain rfl := (Except.ok.inj h).symm
      obtain ⟨hbal, hs0, ho0⟩ := acpTail_balance p s2 id elements tailE els1 hat
      simp only [countStartTagsNamed_append, countPoppedEnds_append, countOpenAtEOF_append,
        countStartTagsNamed_nil, countPoppedEnds_nil, countOpenAtEOF_nil,
        countStartTagsNamed_eofSingle, countPoppedEnds_eofSingle, countOpenAtEOF_eofSingle,
        hs0, ho0, List.count_reverse]
      exact ⟨by omega, by omega⟩

theorem parseIter_balance (doc : List Char) (p : LandmarksPolicy)
    (hsame : ∀ a b, p.isSameElement a b = true → a = b) (id : TagID) :
    ∀ fuel s1 s2 elements acc evs,
      parseIter doc p fuel s1 s2 elements acc = .ok evs →
      countStartTagsNamed acc id = countPoppedEnds acc id + elements.count id →
      countOpenAtEOF acc id = 0 →
      countStartTagsNamed evs id = countPoppedEnds evs id + countOpenAtEOF evs id := by
  intro fuel
  induction fuel with
  | zero =>
    intro s1 s2 elements acc evs h
    exact absurd h (by simp [parseIter])
  | succ fuel ih =>
    intro s1 s2 elements acc evs h hinv hoe
    rw [parseIter] at h
    by_cases hlt : s2 < doc.length
    · rw [if_pos hlt] at h
      rcases hb : parseBody doc p s1 s2 elements with e | step <;> simp only [hb] at h
      · exact Except.noConfusion h
      · rcases step with ⟨evs1, els1, a, b⟩ | ⟨evs1, els1, a, b⟩
        · obtain ⟨hbal, hoe1⟩ := parseBody_balance doc p hsame s1 s2 elements _ hb id
            evs1 els1 a b (Or.inl rfl)
          refine ih a b els1 (acc ++ evs1) evs h ?_ ?_
          · rw [countStartTagsNamed_append, countPoppedEnds_append]
            omega
          · rw [countOpenAtEOF_append]
            omega
        · obtain ⟨hbal, hoe1⟩ := parseBody_balance doc p hsame s1 s2 elements _ hb id
            evs1 els1 a b (Or.inr rfl)
          obtain ⟨hfs, hfp⟩ := finish_balance doc p a b els1 (acc ++ evs1) evs id h
          rw [countStartTagsNamed_append] at hfs
          rw [countPoppedEnds_append, countOpenAtEOF_append] at hfp
          omega
    · rw [if_neg hlt] at h
      obtain ⟨hfs, hfp⟩ := finish_balance doc p s1 s2 elements acc evs id h
      omega

/-- C2 (amended): under a policy whose isSameElement implies equality of tag ids,
and counting only StartTag events whose name range is complete (the truncated
StartTag emitted at end of input is never opened), the per-id balance holds: for
every id, the number of non-self-closing StartTag events equals the number of
EndTag events with a popping state (Matched / AutoclosedByParent /
AutoclosedBySibling / AutoclosedByAncestor) plus the number of occurrences of the
id in the open-element list reported at EndOfInput. -/
theorem c2_start_end_balance (doc : List Char) (p : LandmarksPolicy)
    (hsame : ∀ a b, p.isSameElement a b = true → a = b)
    (evs : List LandmarksEvent) (h : parse doc p = .ok evs) (id : TagID) :
    countStartTagsNamed evs id = countPoppedEnds evs id + countOpenAtEOF evs id :=
  parseIter_balance doc p hsame id (doc.length + 2) 0 0 [] [] evs h rfl rfl

theorem c2_start_end_balance_witness :
    countStartTagsNamed ((parse docAX xmlPolicy).toOption.getD []) "a" =
      countPoppedEnds ((parse docAX xmlPolicy).toOption.getD []) "a" +
      countOpenAtEOF ((parse docAX xmlPolicy).toOption.getD []) "a" :=
  c2_start_end_balance docAX xmlPolicy (fun a b hab => eq_of_beq hab) _ (by rfl) "a"

/-! Tiling lemmas (claim C1). -/

theorem chainFrom_append (rs ss : List LandmarksRange) :
    ∀ a, chainFrom a (rs ++ ss) =
      match chainFrom a rs with
      | some m => chainFrom m ss
      | none => none := by
  induction rs with
  | nil => intro a; rfl
  | cons r rest ih =>
    intro a
    simp only [List.cons_append, chainFrom]
    by_cases hr : r.start = a
    · rw [if_pos hr, if_pos hr]
      exact ih r.endPos
    · rw [if_neg hr, if_neg hr]

theorem chainFrom_emptyRange (pos : Nat) (rs : List LandmarksRange) :
    chainFrom pos (⟨pos, pos⟩ :: rs) = chainFrom pos rs := by
  simp [chainFrom]

theorem allComplete_append (xs ys : List LandmarksEvent) :
    allComplete (xs ++ ys) = (allComplete xs && allComplete ys) := by
  simp [allComplete, List.all_append]

theorem autoclosePops_chain (pos : Nat) (state : EndTagState) :
    ∀ n stack evs st2, autoclosePops pos state n stack = .ok (evs, st2) →
      chainFrom pos (evs.filterMap tileRange) = some pos := by
  intro n
  induction n with
  | zero =>
    intro stack evs st2 h
    obtain ⟨h1, h2⟩ := Prod.mk.injEq _ _ _ _ ▸ Except.ok.inj h
    subst h1
    rfl
  | succ n ih =>
    intro stack evs st2 h
    cases stack with
    | nil =>
      obtain ⟨h1, h2⟩ := Prod.mk.injEq _ _ _ _ ▸ Except.ok.inj h
      subst h1
      rfl
    | cons t rest =>
      simp only [autoclosePops, mkRange_self] at h
      rcases hrec : autoclosePops pos state n rest with e | ⟨evs1, st1⟩ <;>
        simp only [hrec] at h
      · exact Except.noConfusion h
      · obtain ⟨h1, h2⟩ := Prod.mk.injEq _ _ _ _ ▸ Except.ok.inj h
        subst h1
        rw [List.filterMap_append]
        have hfm : List.filterMap tileRange
            [LandmarksEvent.endTagOpen ⟨t, ⟨pos, pos⟩, ⟨pos, pos⟩, state⟩,
             LandmarksEvent.endTag ⟨t, ⟨pos, pos⟩, ⟨pos, pos⟩, state⟩] =
            [(⟨pos, pos⟩ : LandmarksRange)] := rfl
        rw [hfm, List.singleton_append, chainFrom_emptyRange]
        exact ih rest evs1 st1 hrec

theorem acpTail_chain (p : LandmarksPolicy) (pos : Nat) :
    ∀ stack tailE st2, acpTail p pos stack = .ok (tailE, st2) →
      chainFrom pos (tailE.filterMap tileRange) = some pos := by
  intro stack
  induction stack with
  | nil =>
    intro tailE st2 h
    simp only [acpTail, Except.ok.injEq, Prod.mk.injEq] at h
    obtain ⟨h1, -⟩ := h
    subst h1
    rfl
  | cons t rest ih =>
    intro tailE st2 h
    simp only [acpTail, mkRange_self] at h
    by_cases hacp : p.isAutocloseByParent t = true
    · rw [if_pos hacp] at h
      rcases hrec : acpTail p pos rest with e | ⟨evs1, st1⟩ <;> simp only [hrec] at h
      · exact Except.noConfusion h
      · simp only [Except.ok.injEq, Prod.mk.injEq] at h
        obtain ⟨h1, -⟩ := h
        subst h1
        rw [List.filterMap_append]
        have hfm : List.filterMap tileRange
            [LandmarksEvent.endTagOpen ⟨t, ⟨pos, pos⟩, ⟨pos, pos⟩, .autoclosedByParent⟩,
             LandmarksEvent.endTag ⟨t, ⟨pos, pos⟩, ⟨pos, pos⟩, .autoclosedByParent⟩] =
            [(⟨pos, pos⟩ : LandmarksRange)] := rfl
        rw [hfm, List.singleton_append, chainFrom_emptyRange]
        exact ih evs1 st1 hrec
    · rw [if_neg hacp] at h
      simp only [Except.ok.injEq, Prod.mk.injEq] at h
      obtain ⟨h1, -⟩ := h
      subst h1
      rfl

theorem endTagResolve_chain (p : LandmarksPolicy) (pos : Nat) (tagID : TagID)
    (elements : List TagID) {tagID1 est sevs els1}
    (h : endTagResolve p pos tagID elements = .ok (tagID1, est, sevs, els1)) :
    chainFrom pos (sevs.filterMap tileRange) = some pos := by
  cases elements with
  | nil =>
    simp only [endTagResolve, Except.ok.injEq, Prod.mk.injEq] at h
    obtain ⟨-, -, h3, -⟩ := h
    subst h3
    rfl
  | cons top rest =>
    simp only [endTagResolve] at h
    set T1 := if p.isWildcardEndTag tagID then top else tagID with hT1
    by_cases hmatch : p.isSameElement T1 top = true
    · rw [if_pos hmatch] at h
      simp only [Except.ok.injEq, Prod.mk.injEq] at h
      obtain ⟨-, -, h3, -⟩ := h
      subst h3
      rfl
    · rw [if_neg hmatch] at h
      rcases hsw : endTagSweepDepth p (p.isAutoclosingEndTag T1) T1 (top :: rest)
          with _ | n <;> simp only [hsw] at h
      · simp only [Except.ok.injEq, Prod.mk.injEq] at h
        obtain ⟨-, -, h3, -⟩ := h
        subst h3
        rfl
      · rcases hap : autoclosePops pos
            (if p.isAutoclosingEndTag T1 then EndTagState.autoclosedByAncestor
              else EndTagState.autoclosedByParent) n (top :: rest)
            with e | ⟨evsP, stack1⟩ <;> simp only [hap] at h
        · exact Except.noConfusion h
        · simp only [Except.ok.injEq, Prod.mk.injEq] at h
          obtain ⟨-, -, h3, -⟩ := h
          subst h3
          exact autoclosePops_chain pos _ n (top :: rest) evsP stack1 hap

theorem opaqueScan_bound (doc : List Char) (p : LandmarksPolicy) (tagID : TagID) :
    ∀ fuel sp r, opaqueScan doc p tagID fuel sp = .ok r → r ≤ doc.length ∨ r = npos := by
  intro fuel
  induction fuel with
  | zero => intro sp r h; simp [opaqueScan] at h
  | succ n ih =>
    intro sp r h
    simp only [opaqueScan] at h
    by_cases hsp : sp = npos
    · rw [if_pos hsp] at h
      exact Or.inr (Except.ok.inj h).symm
    · rw [if_neg hsp] at h
      by_cases hlt : findEnd doc open_end_tag sp < doc.length
      · rw [if_pos hlt] at h
        by_cases hm : opaqueMatchesAt doc p tagID (findEnd doc open_end_tag sp) = true
        · rw [if_pos hm] at h
          obtain rfl := (Except.ok.inj h).symm
          exact Or.inl (by omega)
        · rw [if_neg hm] at h
          exact ih _ r h
      · rw [if_neg hlt] at h
        exact ih _ r h

theorem filterMap_tile_startAttrMap (attrs : List LandmarksAttribute) :
    List.filterMap tileRange (attrs.map LandmarksEvent.startTagAttr) = [] := by
  induction attrs with
  | nil => rfl
  | cons a t ih => simpa [tileRange] using ih

theorem filterMap_tile_endAttrMap (attrs : List LandmarksAttribute) :
    List.filterMap tileRange (attrs.map LandmarksEvent.endTagAttr) = [] := by
  induction attrs with
  | nil => rfl
  | cons a t ih => simpa [tileRange] using ih

theorem chainFrom_seq {a m : Nat} {rs : List LandmarksRange} (ss : List LandmarksRange)
    (h1 : chainFrom a rs = some m) : chainFrom a (rs ++ ss) = chainFrom m ss := by
  rw [chainFrom_append rs ss a, h1]

theorem parseStartTagBranch_tiling (doc : List Char) (p : LandmarksPolicy)
    (textEvents : List LandmarksEvent) (f : Nat) (elements : List TagID) (step : Step)
    (h : parseStartTagBranch doc p textEvents f elements = .ok step)
    (x : Nat) (hchain : chainFrom x (textEvents.filterMap tileRange) = some f)
    (hf : f < doc.length) :
    ∀ evs els a b,
      (step = .cont evs els a b →
        chainFrom x (evs.filterMap tileRange) = some a ∧
        (allComplete evs = true → a ≤ doc.length ∧ (b ≤ doc.length ∨ b = npos))) ∧
      (step = .halt evs els a b →
        allComplete evs = true →
        chainFrom x (evs.filterMap tileRange) = some a ∧ a ≤ doc.length ∧ b = npos) := by
  intro evs els a b
  rcases parseStartTagBranch_cases doc p textEvents f elements step h with
    ⟨-, hs⟩ | ⟨-, hen, hs⟩ |
    ⟨-, hen, TID, sweepEvs, els1, attrs, sp1, PRE, TAG, hTID, hpops, hpa, hPRE, hTAG, hrest⟩
  · subst hs
    constructor
    · intro he
      obtain ⟨rfl, rfl, rfl, rfl⟩ := Step.cont.inj he
      exact ⟨hchain, fun _ => ⟨by omega, Or.inl (by omega)⟩⟩
    · intro he
      exact Step.noConfusion he
  · subst hs
    constructor
    · intro he
      exact Step.noConfusion he
    · intro he hC
      obtain ⟨rfl, rfl, rfl, rfl⟩ := Step.halt.inj he
      rw [allComplete_append, Bool.and_eq_true] at hC
      exact absurd hC.2 (by simp [allComplete, eventRanges, LandmarksRange.isComplete])
  · have hsweep := autoclosePops_chain f .autoclosedBySibling _ elements sweepEvs els1 hpops
    have hfm1 : List.filterMap tileRange [LandmarksEvent.startTagOpen PRE] = [] := rfl
    have hfm2 : List.filterMap tileRange [LandmarksEvent.startTag TAG] = [TAG.all] := rfl
    have hchainAll : chainFrom x
        (List.filterMap tileRange (textEvents ++ sweepEvs ++ [LandmarksEvent.startTagOpen PRE]
          ++ attrs.map LandmarksEvent.startTagAttr ++ [LandmarksEvent.startTag TAG])) =
        some (findEnd doc close sp1) := by
      simp only [List.filterMap_append, hfm1, hfm2, filterMap_tile_startAttrMap,
        List.append_nil]
      have hstep1 : chainFrom x (List.filterMap tileRange textEvents ++
          List.filterMap tileRange sweepEvs) = some f := by
        rw [chainFrom_seq _ hchain]
        exact hsweep
      rw [chainFrom_seq _ hstep1, hTAG]
      simp [chainFrom]
    have hbound : allComplete (textEvents ++ sweepEvs ++ [LandmarksEvent.startTagOpen PRE]
        ++ attrs.map LandmarksEvent.startTagAttr ++ [LandmarksEvent.startTag TAG]) = true →
        findEnd doc close sp1 ≤ doc.length := by
      intro hC
      rw [allComplete_append, Bool.and_eq_true] at hC
      have h2 := hC.2
      have h3 : TAG.all.isComplete = true := by
        simp [allComplete, eventRanges] at h2
        exact h2.2
      rw [hTAG] at h3
      simp only [LandmarksRange.isComplete] at h3
      have h4 : findEnd doc close sp1 ≠ npos := by simpa using h3
      rcases findEnd_cases doc close sp1 with h5 | ⟨-, h5⟩
      · exact absurd h5 h4
      · exact h5
    rcases hrest with ⟨hsc, hs⟩ | ⟨hsc, hop, hs⟩ | ⟨hsc, hop, sp2, hos, hs⟩ <;> subst hs <;>
      refine ⟨fun he => ?_, fun he => Step.noConfusion he⟩ <;>
      obtain ⟨rfl, rfl, rfl, rfl⟩ := Step.cont.inj he
    · exact ⟨hchainAll, fun hC => ⟨hbound hC, Or.inl (hbound hC)⟩⟩
    · exact ⟨hchainAll, fun hC => ⟨hbound hC, Or.inl (hbound hC)⟩⟩
    · exact ⟨hchainAll, fun hC => ⟨hbound hC,
        opaqueScan_bound doc p TID (doc.length + 2) (findEnd doc close sp1) sp2 hos⟩⟩

theorem parseEndTagBranch_tiling (doc : List Char) (p : LandmarksPolicy)
    (textEvents : List LandmarksEvent) (f : Nat) (elements : List TagID) (step : Step)
    (h : parseEndTagBranch doc p textEvents f elements = .ok step)
    (x : Nat) (hchain : chainFrom x (textEvents.filterMap tileRange) = some f) :
    ∀ evs els a b,
      (step = .cont evs els a b →
        chainFrom x (evs.filterMap tileRange) = some a ∧
        (allComplete evs = true → a ≤ doc.length ∧ (b ≤ doc.length ∨ b = npos))) ∧
      (step = .halt evs els a b →
        allComplete evs = true →
        chainFrom x (evs.filterMap tileRange) = some a ∧ a ≤ doc.length ∧ b = npos) := by
  intro evs els a b
  obtain ⟨SN, EN, T0, tagID1, est, sevs, els1, attrs, sp1, hSN, hEN2, hT0, hetr, hpa, hs⟩ :=
    parseEndTagBranch_cases doc p textEvents f elements step h
  subst hs
  refine ⟨fun he => ?_, fun he => Step.noConfusion he⟩
  obtain ⟨rfl, rfl, rfl, rfl⟩ := Step.cont.inj he
  have hsevs := endTagResolve_chain p f T0 elements hetr
  have hfm1 : List.filterMap tileRange
      [LandmarksEvent.endTagOpen ⟨tagID1, ⟨SN, EN⟩, ⟨f, EN⟩, est⟩] = [] := rfl
  have hfm2 : List.filterMap tileRange
      [LandmarksEvent.endTag ⟨tagID1, ⟨SN, EN⟩, ⟨f, findEnd doc close sp1⟩, est⟩] =
      [(⟨f, findEnd doc close sp1⟩ : LandmarksRange)] := rfl
  constructor
  · simp only [List.filterMap_append, hfm1, hfm2, filterMap_tile_endAttrMap,
      List.append_nil]
    have hstep1 : chainFrom x (List.filterMap tileRange textEvents ++
        List.filterMap tileRange sevs) = some f := by
      rw [chainFrom_seq _ hchain]
      exact hsevs
    rw [chainFrom_seq _ hstep1]
    simp [chainFrom]
  · intro hC
    rw [allComplete_append, Bool.and_eq_true] at hC
    have h2 := hC.2
    have h3 : (⟨f, findEnd doc close sp1⟩ : LandmarksRange).isComplete = true := by
      simp [allComplete, eventRanges] at h2
      exact h2.2
    simp only [LandmarksRange.isComplete] at h3
    have h4 : findEnd doc close sp1 ≠ npos := by simpa using h3
    rcases findEnd_cases doc close sp1 with h5 | ⟨-, h5⟩
    · exact absurd h5 h4
    · exact ⟨h5, Or.inl h5⟩

theorem parseBody_tiling (doc : List Char) (p : LandmarksPolicy)
    (s1 s2 : Nat) (elements : List TagID) (step : Step)
    (h : parseBody doc p s1 s2 elements = .ok step) (hs1 : s1 ≤ doc.length) :
    ∀ evs els a b,
      (step = .cont evs els a b →
        chainFrom s1 (evs.filterMap tileRange) = some a ∧
        (allComplete evs = true → a ≤ doc.length ∧ (b ≤ doc.length ∨ b = npos))) ∧
      (step = .halt evs els a b →
        allComplete evs = true →
        chainFrom s1 (evs.filterMap tileRange) = some a ∧ a ≤ doc.length ∧ b = npos) := by
  intro evs els a b
  simp only [parseBody] at h
  by_cases hf : find doc openTok s2 = npos
  · rw [if_pos hf] at h
    obtain rfl := Except.ok.inj h
    refine ⟨fun he => Step.noConfusion he, fun he hC => ?_⟩
    obtain ⟨rfl, rfl, rfl, rfl⟩ := Step.halt.inj he
    exact ⟨rfl, hs1, rfl⟩
  · rw [if_neg hf] at h
    obtain ⟨-, hflt, -⟩ := (find_cases doc openTok s2).resolve_left hf
    by_cases hts : find doc openTok s2 ≠ s1
    · rw [if_pos hts] at h
      rcases hmk : mkRange s1 (find doc openTok s2) with e | r <;> simp only [hmk] at h
      · exact Except.noConfusion h
      · obtain ⟨hrr, -⟩ := mkRange_ok_inv hmk
        subst hrr
        have hzc : chainFrom s1 (List.filterMap tileRange
            [LandmarksEvent.Text ⟨s1, find doc openTok s2⟩]) = some (find doc openTok s2) := by
          simp [tileRange, chainFrom]
        generalize htE : [LandmarksEvent.Text
          (⟨s1, find doc openTok s2⟩ : LandmarksRange)] = tE at h hzc
        rcases hch : choose doc (find doc openTok s2) open_choices with _ | c <;>
          simp only [hch] at h
        · obtain rfl := Except.ok.inj h
          refine ⟨fun he => ?_, fun he => Step.noConfusion he⟩
          obtain ⟨rfl, rfl, rfl, rfl⟩ := Step.cont.inj he
          exact ⟨hzc, fun _ => ⟨by omega, Or.inl (by omega)⟩⟩
        · by_cases hc1 : c = openTok
          · rw [if_pos hc1] at h
            exact parseStartTagBranch_tiling doc p tE (find doc openTok s2) elements step h
              s1 hzc hflt evs els a b
          · rw [if_neg hc1] at h
            by_cases hc2 : c = open_end_tag
            · rw [if_pos hc2] at h
              exact parseEndTagBranch_tiling doc p tE (find doc openTok s2) elements step h
                s1 hzc evs els a b
            · rw [if_neg hc2] at h
              by_cases hc3 : c = open_comment
              · rw [if_pos hc3] at h
                rcases hmkc : mkRange (find doc openTok s2)
                    (findEnd doc close_comment (find doc openTok s2)) with e | r2 <;>
                  simp only [hmkc] at h
                · exact Except.noConfusion h
                · obtain ⟨hr2, -⟩ := mkRange_ok_inv hmkc
                  subst hr2
                  obtain rfl := Except.ok.inj h
                  refine ⟨fun he => ?_, fun he => Step.noConfusion he⟩
                  obtain ⟨rfl, rfl, rfl, rfl⟩ := Step.cont.inj he
                  have hble : allComplete (tE ++ [LandmarksEvent.Comment
                      ⟨find doc openTok s2, findEnd doc close_comment (find doc openTok s2)⟩]) = true →
                      findEnd doc close_comment (find doc openTok s2) ≤ doc.length := by
                    intro hC
                    rw [allComplete_append, Bool.and_eq_true] at hC
                    have h2 := hC.2
                    simp only [allComplete, List.all_cons, List.all_nil, eventRanges,
                      Bool.and_true, LandmarksRange.isComplete] at h2
                    have h4 : findEnd doc close_comment (find doc openTok s2) ≠ npos := by
                      simpa using h2
                    rcases findEnd_cases doc close_comment (find doc openTok s2) with h5 | ⟨-, h5⟩
                    · exact absurd h5 h4
                    · exact h5
                  constructor
                  · rw [List.filterMap_append,
                      show List.filterMap tileRange [LandmarksEvent.Comment
                        ⟨find doc openTok s2, findEnd doc close_comment (find doc openTok s2)⟩] =
                        [(⟨find doc openTok s2, findEnd doc close_comment (find doc openTok s2)⟩ :
                          LandmarksRange)] from rfl,
                      chainFrom_seq _ hzc]
                    simp [chainFrom]
                  · intro hC
                    exact ⟨hble hC, Or.inl (hble hC)⟩
              · rw [if_neg hc3] at h
                by_cases hc4 : c = open_cdata
                · rw [if_pos hc4] at h
                  rcases hmkc : mkRange (find doc openTok s2)
                      (findEnd doc close_cdata (find doc openTok s2)) with e | r2 <;>
                    simp only [hmkc] at h
                  · exact Except.noConfusion h
                  · obtain ⟨hr2, -⟩ := mkRange_ok_inv hmkc
                    subst hr2
                    obtain rfl := Except.ok.inj h
                    refine ⟨fun he => ?_, fun he => Step.noConfusion he⟩
                    obtain ⟨rfl, rfl, rfl, rfl⟩ := Step.cont.inj he
                    have hble : allComplete (tE ++ [LandmarksEvent.CData
                        ⟨find doc openTok s2, findEnd doc close_cdata (find doc openTok s2)⟩]) = true →
                        findEnd doc close_cdata (find doc openTok s2) ≤ doc.length := by
                      intro hC
                      rw [allComplete_append, Bool.and_eq_true] at hC
                      have h2 := hC.2
                      simp only [allComplete, List.all_cons, List.all_nil, eventRanges,
                        Bool.and_true, LandmarksRange.isComplete] at h2
                      have h4 : findEnd doc close_cdata (find doc openTok s2) ≠ npos := by
                        simpa using h2
                      rcases findEnd_cases doc close_cdata (find doc openTok s2) with h5 | ⟨-, h5⟩
                      · exact absurd h5 h4
                      · exact h5
                    constructor
                    · rw [List.filterMap_append,
                        show List.filterMap tileRange [LandmarksEvent.CData
                          ⟨find doc openTok s2, findEnd doc close_cdata (find doc openTok s2)⟩] =
                          [(⟨find doc openTok s2, findEnd doc close_cdata (find doc openTok s2)⟩ :
                            LandmarksRange)] from rfl,
                        chainFrom_seq _ hzc]
                      simp [chainFrom]
                    · intro hC
                      exact ⟨hble hC, Or.inl (hble hC)⟩
                · rw [if_neg hc4] at h
                  by_cases hc5 : c = open_processing
                  · rw [if_pos hc5] at h
                    rcases hmkc : mkRange (find doc openTok s2)
                        (findEnd doc close_processing (find doc openTok s2)) with e | r2 <;>
                      simp only [hmkc] at h
                    · exact Except.noConfusion h
                    · obtain ⟨hr2, -⟩ := mkRange_ok_inv hmkc
                      subst hr2
                      obtain rfl := Except.ok.inj h
                      refine ⟨fun he => ?_, fun he => Step.noConfusion he⟩
                      obtain ⟨rfl, rfl, rfl, rfl⟩ := Step.cont.inj he
                      have hble : allComplete (tE ++ [LandmarksEvent.Processing
                          ⟨find doc openTok s2, findEnd doc close_processing (find doc openTok s2)⟩]) = true →
                          findEnd doc close_processing (find doc openTok s2) ≤ doc.length := by
                        intro hC
                        rw [allComplete_append, Bool.and_eq_true] at hC
                        have h2 := hC.2
                        simp only [allComplete, List.all_cons, List.all_nil, eventRanges,
                          Bool.and_true, LandmarksRange.isComplete] at h2
                        have h4 : findEnd doc close_processing (find doc openTok s2) ≠ npos := by
                          simpa using h2
                        rcases findEnd_cases doc close_processing (find doc openTok s2) with h5 | ⟨-, h5⟩
                        · exact absurd h5 h4
                        · exact h5
                      constructor
                      · rw [List.filterMap_append,
                          show List.filterMap tileRange [LandmarksEvent.Processing
                            ⟨find doc openTok s2, findEnd doc close_processing (find doc openTok s2)⟩] =
                            [(⟨find doc openTok s2, findEnd doc close_processing (find doc openTok s2)⟩ :
                              LandmarksRange)] from rfl,
                          chainFrom_seq _ hzc]
                        simp [chainFrom]
                      · intro hC
                        exact ⟨hble hC, Or.inl (hble hC)⟩
                  · rw [if_neg hc5] at h
                    by_cases hc6 : c = open_declaration
                    · rw [if_pos hc6] at h
                      rcases hmkc : mkRange (find doc openTok s2)
                          (findEnd doc close_declaration (find doc openTok s2)) with e | r2 <;>
                        simp only [hmkc] at h
                      · exact Except.noConfusion h
                      · obtain ⟨hr2, -⟩ := mkRange_ok_inv hmkc
                        subst hr2
                        obtain rfl := Except.ok.inj h
                        refine ⟨fun he => ?_, fun he => Step.noConfusion he⟩
                        obtain ⟨rfl, rfl, rfl, rfl⟩ := Step.cont.inj he
                        have hble : allComplete (tE ++ [LandmarksEvent.Declaration
                            ⟨find doc openTok s2, findEnd doc close_declaration (find doc openTok s2)⟩]) = true →
                            findEnd doc close_declaration (find doc openTok s2) ≤ doc.length := by
                          intro hC
                          rw [allComplete_append, Bool.and_eq_true] at hC
                          have h2 := hC.2
                          simp only [allComplete, List.all_cons, List.all_nil, eventRanges,
                            Bool.and_true, LandmarksRange.isComplete] at h2
                          have h4 : findEnd doc close_declaration (find doc openTok s2) ≠ npos := by
                            simpa using h2
                          rcases findEnd_cases doc close_declaration (find doc openTok s2) with h5 | ⟨-, h5⟩
                          · exact absurd h5 h4
                          · exact h5
                        constructor
                        · rw [List.filterMap_append,
                            show List.filterMap tileRange [LandmarksEvent.Declaration
                              ⟨find doc openTok s2, findEnd doc close_declaration (find doc openTok s2)⟩] =
                              [(⟨find doc openTok s2, findEnd doc close_declaration (find doc openTok s2)⟩ :
                                LandmarksRange)] from rfl,
                            chainFrom_seq _ hzc]
                          simp [chainFrom]
                        · intro hC
                          exact ⟨hble hC, Or.inl (hble hC)⟩
                    · rw [if_neg hc6] at h
                      obtain rfl := Except.ok.inj h
                      refine ⟨fun he => ?_, fun he => Step.noConfusion he⟩
                      obtain ⟨rfl, rfl, rfl, rfl⟩ := Step.cont.inj he
                      exact ⟨hzc, fun _ => ⟨by omega, Or.inl (by omega)⟩⟩
    · rw [if_neg hts] at h
      have hfs1 : find doc openTok s2 = s1 := not_not.mp hts
      have hzc : chainFrom s1 (List.filterMap tileRange ([] : List LandmarksEvent)) =
          some (find doc openTok s2) := by
        rw [hfs1]
        rfl
      rcases hch : choose doc (find doc openTok s2) open_choices with _ | c <;>
        simp only [hch] at h
      · obtain rfl := Except.ok.inj h
        refine ⟨fun he => ?_, fun he => Step.noConfusion he⟩
        obtain ⟨rfl, rfl, rfl, rfl⟩ := Step.cont.inj he
        exact ⟨hzc, fun _ => ⟨by omega, Or.inl (by omega)⟩⟩
      · by_cases hc1 : c = openTok
        · rw [if_pos hc1] at h
          exact parseStartTagBranch_tiling doc p ([] : List LandmarksEvent) (find doc openTok s2) elements step h
            s1 hzc hflt evs els a b
        · rw [if_neg hc1] at h
          by_cases hc2 : c = open_end_tag
          · rw [if_pos hc2] at h
            exact parseEndTagBranch_tiling doc p ([] : List LandmarksEvent) (find doc openTok s2) elements step h
              s1 hzc evs els a b
          · rw [if_neg hc2] at h
            by_cases hc3 : c = open_comment
            · rw [if_pos hc3] at h
              rcases hmkc : mkRange (find doc openTok s2)
                  (findEnd doc close_comment (find doc openTok s2)) with e | r2 <;>
                simp only [hmkc] at h
              · exact Except.noConfusion h
              · obtain ⟨hr2, -⟩ := mkRange_ok_inv hmkc
                subst hr2
                obtain rfl := Except.ok.inj h
                refine ⟨fun he => ?_, fun he => Step.noConfusion he⟩
                obtain ⟨rfl, rfl, rfl, rfl⟩ := Step.cont.inj he
                have hble : allComplete (([] : List LandmarksEvent) ++ [LandmarksEvent.Comment
                    ⟨find doc openTok s2, findEnd doc close_comment (find doc openTok s2)⟩]) = true →
                    findEnd doc close_comment (find doc openTok s2) ≤ doc.length := by
                  intro hC
                  rw [allComplete_append, Bool.and_eq_true] at hC
                  have h2 := hC.2
                  simp only [allComplete, List.all_cons, List.all_nil, eventRanges,
                    Bool.and_true, LandmarksRange.isComplete] at h2
                  have h4 : findEnd doc close_comment (find doc openTok s2) ≠ npos := by
                    simpa using h2
                  rcases findEnd_cases doc close_comment (find doc openTok s2) with h5 | ⟨-, h5⟩
                  · exact absurd h5 h4
                  · exact h5
                constructor
                · rw [List.filterMap_append,
                    show List.filterMap tileRange [LandmarksEvent.Comment
                      ⟨find doc openTok s2, findEnd doc close_comment (find doc openTok s2)⟩] =
                      [(⟨find doc openTok s2, findEnd doc close_comment (find doc openTok s2)⟩ :
                        LandmarksRange)] from rfl,
                    chainFrom_seq _ hzc]
                  simp [chainFrom]
                · intro hC
                  exact ⟨hble hC, Or.inl (hble hC)⟩
            · rw [if_neg hc3] at h
              by_cases hc4 : c = open_cdata
              · rw [if_pos hc4] at h
                rcases hmkc : mkRange (find doc openTok s2)
                    (findEnd doc close_cdata (find doc openTok s2)) with e | r2 <;>
                  simp only [hmkc] at h
                · exact Except.noConfusion h
                · obtain ⟨hr2, -⟩ := mkRange_ok_inv hmkc
                  subst hr2
                  obtain rfl := Except.ok.inj h
                  refine ⟨fun he => ?_, fun he => Step.noConfusion he⟩
                  obtain ⟨rfl, rfl, rfl, rfl⟩ := Step.cont.inj he
                  have hble : allComplete (([] : List LandmarksEvent) ++ [LandmarksEvent.CData
                      ⟨find doc openTok s2, findEnd doc close_cdata (find doc openTok s2)⟩]) = true →
                      findEnd doc close_cdata (find doc openTok s2) ≤ doc.length := by
                    intro hC
                    rw [allComplete_append, Bool.and_eq_true] at hC
                    have h2 := hC.2
                    simp only [allComplete, List.all_cons, List.all_nil, eventRanges,
                      Bool.and_true, LandmarksRange.isComplete] at h2
                    have h4 : findEnd doc close_cdata (find doc openTok s2) ≠ npos := by
                      simpa using h2
                    rcases findEnd_cases doc close_cdata (find doc openTok s2) with h5 | ⟨-, h5⟩
                    · exact absurd h5 h4
                    · exact h5
                  constructor
                  · rw [List.filterMap_append,
                      show List.filterMap tileRange [LandmarksEvent.CData
                        ⟨find doc openTok s2, findEnd doc close_cdata (find doc openTok s2)⟩] =
                        [(⟨find doc openTok s2, findEnd doc close_cdata (find doc openTok s2)⟩ :
                          LandmarksRange)] from rfl,
                      chainFrom_seq _ hzc]
                    simp [chainFrom]
                  · intro hC
                    exact ⟨hble hC, Or.inl (hble hC)⟩
              · rw [if_neg hc4] at h
                by_cases hc5 : c = open_processing
                · rw [if_pos hc5] at h
                  rcases hmkc : mkRange (find doc openTok s2)
                      (findEnd doc close_processing (find doc openTok s2)) with e | r2 <;>
                    simp only [hmkc] at h
                  · exact Except.noConfusion h
                  · obtain ⟨hr2, -⟩ := mkRange_ok_inv hmkc
                    subst hr2
                    obtain rfl := Except.ok.inj h
                    refine ⟨fun he => ?_, fun he => Step.noConfusion he⟩
                    obtain ⟨rfl, rfl, rfl, rfl⟩ := Step.cont.inj he
                    have hble : allComplete (([] : List LandmarksEvent) ++ [LandmarksEvent.Processing
                        ⟨find doc openTok s2, findEnd doc close_processing (find doc openTok s2)⟩]) = true →
                        findEnd doc close_processing (find doc openTok s2) ≤ doc.length := by
                      intro hC
                      rw [allComplete_append, Bool.and_eq_true] at hC
                      have h2 := hC.2
                      simp only [allComplete, List.all_cons, List.all_nil, eventRanges,
                        Bool.and_true, LandmarksRange.isComplete] at h2
                      have h4 : findEnd doc close_processing (find doc openTok s2) ≠ npos := by
                        simpa using h2
                      rcases findEnd_cases doc close_processing (find doc openTok s2) with h5 | ⟨-, h5⟩
                      · exact absurd h5 h4
                      · exact h5
                    constructor
                    · rw [List.filterMap_append,
                        show List.filterMap tileRange [LandmarksEvent.Processing
                          ⟨find doc openTok s2, findEnd doc close_processing (find doc openTok s2)⟩] =
                          [(⟨find doc openTok s2, findEnd doc close_processing (find doc openTok s2)⟩ :
                            LandmarksRange)] from rfl,
                        chainFrom_seq _ hzc]
                      simp [chainFrom]
                    · intro hC
                      exact ⟨hble hC, Or.inl (hble hC)⟩
                · rw [if_neg hc5] at h
                  by_cases hc6 : c = open_declaration
                  · rw [if_pos hc6] at h
                    rcases hmkc : mkRange (find doc openTok s2)
                        (findEnd doc close_declaration (find doc openTok s2)) with e | r2 <;>
                      simp only [hmkc] at h
                    · exact Except.noConfusion h
                    · obtain ⟨hr2, -⟩ := mkRange_ok_inv hmkc
                      subst hr2
                      obtain rfl := Except.ok.inj h
                      refine ⟨fun he => ?_, fun he => Step.noConfusion he⟩
                      obtain ⟨rfl, rfl, rfl, rfl⟩ := Step.cont.inj he
                      have hble : allComplete (([] : List LandmarksEvent) ++ [LandmarksEvent.Declaration
                          ⟨find doc openTok s2, findEnd doc close_declaration (find doc openTok s2)⟩]) = true →
                          findEnd doc close_declaration (find doc openTok s2) ≤ doc.length := by
                        intro hC
                        rw [allComplete_append, Bool.and_eq_true] at hC
                        have h2 := hC.2
                        simp only [allComplete, List.all_cons, List.all_nil, eventRanges,
                          Bool.and_true, LandmarksRange.isComplete] at h2
                        have h4 : findEnd doc close_declaration (find doc openTok s2) ≠ npos := by
                          simpa using h2
                        rcases findEnd_cases doc close_declaration (find doc openTok s2) with h5 | ⟨-, h5⟩
                        · exact absurd h5 h4
                        · exact h5
                      constructor
                      · rw [List.filterMap_append,
                          show List.filterMap tileRange [LandmarksEvent.Declaration
                            ⟨find doc openTok s2, findEnd doc close_declaration (find doc openTok s2)⟩] =
                            [(⟨find doc openTok s2, findEnd doc close_declaration (find doc openTok s2)⟩ :
                              LandmarksRange)] from rfl,
                          chainFrom_seq _ hzc]
                        simp [chainFrom]
                      · intro hC
                        exact ⟨hble hC, Or.inl (hble hC)⟩
                  · rw [if_neg hc6] at h
                    obtain rfl := Except.ok.inj h
                    refine ⟨fun he => ?_, fun he => Step.noConfusion he⟩
                    obtain ⟨rfl, rfl, rfl, rfl⟩ := Step.cont.inj he
                    exact ⟨hzc, fun _ => ⟨by omega, Or.inl (by omega)⟩⟩

theorem finish_prefix (doc : List Char) (p : LandmarksPolicy) (s1 s2 : Nat)
    (st : List TagID) (acc evs : List LandmarksEvent)
    (h : finish doc p s1 s2 st acc = .ok evs) : ∃ rest, evs = acc ++ rest := by
  simp only [finish] at h
  by_cases hts : s2 ≠ s1
  · rw [if_pos hts] at h
    rcases hmk : mkRange s1 s2 with e | r <;> simp only [hmk] at h
    · exact Except.noConfusion h
    · rcases hat : acpTail p s2 st with e | ⟨tailE, els1⟩ <;> simp only [hat] at h
      · exact Except.noConfusion h
      · obtain rfl := (Except.ok.inj h).symm
        exact ⟨[LandmarksEvent.Text r] ++ tailE ++ [.eof els1.reverse], by simp⟩
  · rw [if_neg hts] at h
    rcases hat : acpTail p s2 st with e | ⟨tailE, els1⟩ <;> simp only [hat] at h
    · exact Except.noConfusion h
    · obtain rfl := (Except.ok.inj h).symm
      exact ⟨[] ++ tailE ++ [.eof els1.reverse], by simp⟩

theorem parseIter_prefix (doc : List Char) (p : LandmarksPolicy) :
    ∀ fuel s1 s2 st acc evs, parseIter doc p fuel s1 s2 st acc = .ok evs →
      ∃ rest, evs = acc ++ rest := by
  intro fuel
  induction fuel with
  | zero =>
    intro s1 s2 st acc evs h
    exact absurd h (by simp [parseIter])
  | succ fuel ih =>
    intro s1 s2 st acc evs h
    rw [parseIter] at h
    by_cases hlt : s2 < doc.length
    · rw [if_pos hlt] at h
      rcases hb : parseBody doc p s1 s2 st with e | step <;> simp only [hb] at h
      · exact Except.noConfusion h
      · rcases step with ⟨evs1, els1, a, b⟩ | ⟨evs1, els1, a, b⟩
        · obtain ⟨rest, hrest⟩ := ih a b els1 (acc ++ evs1) evs h
          exact ⟨evs1 ++ rest, by simp [hrest]⟩
        · obtain ⟨rest, hrest⟩ := finish_prefix doc p a b els1 (acc ++ evs1) evs h
          exact ⟨evs1 ++ rest, by simp [hrest]⟩
    · rw [if_neg hlt] at h
      exact finish_prefix doc p s1 s2 st acc evs h

theorem finish_tiling (doc : List Char) (p : LandmarksPolicy) (s1 s2 : Nat)
    (elements : List TagID) (acc evs : List LandmarksEvent)
    (h : finish doc p s1 s2 elements acc = .ok evs)
    (hC : allComplete evs = true)
    (hchain : chainFrom 0 (acc.filterMap tileRange) = some s1)
    (hs1 : s1 ≤ doc.length) (hdoc : doc.length < npos)
    (hs2 : s2 = doc.length ∨ s2 = npos) :
    chainFrom 0 (evs.filterMap tileRange) = some doc.length := by
  simp only [finish] at h
  by_cases hts : s2 ≠ s1
  · rw [if_pos hts] at h
    rcases hmk : mkRange s1 s2 with e | r <;> simp only [hmk] at h
    · exact Except.noConfusion h
    · obtain ⟨hrr, -⟩ := mkRange_ok_inv hmk
      subst hrr
      rcases hat : acpTail p s2 elements with e | ⟨tailE, els1⟩ <;> simp only [hat] at h
      · exact Except.noConfusion h
      · obtain rfl := (Except.ok.inj h).symm
        have hTc : (⟨s1, s2⟩ : LandmarksRange).isComplete = true := by
          rw [allComplete_append, Bool.and_eq_true] at hC
          obtain ⟨hC1, -⟩ := hC
          rw [allComplete_append, Bool.and_eq_true] at hC1
          obtain ⟨hC2, -⟩ := hC1
          rw [allComplete_append, Bool.and_eq_true] at hC2
          have h2 := hC2.2
          simp only [allComplete, List.all_cons, List.all_nil, eventRanges,
            Bool.and_true] at h2
          exact h2
        have hs2len : s2 = doc.length := by
          simp only [LandmarksRange.isComplete] at hTc
          rcases hs2 with h5 | h5
          · exact h5
          · exact absurd h5 (by simpa using hTc)
        have hfm1 : List.filterMap tileRange [LandmarksEvent.Text ⟨s1, s2⟩] =
            [(⟨s1, s2⟩ : LandmarksRange)] := rfl
        have hfm2 : List.filterMap tileRange [LandmarksEvent.eof els1.reverse] = [] := rfl
        simp only [List.filterMap_append, hfm1, hfm2, List.append_nil]
        have hc1 : chainFrom 0 (List.filterMap tileRange acc ++
            [(⟨s1, s2⟩ : LandmarksRange)]) = some s2 := by
          rw [chainFrom_seq _ hchain]
          simp [chainFrom]
        rw [chainFrom_seq _ hc1, acpTail_chain p s2 elements tailE els1 hat, hs2len]
  · rw [if_neg hts] at h
    have hss : s2 = s1 := not_not.mp hts
    rcases hat : acpTail p s2 elements with e | ⟨tailE, els1⟩ <;> simp only [hat] at h
    · exact Except.noConfusion h
    · obtain rfl := (Except.ok.inj h).symm
      have hs2len : s2 = doc.length := by
        rcases hs2 with h5 | h5
        · exact h5
        · omega
      have hfm2 : List.filterMap tileRange [LandmarksEvent.eof els1.reverse] = [] := rfl
      simp only [List.filterMap_append, hfm2, List.append_nil,
        show List.filterMap tileRange ([] : List LandmarksEvent) = [] from rfl]
      rw [chainFrom_seq _ hchain, show s1 = s2 from hss.symm,
        acpTail_chain p s2 elements tailE els1 hat, hs2len]

theorem parseIter_tiling (doc : List Char) (p : LandmarksPolicy)
    (hdoc : doc.length < npos) :
    ∀ fuel s1 s2 elements acc evs,
      parseIter doc p fuel s1 s2 elements acc = .ok evs →
      allComplete evs = true →
      chainFrom 0 (acc.filterMap tileRange) = some s1 →
      s1 ≤ doc.length →
      (s2 ≤ doc.length ∨ s2 = npos) →
      chainFrom 0 (evs.filterMap tileRange) = some doc.length := by
  intro fuel
  induction fuel with
  | zero =>
    intro s1 s2 elements acc evs h
    exact absurd h (by simp [parseIter])
  | succ fuel ih =>
    intro s1 s2 elements acc evs h hC hchain hs1 hs2
    rw [parseIter] at h
    by_cases hlt : s2 < doc.length
    · rw [if_pos hlt] at h
      rcases hb : parseBody doc p s1 s2 elements with e | step <;> simp only [hb] at h
      · exact Except.noConfusion h
      · rcases step with ⟨evs1, els1, a, b⟩ | ⟨evs1, els1, a, b⟩
        · obtain ⟨hcchain, hcb⟩ := (parseBody_tiling doc p s1 s2 elements _ hb hs1
            evs1 els1 a b).1 rfl
          have hCevs1 : allComplete evs1 = true := by
            obtain ⟨rest, hrest⟩ := parseIter_prefix doc p fuel a b els1 (acc ++ evs1) evs h
            rw [hrest, allComplete_append, allComplete_append, Bool.and_eq_true,
              Bool.and_eq_true] at hC
            exact hC.1.2
          obtain ⟨ha, hbb⟩ := hcb hCevs1
          refine ih a b els1 (acc ++ evs1) evs h hC ?_ ha hbb
          rw [List.filterMap_append, chainFrom_seq _ hchain]
          exact hcchain
        · have hCevs1 : allComplete evs1 = true := by
            obtain ⟨rest, hrest⟩ := finish_prefix doc p a b els1 (acc ++ evs1) evs h
            rw [hrest, allComplete_append, allComplete_append, Bool.and_eq_true,
              Bool.and_eq_true] at hC
            exact hC.1.2
          obtain ⟨hcchain, ha, hbn⟩ := (parseBody_tiling doc p s1 s2 elements _ hb hs1
            evs1 els1 a b).2 rfl hCevs1
          refine finish_tiling doc p a b els1 (acc ++ evs1) evs h hC ?_ ha hdoc (Or.inr hbn)
          rw [List.filterMap_append, chainFrom_seq _ hchain]
          exact hcchain
    · rw [if_neg hlt] at h
      refine finish_tiling doc p s1 s2 elements acc evs h hC hchain hs1 hdoc ?_
      rcases hs2 with h5 | h5
      · exact Or.inl (by omega)
      · exact Or.inr h5

/-- C1: for every document shorter than NPOS and every policy, if parse runs to
completion and every range of every emitted event is complete (end != NPOS),
then the Text ranges and the `all` ranges of Comment / CData / Processing /
Declaration / StartTag / EndTag events, in emission order, tile the document
exactly: each starts where the previous ended, from offset 0 to
document.length (synthesized autoclose end tags contribute empty ranges). -/
theorem c1_tiling (doc : List Char) (p : LandmarksPolicy) (hdoc : doc.length < npos)
    (evs : List LandmarksEvent) (h : parse doc p = .ok evs)
    (hall : allComplete evs = true) :
    chainFrom 0 (evs.filterMap tileRange) = some doc.length :=
  parseIter_tiling doc p hdoc (doc.length + 2) 0 0 [] [] evs h hall rfl
    (Nat.zero_le _) (Or.inl (Nat.zero_le _))

theorem c1_tiling_witness :
    chainFrom 0 (((parse docAX xmlPolicy).toOption.getD []).filterMap tileRange) =
      some docAX.length :=
  c1_tiling docAX xmlPolicy (by decide) _ (by rfl) (by decide)

theorem selfClosingMarker_present_iff (doc : List Char) (hdoc : doc.length < npos)
    (EN : Nat) (attrs : List LandmarksAttribute) (sp : Nat)
    (hpa : parseAttributes doc EN = .ok (attrs, sp)) :
    selfClosingMarkerAt doc sp = .present ↔
      (charAt? doc sp = some '/' ∧ charAt? doc (sp + 1) = some '>') := by
  obtain ⟨-, hdisj⟩ := (parseAttrsLoop_spec doc hdoc (doc.length + 2) EN none []).2 attrs sp hpa
  constructor
  · intro hm
    unfold selfClosingMarkerAt at hm
    by_cases hlt : sp < doc.length - 1
    · rw [if_pos hlt] at hm
      by_cases hc : charAt? doc sp = some '/'
      · refine ⟨hc, ?_⟩
        rcases hdisj with h1 | h1 | h1 | ⟨h1, h2⟩
        · omega
        · omega
        · rw [h1] at hc
          exact absurd (Option.some.inj hc) (by decide)
        · exact h2
      · rw [if_neg hc] at hm
        exact absurd hm (by decide)
    · rw [if_neg hlt] at hm
      exact absurd hm (by decide)
  · rintro ⟨hc, hc2⟩
    have hsp1 : sp + 1 < doc.length := by
      have h4 : doc.get? (sp + 1) = some '>' := hc2
      obtain ⟨hlt4, -⟩ := List.get?_eq_some.1 h4
      exact hlt4
    unfold selfClosingMarkerAt
    rw [if_pos (by omega), if_pos hc]

theorem autoclosePops_no_startTag (pos : Nat) (state : EndTagState) :
    ∀ n stack evs st2, autoclosePops pos state n stack = .ok (evs, st2) →
      ∀ t : LandmarksStartTag, LandmarksEvent.startTag t ∉ evs := by
  intro n
  induction n with
  | zero =>
    intro stack evs st2 h t
    obtain ⟨h1, -⟩ := Prod.mk.injEq _ _ _ _ ▸ Except.ok.inj h
    subst h1
    simp
  | succ n ih =>
    intro stack evs st2 h t
    cases stack with
    | nil =>
      obtain ⟨h1, -⟩ := Prod.mk.injEq _ _ _ _ ▸ Except.ok.inj h
      subst h1
      simp
    | cons x rest =>
      simp only [autoclosePops, mkRange_self] at h
      rcases hrec : autoclosePops pos state n rest with e | ⟨evs1, st1⟩ <;>
        simp only [hrec] at h
      · exact Except.noConfusion h
      · obtain ⟨h1, -⟩ := Prod.mk.injEq _ _ _ _ ▸ Except.ok.inj h
        subst h1
        intro hmem
        simp only [List.mem_append, List.mem_cons, List.not_mem_nil] at hmem
        rcases hmem with (he | he | he) | he
        · exact LandmarksEvent.noConfusion he
        · exact LandmarksEvent.noConfusion he
        · exact he
        · exact ih rest evs1 st1 hrec t he

/-- C4 (amended): a StartTag event emitted by the start-tag branch (not one of
the carried-in text events) has selfClosingMarker == Present iff the attribute
scan stopped on a '/' character immediately followed by the terminating '>'.
A '/' that is the last byte of an unquoted attribute value is consumed as part
of the value, so the marker is Absent in that case even though the byte before
the '>' is '/'. -/
theorem c4_marker (doc : List Char) (hdoc : doc.length < npos) (p : LandmarksPolicy)
    (textEvents : List LandmarksEvent) (f : Nat) (elements : List TagID) (step : Step)
    (h : parseStartTagBranch doc p textEvents f elements = .ok step)
    (evs : List LandmarksEvent) (els : List TagID) (a b : Nat)
    (hstep : step = .cont evs els a b)
    (TAG : LandmarksStartTag) (hmem : LandmarksEvent.startTag TAG ∈ evs)
    (hnotin : LandmarksEvent.startTag TAG ∉ textEvents) :
    ∃ attrs sp, parseAttributes doc (findFirstOf doc element_name_end
        (p.getElementNameStart doc (f + openTok.length))) = .ok (attrs, sp) ∧
      (TAG.selfClosingMarker = .present ↔
        (charAt? doc sp = some '/' ∧ charAt? doc (sp + 1) = some '>')) := by
  rcases parseStartTagBranch_cases doc p textEvents f elements step h with
    ⟨-, hs⟩ | ⟨-, hen, hs⟩ |
    ⟨-, hen, TID, sweepEvs, els1, attrs, sp1, PRE, TAG2, hTID, hpops, hpa, hPRE, hTAG, hrest⟩
  · subst hs
    obtain ⟨rfl, -, -, -⟩ := Step.cont.inj hstep.symm
    exact absurd hmem hnotin
  · subst hs
    exact Step.noConfusion hstep.symm
  · have hmarker : TAG2.selfClosingMarker = selfClosingMarkerAt doc sp1 := by rw [hTAG]
    have hTT : LandmarksEvent.startTag TAG ∈ (textEvents ++ sweepEvs
        ++ [LandmarksEvent.startTagOpen PRE] ++ attrs.map LandmarksEvent.startTagAttr
        ++ [LandmarksEvent.startTag TAG2]) → TAG = TAG2 := by
      intro hm2
      simp only [List.mem_append, List.mem_singleton, List.mem_map] at hm2
      rcases hm2 with (((he | he) | he) | ⟨a2, -, he⟩) | he
      · exact absurd he hnotin
      · exact absurd he (autoclosePops_no_startTag f .autoclosedBySibling _ elements
          sweepEvs els1 hpops TAG)
      · exact LandmarksEvent.noConfusion he
      · exact LandmarksEvent.noConfusion he
      · exact (LandmarksEvent.startTag.inj he)
    rcases hrest with ⟨hsc, hs⟩ | ⟨hsc, hop, hs⟩ | ⟨hsc, hop, sp2, hos, hs⟩ <;> subst hs <;>
      obtain ⟨rfl, -, -, -⟩ := Step.cont.inj hstep.symm <;>
      obtain rfl := hTT hmem <;>
      exact ⟨attrs, sp1, hpa, by
        rw [hmarker]
        exact selfClosingMarker_present_iff doc hdoc _ attrs sp1 hpa⟩

/-- A minimal marked self-closing start tag, used to witness C4. -/
def docSelf : List Char := ['<', 'a', '/', '>']

theorem c4_marker_witness :
    ∃ attrs sp, parseAttributes docSelf (findFirstOf docSelf element_name_end
        (xmlPolicy.getElementNameStart docSelf (0 + openTok.length))) = .ok (attrs, sp) ∧
      ((LandmarksStartTag.mk "a" ⟨1, 2⟩ ⟨0, 4⟩ .allowed .present).selfClosingMarker = .present ↔
        (charAt? docSelf sp = some '/' ∧ charAt? docSelf (sp + 1) = some '>')) :=
  c4_marker docSelf (by decide) xmlPolicy [] 0 []
    (.cont [.startTagOpen ⟨"a", ⟨1, 2⟩, ⟨0, 2⟩, .allowed, .absent⟩,
            .startTag ⟨"a", ⟨1, 2⟩, ⟨0, 4⟩, .allowed, .present⟩] [] 4 4)
    (by rfl)
    [.startTagOpen ⟨"a", ⟨1, 2⟩, ⟨0, 2⟩, .allowed, .absent⟩,
     .startTag ⟨"a", ⟨1, 2⟩, ⟨0, 4⟩, .allowed, .present⟩] [] 4 4 rfl
    ⟨"a", ⟨1, 2⟩, ⟨0, 4⟩, .allowed, .present⟩
    (by simp)
    (by simp)

/-- C8 (amended): when the document ends inside a start-tag name (there is a
"<", the policy accepts the name start, no name-end character follows, and the
opener chosen is the plain start tag), the parser emits the pending text run,
then a StartTagPrefix and a StartTag whose name and all ranges end at NPOS,
and then terminates: the truncated element is never pushed, but before
EndOfInput the autoclose-by-parent tail still runs on the stack as it stood,
so EndOfInput reports that stack minus its autoclosed-by-parent inner run. -/
theorem c8_truncated (doc : List Char) (p : LandmarksPolicy) (fuel s1 s2 : Nat)
    (elements : List TagID) (acc evs : List LandmarksEvent)
    (h : parseIter doc p (fuel + 1) s1 s2 elements acc = .ok evs)
    (hlt : s2 < doc.length)
    (hf : find doc openTok s2 ≠ npos)
    (hch : choose doc (find doc openTok s2) open_choices = some openTok)
    (hsn : p.getElementNameStart doc (find doc openTok s2 + openTok.length) ≠ npos)
    (hen : findFirstOf doc element_name_end
      (p.getElementNameStart doc (find doc openTok s2 + openTok.length)) = npos) :
    ∃ textEvents tailEvents elements1,
      (textEvents = [] ∨ ∃ r, textEvents = [LandmarksEvent.Text r]) ∧
      acpTail p npos elements = .ok (tailEvents, elements1) ∧
      evs = acc ++ textEvents ++
        [LandmarksEvent.startTagOpen
          ⟨UnknownTagID,
           ⟨p.getElementNameStart doc (find doc openTok s2 + openTok.length), npos⟩,
           ⟨find doc openTok s2, npos⟩, .allowed, .absent⟩,
         LandmarksEvent.startTag
          ⟨UnknownTagID,
           ⟨p.getElementNameStart doc (find doc openTok s2 + openTok.length), npos⟩,
           ⟨find doc openTok s2, npos⟩, .allowed, .absent⟩] ++
        tailEvents ++ [LandmarksEvent.eof elements1.reverse] := by
  rw [parseIter, if_pos hlt] at h
  rcases hb : parseBody doc p s1 s2 elements with e | step <;> simp only [hb] at h
  · exact Except.noConfusion h
  · have hbr : ∃ tE, (tE = [] ∨ ∃ r, tE = [LandmarksEvent.Text r]) ∧
        parseStartTagBranch doc p tE (find doc openTok s2) elements = .ok step := by
      simp only [parseBody] at hb
      rw [if_neg hf] at hb
      by_cases hts : find doc openTok s2 ≠ s1
      · rw [if_pos hts] at hb
        rcases hmk : mkRange s1 (find doc openTok s2) with e2 | r <;> simp only [hmk] at hb
        · exact Except.noConfusion hb
        · simp only [hch] at hb
          rw [if_true] at hb
          exact ⟨[LandmarksEvent.Text r], Or.inr ⟨r, rfl⟩, hb⟩
      · rw [if_neg hts] at hb
        simp only [hch] at hb
        rw [if_true] at hb
        exact ⟨[], Or.inl rfl, hb⟩
    obtain ⟨tE, htE, hbr2⟩ := hbr
    rcases parseStartTagBranch_cases doc p tE (find doc openTok s2) elements step hbr2 with
      ⟨hsn2, -⟩ | ⟨-, -, hs⟩ |
      ⟨-, hen2, TID, sweepEvs, els1, attrs, sp1, PRE, TAG, hTID, hpops, hpa, hPRE, hTAG, hrest⟩
    · exact absurd hsn2 hsn
    · subst hs
      simp only [] at h
      rcases hfin : acpTail p npos elements with e2 | ⟨tailE, els2⟩
      · exfalso
        have : finish doc p npos npos elements (acc ++ (tE ++ [LandmarksEvent.startTagOpen
            ⟨UnknownTagID,
             ⟨p.getElementNameStart doc (find doc openTok s2 + openTok.length), npos⟩,
             ⟨find doc openTok s2, npos⟩, .allowed, .absent⟩,
           LandmarksEvent.startTag
            ⟨UnknownTagID,
             ⟨p.getElementNameStart doc (find doc openTok s2 + openTok.length), npos⟩,
             ⟨find doc openTok s2, npos⟩, .allowed, .absent⟩])) = .ok evs := h
        simp only [finish, if_neg (show ¬(npos ≠ npos) from not_not_intro rfl), hfin] at this
        exact Except.noConfusion this
      · have hfin2 : finish doc p npos npos elements (acc ++ (tE ++ [LandmarksEvent.startTagOpen
            ⟨UnknownTagID,
             ⟨p.getElementNameStart doc (find doc openTok s2 + openTok.length), npos⟩,
             ⟨find doc openTok s2, npos⟩, .allowed, .absent⟩,
           LandmarksEvent.startTag
            ⟨UnknownTagID,
             ⟨p.getElementNameStart doc (find doc openTok s2 + openTok.length), npos⟩,
             ⟨find doc openTok s2, npos⟩, .allowed, .absent⟩])) = .ok evs := h
        simp only [finish, if_neg (show ¬(npos ≠ npos) from not_not_intro rfl), hfin] at hfin2
        refine ⟨tE, tailE, els2, htE, rfl, ?_⟩
        obtain rfl := (Except.ok.inj hfin2).symm
        simp [List.append_assoc]
    · exact absurd hen hen2

theorem c8_truncated_witness :
    ∃ textEvents tailEvents elements1,
      (textEvents = [] ∨ ∃ r, textEvents = [LandmarksEvent.Text r]) ∧
      acpTail acpPolicy npos ["p"] = .ok (tailEvents, elements1) ∧
      c8Events = [LandmarksEvent.startTagOpen ⟨"p", ⟨1, 2⟩, ⟨0, 2⟩, .allowed, .absent⟩,
          LandmarksEvent.startTag ⟨"p", ⟨1, 2⟩, ⟨0, 3⟩, .allowed, .absent⟩] ++ textEvents ++
        [LandmarksEvent.startTagOpen
          ⟨UnknownTagID,
           ⟨acpPolicy.getElementNameStart docPA (find docPA openTok 3 + openTok.length), npos⟩,
           ⟨find docPA openTok 3, npos⟩, .allowed, .absent⟩,
         LandmarksEvent.startTag
          ⟨UnknownTagID,
           ⟨acpPolicy.getElementNameStart docPA (find docPA openTok 3 + openTok.length), npos⟩,
           ⟨find docPA openTok 3, npos⟩, .allowed, .absent⟩] ++
        tailEvents ++ [LandmarksEvent.eof elements1.reverse] :=
  c8_truncated docPA acpPolicy 0 3 3 ["p"]
    [LandmarksEvent.startTagOpen ⟨"p", ⟨1, 2⟩, ⟨0, 2⟩, .allowed, .absent⟩,
     LandmarksEvent.startTag ⟨"p", ⟨1, 2⟩, ⟨0, 3⟩, .allowed, .absent⟩]
    c8Events (by rfl) (by decide) (by decide) (by rfl) (by decide) (by decide)

theorem drop_two_cons (doc : List Char) (q : Nat) (c1 c2 : Char)
    (h1 : charAt? doc q = some c1) (h2 : charAt? doc (q + 1) = some c2) :
    doc.drop q = c1 :: c2 :: doc.drop (q + 2) := by
  have hq1 : doc.get? q = some c1 := h1
  have hq2 : doc.get? (q + 1) = some c2 := h2
  obtain ⟨hl1, hg1⟩ := List.get?_eq_some.1 hq1
  obtain ⟨hl2, hg2⟩ := List.get?_eq_some.1 hq2
  have e1 : doc[q] = c1 := hg1
  have e2 : doc[q + 1] = c2 := hg2
  rw [List.drop_eq_getElem_cons hl1, List.drop_eq_getElem_cons hl2, e1, e2]

theorem find_self_lt (doc : List Char) (hdoc : doc.length < npos) (q : Nat) (c2 : Char)
    (hq1 : charAt? doc q = some '<') (hq2 : charAt? doc (q + 1) = some c2) :
    find doc openTok q = q := by
  have hql : q < doc.length := (List.get?_eq_some.1 (show doc.get? q = some '<' from hq1)).1
  have hd : doc.drop q = '<' :: c2 :: doc.drop (q + 2) := drop_two_cons doc q '<' c2 hq1 hq2
  have hpre : openTok.isPrefixOf (doc.drop q) = true := by
    rw [hd]
    rfl
  have hle := find_le_of_prefix doc openTok q q le_rfl hpre hql
  rcases find_cases doc openTok q with hc | ⟨hc, -, -⟩
  · omega
  · omega

theorem choose_endTag (doc : List Char) (q : Nat)
    (hq1 : charAt? doc q = some '<') (hq2 : charAt? doc (q + 1) = some '/') :
    choose doc q open_choices = some open_end_tag := by
  have hd : doc.drop q = '<' :: '/' :: doc.drop (q + 2) := drop_two_cons doc q '<' '/' hq1 hq2
  unfold choose open_choices
  rw [hd]
  simp [open_end_tag, open_comment, open_cdata, open_declaration, open_processing, openTok,
    List.find?, List.isPrefixOf]

theorem opaqueScan_success (doc : List Char) (p : LandmarksPolicy) (tagID : TagID)
    (hdoc : doc.length < npos) :
    ∀ fuel sp q, opaqueScan doc p tagID fuel sp = .ok q → q ≠ npos →
      charAt? doc q = some '<' ∧ charAt? doc (q + 1) = some '/' ∧
      opaqueMatchesAt doc p tagID (q + open_end_tag.length) = true := by
  intro fuel
  induction fuel with
  | zero => intro sp q h; simp [opaqueScan] at h
  | succ n ih =>
    intro sp q h hq
    simp only [opaqueScan] at h
    by_cases hsp : sp = npos
    · rw [if_pos hsp] at h
      exact absurd (Except.ok.inj h).symm hq
    · rw [if_neg hsp] at h
      by_cases hlt : findEnd doc open_end_tag sp < doc.length
      · rw [if_pos hlt] at h
        by_cases hm : opaqueMatchesAt doc p tagID (findEnd doc open_end_tag sp) = true
        · rw [if_pos hm] at h
          obtain rfl := (Except.ok.inj h).symm
          have hfne : find doc open_end_tag sp ≠ npos := by
            intro hcon
            rw [findEnd, hcon, if_neg (not_not_intro rfl)] at hlt
            omega
          have hfe : findEnd doc open_end_tag sp = find doc open_end_tag sp + 2 := by
            rw [findEnd, if_pos hfne]
            rfl
          obtain ⟨-, -, hpre⟩ := (find_cases doc open_end_tag sp).resolve_left hfne
          have hc0 := isPrefixOf_charAt open_end_tag doc (find doc open_end_tag sp) hpre 0
            (by decide)
          have hc1 := isPrefixOf_charAt open_end_tag doc (find doc open_end_tag sp) hpre 1
            (by decide)
          have holen : open_end_tag.length = 2 := rfl
          rw [hfe, holen]
          simp only [Nat.add_sub_cancel]
          refine ⟨?_, ?_, ?_⟩
          · simpa using hc0
          · simpa using hc1
          · rw [← hfe]
            exact hm
        · rw [if_neg hm] at h
          exact ih _ q h hq
      · rw [if_neg hlt] at h
        exact ih _ q h hq

/-- C7 (amended): when the parser resumes after a successful opaque-content
scan (the search position q carries "</", as opaqueScan guarantees on success),
the iteration emits at most one Text event for the opaque content: exactly one
spanning [E, q) when the content is non-empty (q != E) and none when it is
empty (q = E), followed immediately by the end-tag events of the "</" at q
(any autoclose sweep, the EndTagPrefix, the attribute events and the EndTag).
No Comment, CData, Processing, Declaration or StartTag event is emitted from
the opaque content region. -/
theorem c7_opaque_step (doc : List Char) (p : LandmarksPolicy) (hdoc : doc.length < npos)
    (E q : Nat) (elements : List TagID) (step : Step)
    (hq1 : charAt? doc q = some '<') (hq2 : charAt? doc (q + 1) = some '/')
    (hEq : E ≤ q)
    (h : parseBody doc p E q elements = .ok step) :
    ∃ start_name end_name tagID0 tagID1 est sevs els1 attrs sp1,
      tagID0 = (if end_name = npos then UnknownTagID
        else p.getTagID (String.mk (substr doc
          (if start_name > doc.length then doc.length else start_name)
          (end_name - (if start_name > doc.length then doc.length else start_name))))) ∧
      endTagResolve p q tagID0 elements = .ok (tagID1, est, sevs, els1) ∧
      parseAttributes doc end_name = .ok (attrs, sp1) ∧
      step = .cont ((if q = E then [] else [LandmarksEvent.Text ⟨E, q⟩])
        ++ sevs ++ [.endTagOpen ⟨tagID1, ⟨start_name, end_name⟩, ⟨q, end_name⟩, est⟩]
        ++ attrs.map LandmarksEvent.endTagAttr
        ++ [.endTag ⟨tagID1, ⟨start_name, end_name⟩, ⟨q, findEnd doc close sp1⟩, est⟩])
        els1 (findEnd doc close sp1) (findEnd doc close sp1) := by
  have hql : q < doc.length := (List.get?_eq_some.1 (show doc.get? q = some '<' from hq1)).1
  have hfq : find doc openTok q = q := find_self_lt doc hdoc q '/' hq1 hq2
  have hch : choose doc q open_choices = some open_end_tag := choose_endTag doc q hq1 hq2
  simp only [parseBody, hfq] at h
  rw [if_neg (show ¬q = npos by omega)] at h
  by_cases hqe : q ≠ E
  · rw [if_pos hqe] at h
    simp only [mkRange_ok hEq] at h
    simp only [hch] at h
    rw [if_true] at h
    obtain ⟨SN, EN, T0, tagID1, est, sevs, els1, attrs, sp1, hSN, hEN, hT0, hetr, hpa, hs⟩ :=
      parseEndTagBranch_cases doc p [LandmarksEvent.Text ⟨E, q⟩] q elements step h
    refine ⟨SN, EN, T0, tagID1, est, sevs, els1, attrs, sp1, hT0, hetr, hpa, ?_⟩
    rw [hs, if_neg (show ¬q = E from hqe)]
  · rw [if_neg hqe] at h
    simp only [hch] at h
    rw [if_true] at h
    obtain ⟨SN, EN, T0, tagID1, est, sevs, els1, attrs, sp1, hSN, hEN, hT0, hetr, hpa, hs⟩ :=
      parseEndTagBranch_cases doc p [] q elements step h
    refine ⟨SN, EN, T0, tagID1, est, sevs, els1, attrs, sp1, hT0, hetr, hpa, ?_⟩
    rw [hs, if_pos (show q = E from not_not.mp hqe)]

theorem c7_opaque_step_witness :
    ∃ start_name end_name tagID0 tagID1 est sevs els1 attrs sp1,
      tagID0 = (if end_name = npos then UnknownTagID
        else opqPolicy.getTagID (String.mk (substr docOpq
          (if start_name > docOpq.length then docOpq.length else start_name)
          (end_name - (if start_name > docOpq.length then docOpq.length else start_name))))) ∧
      endTagResolve opqPolicy 3 tagID0 ["s"] = .ok (tagID1, est, sevs, els1) ∧
      parseAttributes docOpq end_name = .ok (attrs, sp1) ∧
      Step.cont [LandmarksEvent.endTagOpen ⟨"s", ⟨5, 6⟩, ⟨3, 6⟩, .matched⟩,
          LandmarksEvent.endTag ⟨"s", ⟨5, 6⟩, ⟨3, 7⟩, .matched⟩] ([] : List TagID) 7 7 =
        .cont ((if (3 : Nat) = 3 then [] else [LandmarksEvent.Text ⟨3, 3⟩])
          ++ sevs ++ [.endTagOpen ⟨tagID1, ⟨start_name, end_name⟩, ⟨3, end_name⟩, est⟩]
          ++ attrs.map LandmarksEvent.endTagAttr
          ++ [.endTag ⟨tagID1, ⟨start_name, end_name⟩, ⟨3, findEnd docOpq close sp1⟩, est⟩])
          els1 (findEnd docOpq close sp1) (findEnd docOpq close sp1) :=
  c7_opaque_step docOpq opqPolicy (by decide) 3 3 ["s"]
    (.cont [LandmarksEvent.endTagOpen ⟨"s", ⟨5, 6⟩, ⟨3, 6⟩, .matched⟩,
       LandmarksEvent.endTag ⟨"s", ⟨5, 6⟩, ⟨3, 7⟩, .matched⟩] [] 7 7)
    (by decide) (by decide) (by decide) (by rfl)
